import Mathlib

/-!
# polyfit: least-squares polynomial regression

A shallow embedding of `src/polyfit.c`, `src/matrix.c` and `src/matrix.h`.

Conventions of the embedding:

* `double` values are elements of a linearly ordered field `K` and their arithmetic is that of
  the field: this is the exact arithmetic the statements about `pf_fit` are made in; every
  definition is computable and can be run at `K := ℚ`. Where a statement is about the
  arithmetic of `double` itself, `pf_eval` is taken with its product and sum as parameters
  (`pf_eval_ops`) and run with `double_mul` and `double_add`, which round to nearest, ties to
  even, at 53 bits.
* `unsigned int` / `pf_len_t` values are natural numbers; the flat index
  `row * cols + col` of `matrix_get` and the initial `order - 1` of `pf_fit` are
  reduced modulo `UINT_MOD = 2 ^ 32` as the C arithmetic does.
* a `double *` is a function `Nat → K` (cell contents by index), a possibly-NULL pointer an
  `Option`.
* `malloc` is an oracle: the `k`-th request of a call succeeds iff `malloc_ok k`, and the
  block it returns initially holds `junk k`. The oracle does not see the byte count
  `data_len = sizeof(double) * nr * nc` of the request, which the C code computes in `size_t`:
  a run with `nr * nc >= 2 ^ 61`, where this count wraps, is a run of the model only. The
  concrete runs of this file that need a bound on it state it with `data_len`.
* `size_t` values (`head`, `len`, the value `pf_strpoly` returns) and the `int` returned by
  `snprintf` are natural numbers: they are lengths of texts.
* a `for (i = 0; i < n; i++)` loop is `for_loop n body`, also where the counter is an `int`
  compared with an `unsigned int` bound: the bound is then below `2 ^ 31` in the concrete
  runs of this file.
-/

namespace Polyfit

/-! ## Machine integers, status codes, loops -/

/-- Number of values of `unsigned int` (`pf_len_t`, matrix dimensions and indices). -/
def UINT_MOD : Nat := 2 ^ 32

/-- Number of non-negative values of `int` (the type of the `%d` argument). -/
def INT_MOD : Nat := 2 ^ 31

/-- Number of values of `size_t` (64 bits). -/
def SIZE_MOD : Nat := 2 ^ 64

/-- The byte count `sizeof(double) * nr * nc` of `MATRIX_ALLOC`, computed in `size_t`. -/
def data_len (nr nc : Nat) : Nat := (8 * nr * nc) % SIZE_MOD

/-- The least number of points whose design matrix of 3 columns has more than `2 ^ 32` cells:
`3 * 1431655766 = 2 ^ 32 + 2`. -/
def wrap_count : Nat := 1431655766

/-- The type `pf_err_t` (`uint_fast8_t`) of status codes. -/
abbrev pf_err_t := Nat

/-- Success. -/
abbrev PF_OK : pf_err_t := 0
/-- Allocation failure. -/
abbrev PF_EALLOC : pf_err_t := 1
/-- Bad parameter. -/
abbrev PF_EPARAM : pf_err_t := 2
/-- Unable to solve. -/
abbrev PF_ESOLVE : pf_err_t := 3

/-- The loop `for (i = 0; i < n; i++) s = body i s`, started in state `s`. -/
def for_loop {σ : Type} : Nat → (Nat → σ → σ) → σ → σ
  | 0, _, s => s
  | n + 1, body, s => body n (for_loop n body s)

/-! ## matrix.h / matrix.c -/

/-- A matrix of values stored in row-major order (`struct matrix`). -/
structure matrix_t (K : Type) where
  rows : Nat
  cols : Nat
  data : Nat → K

/-- The allocator and build configuration a call runs against. -/
structure pf_env (K : Type) where
  /-- whether the `k`-th `malloc` request of the call succeeds -/
  malloc_ok : Nat → Bool
  /-- the uninitialised contents of the block returned by the `k`-th request -/
  junk : Nat → Nat → K
  /-- whether the library was built with `NDEBUG` -/
  ndebug : Bool

section Matrix

variable {K : Type}

/-- The flat index `(row * matrix->cols) + col`, computed in `unsigned int`. -/
def matrix_idx (matrix : matrix_t K) (row col : Nat) : Nat :=
  (row * matrix.cols + col) % UINT_MOD

/-- The value `*matrix_get(matrix, row, col)`. -/
def matrix_get_val (matrix : matrix_t K) (row col : Nat) : K :=
  matrix.data (matrix_idx matrix row col)

/-- The store `*matrix_get(matrix, row, col) = val`. -/
def matrix_set_val (matrix : matrix_t K) (row col : Nat) (val : K) : matrix_t K :=
  { matrix with data := Function.update matrix.data (matrix_idx matrix row col) val }

/-- The macro `MATRIX_ALLOC(nrows, ncols)` as request number `k`: `none` is `return NULL`.
The request is for `sizeof(matrix_t) + data_len nrows ncols` bytes; whether it is granted is
the oracle's answer `malloc_ok k`. -/
def MATRIX_ALLOC (e : pf_env K) (k nrows ncols : Nat) : Option (matrix_t K) :=
  if e.malloc_ok k then some ⟨nrows, ncols, e.junk k⟩ else none

/-- The effect of `memset(data, 0, data_len)` on a freshly allocated matrix. -/
def matrix_memset0 [Zero K] (matrix : matrix_t K) : matrix_t K :=
  { matrix with data := fun i => if i < matrix.rows * matrix.cols then 0 else matrix.data i }

/-- Allocates a matrix and leaves its contents uninitialised. -/
def matrix_raw (e : pf_env K) (k rows cols : Nat) : Option (matrix_t K) :=
  MATRIX_ALLOC e k rows cols

/-- Allocates a matrix and initialises its contents to 0. -/
def matrix_create [Zero K] (e : pf_env K) (k rows cols : Nat) : Option (matrix_t K) :=
  (MATRIX_ALLOC e k rows cols).map matrix_memset0

/-- Allocates the transpose of `src`. -/
def matrix_transpose (e : pf_env K) (k : Nat) (src : matrix_t K) : Option (matrix_t K) :=
  let nr := src.cols
  let nc := src.rows
  (MATRIX_ALLOC e k nr nc).map fun matrix =>
    for_loop nr (fun r matrix =>
      for_loop nc (fun c matrix =>
        matrix_set_val matrix r c (matrix_get_val src c r)) matrix) matrix

/-- Allocates the product of `m1` and `m2`. -/
def matrix_product [Zero K] [Add K] [Mul K] (e : pf_env K) (k : Nat) (m1 m2 : matrix_t K) :
    Option (matrix_t K) :=
  if !e.ndebug && m1.cols != m2.rows then none
  else
    let nr := m1.rows
    let nc := m2.cols
    (MATRIX_ALLOC e k nr nc).map fun matrix =>
      for_loop nr (fun i matrix =>
        for_loop nc (fun j matrix =>
          for_loop m1.cols (fun k matrix =>
            matrix_set_val matrix i j
              (matrix_get_val matrix i j + matrix_get_val m1 i k * matrix_get_val m2 k j))
            matrix) matrix) (matrix_memset0 matrix)

end Matrix

/-! ## polyfit.h / polyfit.c -/

/-- A sequence of 2D points (`struct pf_points`): a count and the two accessors. -/
structure pf_points_t (K : Type) where
  count : Nat
  x : Nat → K
  y : Nat → K

/-- What a call of `pf_fit` does that its caller can observe besides the result. -/
inductive pf_event where
  /-- a matrix was allocated by request number `id` -/
  | alloc (id : Nat)
  /-- the matrix of request `id` was passed to `matrix_destroy` -/
  | destroy (id : Nat)
  /-- the call `points->x(points, idx)` was made -/
  | get_x (idx : Nat)
  /-- the call `points->y(points, idx)` was made -/
  | get_y (idx : Nat)
  /-- the cell `coefficients[i]` was written -/
  | store (i : Nat)
  deriving DecidableEq

/-- Outcome of `pf_fit`: the status, the caller's coefficient buffer after the call and the
events of the call in program order. -/
structure pf_fit_result (K : Type) where
  err : pf_err_t
  coefficients : Option (Nat → K)
  log : List pf_event

/-- Returns a human-readable string describing a status code (`pf_strerror`). -/
def pf_strerror (code : pf_err_t) : String :=
  match code with
  | 0 => "OK"
  | 1 => "Allocation failure"
  | 2 => "Bad parameter"
  | 3 => "Unable to solve"
  | _ => "Unknown error"

section Fit

variable {K : Type} [LinearOrderedField K]

/-- Lines 81-86: fills matrix A, calling the x accessor once per cell. -/
def pf_fit_fill_a (points : pf_points_t K) (order degree : Nat)
    (s : matrix_t K × List pf_event) : matrix_t K × List pf_event :=
  for_loop points.count (fun r s =>
    for_loop order (fun c s =>
      let tx := points.x r
      (matrix_set_val s.1 r c (tx ^ ((degree + UINT_MOD - c) % UINT_MOD)),
        s.2 ++ [pf_event.get_x r])) s) s

/-- Lines 94-97: fills matrix B, calling the y accessor once per row. -/
def pf_fit_fill_b (points : pf_points_t K)
    (s : matrix_t K × List pf_event) : matrix_t K × List pf_event :=
  for_loop points.count (fun r s =>
    let ty := points.y r
    (matrix_set_val s.1 r 0 ty, s.2 ++ [pf_event.get_y r])) s

/-- Lines 129-137: eliminates column `c` from every row but the pivot row `pr`. -/
def pf_fit_eliminate (c pr : Nat) (prv : K) (s : matrix_t K × matrix_t K) :
    matrix_t K × matrix_t K :=
  for_loop s.1.rows (fun r s =>
    if r = pr then s
    else
      let trv := matrix_get_val s.1 r c
      let factor := trv / prv
      let mat_ata := for_loop s.1.cols (fun c2 mat_ata =>
        matrix_set_val mat_ata r c2
          (matrix_get_val mat_ata r c2 - matrix_get_val mat_ata pr c2 * factor)) s.1
      let mat_atb := matrix_set_val s.2 r 0
        (matrix_get_val s.2 r 0 - matrix_get_val s.2 pr 0 * factor)
      (mat_ata, mat_atb)) s

/-- Lines 122-138: the elimination loop on `(mat_ata, mat_atb)`; `none` is the exit
`err = PF_ESOLVE; goto ex_5` taken at a pivot equal to `0.0`. -/
def pf_fit_solve (s : matrix_t K × matrix_t K) : Option (matrix_t K × matrix_t K) :=
  for_loop s.1.cols (fun c s =>
    s.bind fun s =>
      let pr := c
      let prv := matrix_get_val s.1 pr c
      if prv = 0 then none else some (pf_fit_eliminate c pr prv s)) (some s)

/-- Lines 139-144: divides each pivot and the matching entry of `mat_atb` by the pivot. -/
def pf_fit_normalise (s : matrix_t K × matrix_t K) : matrix_t K × matrix_t K :=
  for_loop s.1.cols (fun c s =>
    let pr := c
    let prv := matrix_get_val s.1 pr c
    (matrix_set_val s.1 pr c (matrix_get_val s.1 pr c / prv),
      matrix_set_val s.2 pr 0 (matrix_get_val s.2 pr 0 / prv))) s

/-- Lines 146-148: copies the solution into the caller's buffer. -/
def pf_fit_copy (order : Nat) (mat_atb : matrix_t K)
    (s : (Nat → K) × List pf_event) : (Nat → K) × List pf_event :=
  for_loop order (fun i s =>
    (Function.update s.1 i (matrix_get_val mat_atb i 0), s.2 ++ [pf_event.store i])) s

/-- Fits an `order`-coefficient polynomial to `points` (`pf_fit`). The labels `ex_5` ...
`ex_1` appear as the `destroy` events each exit appends. -/
def pf_fit (e : pf_env K) (points : Option (pf_points_t K)) (order : Nat)
    (coefficients : Option (Nat → K)) : pf_fit_result K :=
  let degree := (order + UINT_MOD - 1) % UINT_MOD
  match points, coefficients with
  | none, _ => ⟨PF_EPARAM, coefficients, []⟩
  | some _, none => ⟨PF_EPARAM, none, []⟩
  | some points, some coef =>
    let point_count := points.count
    if point_count < order then ⟨PF_EPARAM, some coef, []⟩
    else
      match matrix_raw e 0 point_count order with
      | none => ⟨PF_EALLOC, some coef, []⟩
      | some mat_a =>
        let sa := pf_fit_fill_a points order degree (mat_a, [pf_event.alloc 0])
        match matrix_create e 1 point_count 1 with
        | none => ⟨PF_EALLOC, some coef, sa.2 ++ [pf_event.destroy 0]⟩
        | some mat_b =>
          let sb := pf_fit_fill_b points (mat_b, sa.2 ++ [pf_event.alloc 1])
          match matrix_transpose e 2 sa.1 with
          | none => ⟨PF_EALLOC, some coef, sb.2 ++ [pf_event.destroy 1, pf_event.destroy 0]⟩
          | some mat_at =>
            match matrix_product e 3 mat_at sa.1 with
            | none => ⟨PF_EALLOC, some coef, sb.2 ++ [pf_event.alloc 2, pf_event.destroy 2,
                pf_event.destroy 1, pf_event.destroy 0]⟩
            | some mat_ata =>
              match matrix_product e 4 mat_at sb.1 with
              | none => ⟨PF_EALLOC, some coef, sb.2 ++ [pf_event.alloc 2, pf_event.alloc 3,
                  pf_event.destroy 3, pf_event.destroy 2, pf_event.destroy 1,
                  pf_event.destroy 0]⟩
              | some mat_atb =>
                let log := sb.2 ++ [pf_event.alloc 2, pf_event.alloc 3, pf_event.alloc 4]
                let ex_5 := [pf_event.destroy 4, pf_event.destroy 3, pf_event.destroy 2,
                  pf_event.destroy 1, pf_event.destroy 0]
                match pf_fit_solve (mat_ata, mat_atb) with
                | none => ⟨PF_ESOLVE, some coef, log ++ ex_5⟩
                | some s =>
                  let s := pf_fit_normalise s
                  let out := pf_fit_copy order s.2 (coef, log)
                  ⟨PF_OK, some out.1, out.2 ++ ex_5⟩

/-- Fits a polynomial to points given as two arrays (`pf_fit_easy`). -/
def pf_fit_easy (e : pf_env K) (count : Nat) (xs ys : Nat → K) (order : Nat)
    (coefficients : Option (Nat → K)) : pf_fit_result K :=
  pf_fit e (some ⟨count, xs, ys⟩) order coefficients

/-- The `while (1)` loop of `pf_eval`, entered with index `i`, power `q` and sum `n`. -/
def pf_eval_loop (coefficients : Nat → K) (x : K) : Nat → K → K → K
  | 0, q, n => n + q * x * coefficients 0
  | i + 1, q, n => pf_eval_loop coefficients x i (q * x) (n + q * x * coefficients (i + 1))

/-- Computes the value of the polynomial at `x` (`pf_eval`). -/
def pf_eval (order : Nat) (coefficients : Nat → K) (x : K) : K :=
  if order = 0 then 0
  else
    let n := coefficients (order - 1)
    if order = 1 then n
    else pf_eval_loop coefficients x (order - 2) 1 n

end Fit

/-! ## pf_strpoly -/

section Strpoly

variable {K : Type} [LinearOrderedField K]

/-- The terminating null character. -/
def NUL : Char := Char.ofNat 0

/-- The buffer `buf` after the characters of `s` are stored from offset `off` on. -/
def store_at (buf : Nat → Char) (off : Nat) (s : List Char) : Nat → Char :=
  fun i => if off ≤ i ∧ i < off + s.length then s.getD (i - off) NUL else buf i

/-- The call `snprintf(buf + head, size, ...)` whose complete output would be `text`: with
`size = 0` nothing is stored, otherwise the first `size - 1` characters of `text` and a
terminator are; the value returned is the length of `text`. -/
def snprintf (buf : Option (Nat → Char)) (head size : Nat) (text : List Char) :
    Option (Nat → Char) × Nat :=
  (if size = 0 then buf else buf.map fun b => store_at b head (text.take (size - 1) ++ [NUL]),
    text.length)

/-- The conversion `%d` applied to the `unsigned int` argument `exp`. -/
def printf_d (exp : Nat) : List Char :=
  if exp < INT_MOD then Nat.toDigits 10 exp else [Char.ofNat 45] ++ Nat.toDigits 10 (UINT_MOD - exp)

/-- The text of `" %c "` for the operator chosen at lines 189-194. -/
def pf_strpoly_op (co : K) : List Char :=
  if co < 0 then [Char.ofNat 32, Char.ofNat 45, Char.ofNat 32]
  else [Char.ofNat 32, Char.ofNat 43, Char.ofNat 32]

/-- The text of the format chosen at lines 205-211; `fmt` is the conversion `%f`. -/
def pf_strpoly_term (fmt : K → List Char) (co : K) (exp : Nat) : List Char :=
  if exp = 0 then fmt co
  else if exp = 1 then fmt co ++ [Char.ofNat 120]
  else fmt co ++ [Char.ofNat 120, Char.ofNat 94] ++ printf_d exp

/-- The local variables of `pf_strpoly` that change in its loop, and the buffer. -/
structure pf_strpoly_state where
  head : Nat
  len : Nat
  ok : Bool
  exp : Nat
  buf : Option (Nat → Char)

/-- One `wr = snprintf(buf + head, len, ...); head += wr;` followed by the update of `len`
and `ok` (lines 195-202 and 206-218). -/
def pf_strpoly_put (s : pf_strpoly_state) (text : List Char) : pf_strpoly_state :=
  let r := snprintf s.buf s.head s.len text
  let wr := r.2
  if wr < s.len then { s with buf := r.1, head := s.head + wr, len := s.len - wr }
  else { s with buf := r.1, head := s.head + wr, len := 0, ok := false }

/-- The body of the loop of `pf_strpoly` (lines 184-218). -/
def pf_strpoly_body (fmt : K → List Char) (coefficients : Nat → K) (i : Nat)
    (s : pf_strpoly_state) : pf_strpoly_state :=
  let s := { s with exp := (s.exp + UINT_MOD - 1) % UINT_MOD }
  let co := coefficients i
  let s1 := if i ≠ 0 then pf_strpoly_put s (pf_strpoly_op co) else s
  let co := if i ≠ 0 ∧ co < 0 then -co else co
  pf_strpoly_put s1 (pf_strpoly_term fmt co s.exp)

/-- Writes into `buf` a string representing a polynomial (`pf_strpoly`); returns the value
returned and the buffer after the call. -/
def pf_strpoly (fmt : K → List Char) (order : Nat) (coefficients : Nat → K)
    (buf : Option (Nat → Char)) (len : Nat) : Nat × Option (Nat → Char) :=
  if order = 0 then (0, buf)
  else
    let s := for_loop order (pf_strpoly_body fmt coefficients) ⟨0, len, true, order, buf⟩
    (if s.ok then s.head else s.head + 1, s.buf)

/-- The text of iteration `i` of the loop of `pf_strpoly` for a polynomial of `order`
coefficients: the operator (absent for `i = 0`) and the term. -/
def pf_strpoly_piece (fmt : K → List Char) (order : Nat) (coefficients : Nat → K) (i : Nat) :
    List Char :=
  (if i ≠ 0 then pf_strpoly_op (coefficients i) else []) ++
    pf_strpoly_term fmt (if i ≠ 0 ∧ coefficients i < 0 then -coefficients i else coefficients i)
      (order - 1 - i)

/-- The complete text `pf_strpoly` renders: the pieces of iterations `0 .. order - 1`. -/
def pf_strpoly_text (fmt : K → List Char) (order : Nat) (coefficients : Nat → K) : List Char :=
  for_loop order (fun i t => t ++ pf_strpoly_piece fmt order coefficients i) []

end Strpoly

/-! ## Specification-level notions used by the theorems -/

section Spec

variable {K : Type}

/-- The matrix `m` has `R` rows, `C` columns and holds `f i j` at every cell `(i, j)`. -/
def matrix_t.Holds (m : matrix_t K) (R C : Nat) (f : Nat → Nat → K) : Prop :=
  m.rows = R ∧ m.cols = C ∧ ∀ i, i < R → ∀ j, j < C → matrix_get_val m i j = f i j

variable [LinearOrderedField K]

/-- The design matrix: `A[r][c] = x_r ^ (order - 1 - c)`. -/
def design (points : pf_points_t K) (order r c : Nat) : K :=
  points.x r ^ (order - 1 - c)

/-- The Gram matrix `AᵗA` of the design matrix. -/
def gram (points : pf_points_t K) (order i j : Nat) : K :=
  ∑ r in Finset.range points.count, design points order r i * design points order r j

/-- The vector `AᵗB` of the normal equations. -/
def moment (points : pf_points_t K) (order i : Nat) : K :=
  ∑ r in Finset.range points.count, design points order r i * points.y r

/-- The sum of squared residuals of the polynomial with coefficients `c` on `points`. -/
def residual (points : pf_points_t K) (order : Nat) (c : Nat → K) : K :=
  ∑ r in Finset.range points.count, (pf_eval order c (points.x r) - points.y r) ^ 2

/-- The Horner nested form `(...(c[0] * x + c[1]) * x + ...) * x + c[order - 1]`. -/
def horner (order : Nat) (coefficients : Nat → K) (x : K) : K :=
  for_loop order (fun i acc => acc * x + coefficients i) 0

/-- The set of distinct x-values of `points`. -/
def xvalues (points : pf_points_t K) : Finset K :=
  (Finset.range points.count).image points.x

/-- The cells of `mat_a` for `wrap_count` points and `order = 3`: the stores of the last row at
flat positions `2 ^ 32` and `2 ^ 32 + 1` land in cells 0 and 1, that is in `(0, 0)` and
`(0, 1)`. -/
def wrap_design (points : pf_points_t K) (l j : Nat) : K :=
  if l = 0 ∧ j = 0 then points.x (wrap_count - 1) ^ 1
  else if l = 0 ∧ j = 1 then points.x (wrap_count - 1) ^ 0
  else points.x l ^ (2 - j)

/-- The cells of `mat_at` for `wrap_count` points and `order = 3`: the stores of row 2 at flat
positions `2 ^ 32` and `2 ^ 32 + 1` land in `(0, 0)` and `(0, 1)`. -/
def wrap_transpose (points : pf_points_t K) (i l : Nat) : K :=
  if i = 0 ∧ l = 0 then wrap_design points (wrap_count - 2) 2
  else if i = 0 ∧ l = 1 then wrap_design points (wrap_count - 1) 2
  else wrap_design points l i

/-- The row operation of lines 129-137 on the cells `s.1` of `mat_ata` and `s.2` of `mat_atb`:
every row `i` other than `c` loses `s.1 i c / s.1 c c` times row `c`. -/
def gj_eliminate (c : Nat) (s : (Nat → Nat → K) × (Nat → K)) : (Nat → Nat → K) × (Nat → K) :=
  (fun i j => if i = c then s.1 i j else s.1 i j - s.1 c j * (s.1 i c / s.1 c c),
    fun i => if i = c then s.2 i else s.2 i - s.2 c * (s.1 i c / s.1 c c))

/-- The elimination loop of lines 122-138 on cells, over the first `n` columns. -/
def gj_solve (n : Nat) (s : (Nat → Nat → K) × (Nat → K)) :
    Option ((Nat → Nat → K) × (Nat → K)) :=
  for_loop n (fun c s =>
    s.bind fun s => if s.1 c c = 0 then none else some (gj_eliminate c s)) (some s)

/-- The matrices `(mat_ata, mat_atb)` of order `n` hold the cells `t`. -/
def gj_rel (n : Nat) (s : matrix_t K × matrix_t K) (t : (Nat → Nat → K) × (Nat → K)) : Prop :=
  s.1.Holds n n t.1 ∧ s.2.Holds n 1 (fun i _ => t.2 i)

/-- What `c` completed columns of the elimination of the system `(G, h)` of order `n`
guarantee of the cells `s`: the system has kept its solutions, every row is a combination of
rows of `G` (with coefficient 1 on itself and none on the other unprocessed rows, for an
unprocessed row), and the processed columns are zero off a non-zero diagonal. -/
def gj_inv (n : Nat) (G : Nat → Nat → K) (h : Nat → K) (c : Nat)
    (s : (Nat → Nat → K) × (Nat → K)) : Prop :=
  (∀ x : Nat → K, (∀ i, i < n → ∑ j in Finset.range n, G i j * x j = h i) ↔
    (∀ i, i < n → ∑ j in Finset.range n, s.1 i j * x j = s.2 i)) ∧
  (∀ i, i < n → ∃ u : Nat → K, (∀ j, j < n → s.1 i j = ∑ l in Finset.range n, u l * G l j) ∧
    (c ≤ i → u i = 1 ∧ ∀ l, c ≤ l → l ≠ i → u l = 0)) ∧
  (∀ j, j < c → s.1 j j ≠ 0 ∧ ∀ i, i < n → i ≠ j → s.1 i j = 0)

end Spec

/-! ## Concrete inputs -/

/-- An allocator that never fails; a build without `NDEBUG`. -/
def env_ok : pf_env ℚ := ⟨fun _ => true, fun _ _ => 0, false⟩

/-- An allocator that always fails. -/
def env_fail : pf_env ℚ := ⟨fun _ => false, fun _ _ => 0, false⟩

/-- The points `(0,1), (1,2), (2,5), (3,10)` of `y = x^2 + 1`. -/
def points_square : pf_points_t ℚ :=
  ⟨4, fun i => [0, 1, 2, 3].getD i 0, fun i => [1, 2, 5, 10].getD i 0⟩

/-- Eight points at the x-values `0 .. 7` of the test driver. -/
def points_test : pf_points_t ℚ :=
  ⟨8, fun i => (i : ℚ), fun i => [1, 0, -1, 0, 1, 0, -1, 0].getD i 0⟩

/-- Three points sharing the x-value `2`. -/
def points_column : pf_points_t ℚ :=
  ⟨3, fun _ => 2, fun i => [1, 4, 7].getD i 0⟩

/-- The points `(0,3), (5,4), (-1,8)`. -/
def points_three : pf_points_t ℚ :=
  ⟨3, fun i => [0, 5, -1].getD i 0, fun i => [3, 4, 8].getD i 0⟩

/-- As many as `wrap_count` points: `(0,1)`, `(2,0)` and then `(0,0)` throughout. -/
def points_wrap_two : pf_points_t ℚ :=
  ⟨wrap_count, fun i => if i = 1 then 2 else 0, fun i => if i = 0 then 1 else 0⟩

/-- As many as `wrap_count` points of the line `y = x`: `(0,0)`, `(2,2)`, `(1,1)` and then
`(0,0)` throughout. -/
def points_wrap_line : pf_points_t ℚ :=
  ⟨wrap_count, fun i => if i = 1 then 2 else if i = 2 then 1 else 0,
    fun i => if i = 1 then 2 else if i = 2 then 1 else 0⟩

/-- The cells `pf_fit` finds in `mat_ata` on `points_wrap_two` with `order = 3`. -/
def wrap_two_ata : Nat → Nat → ℚ :=
  fun i j => ([[4, 3, 2], [8, 5, 3], [4, 3, 1431655766]].getD i []).getD j 0

/-- The cells `pf_fit` finds in `mat_atb` on `points_wrap_two` with `order = 3`. -/
def wrap_two_atb : Nat → ℚ := fun i => [1, 1, 1].getD i 0

/-- The cells `pf_fit` finds in `mat_ata` on `points_wrap_line` with `order = 3`. -/
def wrap_line_ata : Nat → Nat → ℚ :=
  fun i j => ([[5, 4, 3], [9, 6, 4], [5, 4, 1431655766]].getD i []).getD j 0

/-- The cells `pf_fit` finds in `mat_atb` on `points_wrap_line` with `order = 3`. -/
def wrap_line_atb : Nat → ℚ := fun i => [3, 5, 3].getD i 0

/-- A coefficient buffer filled with zeros. -/
def coef_zero : Nat → ℚ := fun _ => 0

/-- A buffer filled with the character `z`. -/
def buf_z : Nat → Char := fun _ => Char.ofNat 122

/-- A stand-in for the conversion `%f` on rationals: numerator, `/`, denominator. -/
def fmt_frac (q : ℚ) : List Char :=
  (if q < 0 then [Char.ofNat 45] else []) ++ Nat.toDigits 10 q.num.natAbs ++
    [Char.ofNat 47] ++ Nat.toDigits 10 q.den

/-! ## The `snprintf` calls of `pf_strpoly` -/

section StrpolyCalls

variable {K : Type} [LinearOrderedField K]

/-- The step `pf_strpoly_put` together with a record of its `snprintf` call: the offset `head`
added to `buf` and the size `len` it is given. -/
def pf_strpoly_put_log (p : pf_strpoly_state × List (Nat × Nat)) (text : List Char) :
    pf_strpoly_state × List (Nat × Nat) :=
  (pf_strpoly_put p.1 text, p.2 ++ [(p.1.head, p.1.len)])

/-- The body of the loop of `pf_strpoly` (lines 184-218), recording its `snprintf` calls. -/
def pf_strpoly_body_log (fmt : K → List Char) (coefficients : Nat → K) (i : Nat)
    (p : pf_strpoly_state × List (Nat × Nat)) : pf_strpoly_state × List (Nat × Nat) :=
  let s := { p.1 with exp := (p.1.exp + UINT_MOD - 1) % UINT_MOD }
  let co := coefficients i
  let p1 := if i ≠ 0 then pf_strpoly_put_log (s, p.2) (pf_strpoly_op co) else (s, p.2)
  let co := if i ≠ 0 ∧ co < 0 then -co else co
  pf_strpoly_put_log p1 (pf_strpoly_term fmt co s.exp)

/-- The `snprintf` calls a call of `pf_strpoly` makes, in program order, each as the pair of
its offset and its size argument. -/
def pf_strpoly_calls (fmt : K → List Char) (order : Nat) (coefficients : Nat → K)
    (buf : Option (Nat → Char)) (len : Nat) : List (Nat × Nat) :=
  if order = 0 then []
  else (for_loop order (pf_strpoly_body_log fmt coefficients) (⟨0, len, true, order, buf⟩, [])).2

end StrpolyCalls

/-! ## The heap of matrices and the events of a call -/

/-- The live matrices after the event `ev`, those before it being `h`: an allocation adds its
matrix and `matrix_destroy` removes its; `none` is a heap error, a live matrix being allocated
again or a matrix being destroyed that is not live. -/
def pf_heap_step (h : Option (Finset Nat)) (ev : pf_event) : Option (Finset Nat) :=
  h.bind fun live =>
    match ev with
    | pf_event.alloc id => if id ∈ live then none else some (insert id live)
    | pf_event.destroy id => if id ∈ live then some (live.erase id) else none
    | _ => some live

/-- The live matrices after the events `log`, started from the live matrices `live`. -/
def pf_heap (live : Finset Nat) (log : List pf_event) : Option (Finset Nat) :=
  log.foldl pf_heap_step (some live)

/-- The accessor events of lines 81-86: `order` calls of `x` for each point, in order. -/
def pf_fit_x_events (count order : Nat) : List pf_event :=
  (List.range count).flatMap fun r => List.replicate order (pf_event.get_x r)

/-- The accessor events of lines 94-97: one call of `y` for each point, in order. -/
def pf_fit_y_events (count : Nat) : List pf_event :=
  (List.range count).map pf_event.get_y

/-- The stores of lines 146-148: `coefficients[0]` to `coefficients[order - 1]`, in order. -/
def pf_fit_store_events (order : Nat) : List pf_event :=
  (List.range order).map pf_event.store

/-- An allocator whose first three requests succeed and whose later ones fail. -/
def env_third : pf_env ℚ := ⟨fun k => decide (k < 3), fun _ _ => 0, false⟩

/-! ## Guarded accesses

The functions below are the functions of `matrix.c` and `polyfit.c` once more, with every
read and store of a matrix cell, every call of an accessor and every store to the coefficient
buffer guarded: a run that would touch a cell out of bounds stops and yields `none`. -/

section Guarded

variable {K : Type}

/-- Whether `(row, col)` is a cell of `matrix` and its flat index an index of the data. -/
def matrix_in_bounds (matrix : matrix_t K) (row col : Nat) : Bool :=
  decide (row < matrix.rows ∧ col < matrix.cols ∧
    matrix_idx matrix row col < matrix.rows * matrix.cols)

/-- The read `matrix_get_val`, guarded. -/
def matrix_get_chk (matrix : matrix_t K) (row col : Nat) : Option K :=
  if matrix_in_bounds matrix row col then some (matrix_get_val matrix row col) else none

/-- The store `matrix_set_val`, guarded. -/
def matrix_set_chk (matrix : matrix_t K) (row col : Nat) (val : K) : Option (matrix_t K) :=
  if matrix_in_bounds matrix row col then some (matrix_set_val matrix row col val) else none

/-- The loop `for (i = 0; i < n; i++)` whose body may stop the run. -/
def for_loop_chk {σ : Type} : Nat → (Nat → σ → Option σ) → σ → Option σ
  | 0, _, s => some s
  | n + 1, body, s => (for_loop_chk n body s).bind (body n)

/-- The function `matrix_transpose` with guarded accesses: the outer `none` is a stopped run,
the inner one is `return NULL`. -/
def matrix_transpose_chk (e : pf_env K) (k : Nat) (src : matrix_t K) :
    Option (Option (matrix_t K)) :=
  let nr := src.cols
  let nc := src.rows
  match MATRIX_ALLOC e k nr nc with
  | none => some none
  | some matrix =>
    (for_loop_chk nr (fun r matrix =>
      for_loop_chk nc (fun c matrix =>
        (matrix_get_chk src c r).bind fun val => matrix_set_chk matrix r c val) matrix)
      matrix).map some

/-- The function `matrix_product` with guarded accesses, stopped also when the inner
dimensions differ. -/
def matrix_product_chk [Zero K] [Add K] [Mul K] (e : pf_env K) (k : Nat) (m1 m2 : matrix_t K) :
    Option (Option (matrix_t K)) :=
  if m1.cols ≠ m2.rows then none
  else
    let nr := m1.rows
    let nc := m2.cols
    match MATRIX_ALLOC e k nr nc with
    | none => some none
    | some matrix =>
      (for_loop_chk nr (fun i matrix =>
        for_loop_chk nc (fun j matrix =>
          for_loop_chk m1.cols (fun k matrix =>
            (matrix_get_chk matrix i j).bind fun acc =>
              (matrix_get_chk m1 i k).bind fun a =>
                (matrix_get_chk m2 k j).bind fun b =>
                  matrix_set_chk matrix i j (acc + a * b)) matrix) matrix)
        (matrix_memset0 matrix)).map some

end Guarded

section GuardedFit

variable {K : Type} [LinearOrderedField K]

/-- Lines 81-86 with the accessor call and the store guarded. -/
def pf_fit_fill_a_chk (points : pf_points_t K) (order degree : Nat)
    (s : matrix_t K × List pf_event) : Option (matrix_t K × List pf_event) :=
  for_loop_chk points.count (fun r s =>
    for_loop_chk order (fun c s =>
      if r < points.count then
        let tx := points.x r
        (matrix_set_chk s.1 r c (tx ^ ((degree + UINT_MOD - c) % UINT_MOD))).map fun m =>
          (m, s.2 ++ [pf_event.get_x r])
      else none) s) s

/-- Lines 94-97 with the accessor call and the store guarded. -/
def pf_fit_fill_b_chk (points : pf_points_t K)
    (s : matrix_t K × List pf_event) : Option (matrix_t K × List pf_event) :=
  for_loop_chk points.count (fun r s =>
    if r < points.count then
      let ty := points.y r
      (matrix_set_chk s.1 r 0 ty).map fun m => (m, s.2 ++ [pf_event.get_y r])
    else none) s

/-- Lines 129-137 with guarded accesses. -/
def pf_fit_eliminate_chk (c pr : Nat) (prv : K) (s : matrix_t K × matrix_t K) :
    Option (matrix_t K × matrix_t K) :=
  for_loop_chk s.1.rows (fun r s =>
    if r = pr then some s
    else
      (matrix_get_chk s.1 r c).bind fun trv =>
        let factor := trv / prv
        (for_loop_chk s.1.cols (fun c2 mat_ata =>
          (matrix_get_chk mat_ata r c2).bind fun x =>
            (matrix_get_chk mat_ata pr c2).bind fun y =>
              matrix_set_chk mat_ata r c2 (x - y * factor)) s.1).bind fun mat_ata =>
          (matrix_get_chk s.2 r 0).bind fun x =>
            (matrix_get_chk s.2 pr 0).bind fun y =>
              (matrix_set_chk s.2 r 0 (x - y * factor)).map fun mat_atb =>
                (mat_ata, mat_atb)) s

/-- Lines 122-138 with guarded accesses: the outer `none` is a stopped run, the inner one the
exit `goto ex_5`. -/
def pf_fit_solve_chk (s : matrix_t K × matrix_t K) :
    Option (Option (matrix_t K × matrix_t K)) :=
  for_loop_chk s.1.cols (fun c s =>
    match s with
    | none => some none
    | some s =>
      let pr := c
      (matrix_get_chk s.1 pr c).bind fun prv =>
        if prv = 0 then some none else (pf_fit_eliminate_chk c pr prv s).map some) (some s)

/-- Lines 139-144 with guarded accesses. -/
def pf_fit_normalise_chk (s : matrix_t K × matrix_t K) : Option (matrix_t K × matrix_t K) :=
  for_loop_chk s.1.cols (fun c s =>
    let pr := c
    (matrix_get_chk s.1 pr c).bind fun prv =>
      (matrix_get_chk s.1 pr c).bind fun x =>
        (matrix_set_chk s.1 pr c (x / prv)).bind fun mat_ata =>
          (matrix_get_chk s.2 pr 0).bind fun y =>
            (matrix_set_chk s.2 pr 0 (y / prv)).map fun mat_atb => (mat_ata, mat_atb)) s

/-- Lines 146-148 with the read and the store to `coefficients[i]` guarded. -/
def pf_fit_copy_chk (order : Nat) (mat_atb : matrix_t K)
    (s : (Nat → K) × List pf_event) : Option ((Nat → K) × List pf_event) :=
  for_loop_chk order (fun i s =>
    (matrix_get_chk mat_atb i 0).bind fun val =>
      if i < order then some (Function.update s.1 i val, s.2 ++ [pf_event.store i])
      else none) s

/-- The function `pf_fit` with guarded accesses: `none` is a run stopped at an access out of
bounds or at a product of matrices whose inner dimensions differ. -/
def pf_fit_chk (e : pf_env K) (points : Option (pf_points_t K)) (order : Nat)
    (coefficients : Option (Nat → K)) : Option (pf_fit_result K) :=
  let degree := (order + UINT_MOD - 1) % UINT_MOD
  match points, coefficients with
  | none, _ => some ⟨PF_EPARAM, coefficients, []⟩
  | some _, none => some ⟨PF_EPARAM, none, []⟩
  | some points, some coef =>
    let point_count := points.count
    if point_count < order then some ⟨PF_EPARAM, some coef, []⟩
    else
      match matrix_raw e 0 point_count order with
      | none => some ⟨PF_EALLOC, some coef, []⟩
      | some mat_a =>
        (pf_fit_fill_a_chk points order degree (mat_a, [pf_event.alloc 0])).bind fun sa =>
          match matrix_create e 1 point_count 1 with
          | none => some ⟨PF_EALLOC, some coef, sa.2 ++ [pf_event.destroy 0]⟩
          | some mat_b =>
            (pf_fit_fill_b_chk points (mat_b, sa.2 ++ [pf_event.alloc 1])).bind fun sb =>
              (matrix_transpose_chk e 2 sa.1).bind fun r2 =>
                match r2 with
                | none => some ⟨PF_EALLOC, some coef,
                    sb.2 ++ [pf_event.destroy 1, pf_event.destroy 0]⟩
                | some mat_at =>
                  (matrix_product_chk e 3 mat_at sa.1).bind fun r3 =>
                    match r3 with
                    | none => some ⟨PF_EALLOC, some coef, sb.2 ++ [pf_event.alloc 2,
                        pf_event.destroy 2, pf_event.destroy 1, pf_event.destroy 0]⟩
                    | some mat_ata =>
                      (matrix_product_chk e 4 mat_at sb.1).bind fun r4 =>
                        match r4 with
                        | none => some ⟨PF_EALLOC, some coef, sb.2 ++ [pf_event.alloc 2,
                            pf_event.alloc 3, pf_event.destroy 3, pf_event.destroy 2,
                            pf_event.destroy 1, pf_event.destroy 0]⟩
                        | some mat_atb =>
                          let log := sb.2 ++
                            [pf_event.alloc 2, pf_event.alloc 3, pf_event.alloc 4]
                          let ex_5 := [pf_event.destroy 4, pf_event.destroy 3,
                            pf_event.destroy 2, pf_event.destroy 1, pf_event.destroy 0]
                          (pf_fit_solve_chk (mat_ata, mat_atb)).bind fun r5 =>
                            match r5 with
                            | none => some ⟨PF_ESOLVE, some coef, log ++ ex_5⟩
                            | some s =>
                              (pf_fit_normalise_chk s).bind fun s =>
                                (pf_fit_copy_chk order s.2 (coef, log)).map fun out =>
                                  ⟨PF_OK, some out.1, out.2 ++ ex_5⟩

end GuardedFit

/-! ## Matrices of more than `2 ^ 32` cells -/

/-- A matrix of `wrap_count` rows and 3 columns holding 1 in its first cell and 0 elsewhere. -/
def matrix_wrap_src : matrix_t ℚ := ⟨wrap_count, 3, fun i => if i = 0 then 1 else 0⟩

/-- A column of `wrap_count` ones. -/
def matrix_wrap_col : matrix_t ℚ := ⟨wrap_count, 1, fun _ => 1⟩

/-- A row of three ones. -/
def matrix_wrap_row : matrix_t ℚ := ⟨1, 3, fun _ => 1⟩

/-- A matrix of 2 rows and 3 columns holding `0, 1, 2` and `3, 4, 5`. -/
def matrix_small : matrix_t ℚ := ⟨2, 3, fun i => (i : ℚ)⟩

/-- A matrix of 3 rows and 2 columns holding `1, 0`, then `0, 1`, then `2, 2`. -/
def matrix_tall : matrix_t ℚ := ⟨3, 2, fun i => [1, 0, 0, 1, 2, 2].getD i 0⟩

/-! ## The rendering as the specification words it -/

section SpecText

variable {K : Type} [LinearOrderedField K]

/-- The power suffix of a term of exponent `e` in the words of the specification: `x^e` with
`e` in decimal when `e >= 2`, `x` when `e = 1`, nothing when `e = 0`. -/
def spec_suffix (e : Nat) : List Char :=
  if 2 ≤ e then [Char.ofNat 120, Char.ofNat 94] ++ Nat.toDigits 10 e
  else if e = 1 then [Char.ofNat 120]
  else []

/-- Term `i` of the rendering in the words of the specification: for `i = 0` the rendering of
`c[0]` and the suffix; for `i >= 1` the text ` - `, the rendering of `-c[i]` and the suffix when
`c[i] < 0`, and the text ` + `, the rendering of `c[i]` and the suffix otherwise. -/
def spec_term (fmt : K → List Char) (order : Nat) (c : Nat → K) (i : Nat) : List Char :=
  if i = 0 then fmt (c 0) ++ spec_suffix (order - 1 - i)
  else if c i < 0 then
    [Char.ofNat 32, Char.ofNat 45, Char.ofNat 32] ++ fmt (-c i) ++ spec_suffix (order - 1 - i)
  else [Char.ofNat 32, Char.ofNat 43, Char.ofNat 32] ++ fmt (c i) ++ spec_suffix (order - 1 - i)

/-- The rendering in the words of the specification: the concatenation of the terms
`0 .. order - 1`. -/
def spec_text (fmt : K → List Char) (order : Nat) (c : Nat → K) : List Char :=
  (List.range order).flatMap (spec_term fmt order c)

end SpecText

/-! ## The elimination loop, column by column -/

section Elimination

variable {K : Type} [LinearOrderedField K]

/-- The first `k` iterations of the elimination loop of lines 122-138 on `(mat_ata, mat_atb)`:
`none` is the exit `goto ex_5` taken at a pivot equal to `0.0`. -/
def pf_fit_solve_upto (k : Nat) (s : matrix_t K × matrix_t K) :
    Option (matrix_t K × matrix_t K) :=
  for_loop k (fun c s =>
    s.bind fun s =>
      let pr := c
      let prv := matrix_get_val s.1 pr c
      if prv = 0 then none else some (pf_fit_eliminate c pr prv s)) (some s)

/-- Line 134: the body of the loop over `c2`, which subtracts `factor` times the entry of the
pivot row `pr` from the entry of row `r`. -/
def elim_cell (r pr : Nat) (factor : K) (c2 : Nat) (mat_ata : matrix_t K) : matrix_t K :=
  matrix_set_val mat_ata r c2
    (matrix_get_val mat_ata r c2 - matrix_get_val mat_ata pr c2 * factor)

/-- Lines 130-136: the body of the loop over the rows `r` at column `c`. -/
def elim_row (c pr : Nat) (prv : K) (r : Nat) (s : matrix_t K × matrix_t K) :
    matrix_t K × matrix_t K :=
  if r = pr then s
  else
    let trv := matrix_get_val s.1 r c
    let factor := trv / prv
    let mat_ata := for_loop s.1.cols (elim_cell r pr factor) s.1
    let mat_atb := matrix_set_val s.2 r 0
      (matrix_get_val s.2 r 0 - matrix_get_val s.2 pr 0 * factor)
    (mat_ata, mat_atb)

/-- Lines 76-118 of `pf_fit`: the working matrices `(mat_ata, mat_atb)` with which the
elimination loop is entered; `none` when the call returns before the loop (`count < order` or
a failed allocation). -/
def pf_fit_system (e : pf_env K) (points : pf_points_t K) (order : Nat) :
    Option (matrix_t K × matrix_t K) :=
  let degree := (order + UINT_MOD - 1) % UINT_MOD
  let point_count := points.count
  if point_count < order then none
  else
    match matrix_raw e 0 point_count order with
    | none => none
    | some mat_a =>
      let sa := pf_fit_fill_a points order degree (mat_a, [pf_event.alloc 0])
      match matrix_create e 1 point_count 1 with
      | none => none
      | some mat_b =>
        let sb := pf_fit_fill_b points (mat_b, sa.2 ++ [pf_event.alloc 1])
        match matrix_transpose e 2 sa.1 with
        | none => none
        | some mat_at =>
          match matrix_product e 3 mat_at sa.1 with
          | none => none
          | some mat_ata =>
            match matrix_product e 4 mat_at sb.1 with
            | none => none
            | some mat_atb => some (mat_ata, mat_atb)

end Elimination

/-! ## Reordered samples -/

/-- The points of `points_three` in another order: `(5,4), (-1,8), (0,3)`. -/
def points_three_perm : pf_points_t ℚ :=
  ⟨3, fun i => [5, -1, 0].getD i 0, fun i => [4, 8, 3].getD i 0⟩

/-- The points of `points_wrap_two` with the first two exchanged: `(2,0)`, `(0,1)` and then
`(0,0)` throughout. -/
def points_wrap_swap : pf_points_t ℚ :=
  ⟨wrap_count, fun i => if i = 0 then 2 else 0, fun i => if i = 1 then 1 else 0⟩

/-- The cells `pf_fit` finds in `mat_ata` on `points_wrap_swap` with `order = 3`. -/
def wrap_swap_ata : Nat → Nat → ℚ :=
  fun i j => ([[0, 1, 2], [0, 1, 1], [0, 1, 1431655766]].getD i []).getD j 0

/-- The cells `pf_fit` finds in `mat_atb` on `points_wrap_swap` with `order = 3`. -/
def wrap_swap_atb : Nat → ℚ := fun i => [1, 0, 1].getD i 0

/-! ## The arithmetic of `double`

`pf_eval` once more, with the product and the sum it computes with as parameters, and the
arithmetic of IEEE 754 binary64 in the range free of overflow and underflow: the exact result
of each operation, rounded to the nearest number with a significand of 53 bits, the one with
an even significand at a tie. -/

section EvalOps

variable {K : Type}

/-- The `while (1)` loop of `pf_eval`, entered with index `i`, power `q` and sum `n`, with the
product `mul` and the sum `add` of the type `double`. -/
def pf_eval_loop_ops (mul add : K → K → K) (coefficients : Nat → K) (x : K) : Nat → K → K → K
  | 0, q, n => add n (mul (mul q x) (coefficients 0))
  | i + 1, q, n =>
    pf_eval_loop_ops mul add coefficients x i (mul q x)
      (add n (mul (mul q x) (coefficients (i + 1))))

/-- The function `pf_eval` with the product `mul`, the sum `add` and the constants `zero` and
`one` of the type `double`. -/
def pf_eval_ops (mul add : K → K → K) (zero one : K) (order : Nat) (coefficients : Nat → K)
    (x : K) : K :=
  if order = 0 then zero
  else
    let n := coefficients (order - 1)
    if order = 1 then n
    else pf_eval_loop_ops mul add coefficients x (order - 2) one n

end EvalOps

/-- The nearest integer to `q >= 0`, the even one of the two at a tie. -/
def round_even (q : ℚ) : ℤ :=
  let f := q.num / (q.den : ℤ)
  if q - f < 1 / 2 then f
  else if 1 / 2 < q - f then f + 1
  else if f % 2 = 0 then f
  else f + 1

/-- Doubles or halves `q > 0` until it lies in `[2 ^ 52, 2 ^ 53)`, at most `fuel` times, and
counts the halvings in `e`: the result `(q2, e2)` has `q2 * 2 ^ e2 = q * 2 ^ e`. -/
def double_scale : Nat → ℚ → ℤ → ℚ × ℤ
  | 0, q, e => (q, e)
  | fuel + 1, q, e =>
    if q < 4503599627370496 then double_scale fuel (q * 2) (e - 1)
    else if 9007199254740992 ≤ q then double_scale fuel (q / 2) (e + 1)
    else (q, e)

/-- The power `2 ^ e` of an integer exponent. -/
def double_pow2 (e : ℤ) : ℚ :=
  match e with
  | Int.ofNat n => 2 ^ n
  | Int.negSucc n => 1 / 2 ^ (n + 1)

/-- The `double` nearest to the rational `q`, ties to even, in the range free of overflow and
underflow (exponents within the 2200 steps of `double_scale`). -/
def double_round (q : ℚ) : ℚ :=
  if q = 0 then 0
  else
    let s := double_scale 2200 |q| 0
    let m := (round_even s.1 : ℚ) * double_pow2 s.2
    if q < 0 then -m else m

/-- The product of two values of type `double`. -/
def double_mul (a b : ℚ) : ℚ := double_round (a * b)

/-- The sum of two values of type `double`. -/
def double_add (a b : ℚ) : ℚ := double_round (a + b)

/-- The coefficients `[1, 1, 2 ^ 53]`, highest degree first. -/
def coef_round : Nat → ℚ := fun i => [1, 1, 9007199254740992].getD i 0

/-! ## Working matrices of `2 ^ 32` cells and more

The two orders at which the runs below take place: both are below `2 ^ 31`, the bound of the
`int` counters of `matrix.c`, and the byte counts of their matrices do not wrap. -/

/-- The order `2 ^ 17`: the rows `r` and `r + 2 ^ 15` of a square matrix of this order have the
same flat indices, `2 ^ 15 * 2 ^ 17` being `2 ^ 32`. -/
def fold_order : Nat := 131072

/-- The `2 ^ 17` points `(i, 0)`, `i = 0, 1, 2, ...`: their x-values are pairwise distinct. -/
def points_fold : pf_points_t ℚ := ⟨fold_order, fun i => (i : ℚ), fun _ => 0⟩

section Fold

variable {K : Type} [Zero K]

/-- The row 0 of a matrix of order `2 ^ 17` holds zeros: its cells are the first `2 ^ 17`. -/
def fold_zero (a : matrix_t K) : Prop :=
  a.rows = 131072 ∧ a.cols = 131072 ∧ ∀ f, f < 131072 → a.data f = 0

end Fold

section Ones

variable {K : Type} [One K]

end Ones

section WrapTrack

variable {K : Type}

end WrapTrack

/-! ## Theorems -/

section Lemmas
variable {K : Type}
open Finset

theorem UINT_MOD_eq : UINT_MOD = 4294967296 := by norm_num [UINT_MOD]

theorem for_loop_succ {σ : Type} (n : Nat) (body : Nat → σ → σ) (s : σ) :
    for_loop (n + 1) body s = body n (for_loop n body s) := rfl

/-- Loop invariant rule: a property indexed by the iteration count that holds at entry and is
carried by every iteration holds at exit. -/
theorem for_loop_induction {σ : Type} (P : Nat → σ → Prop) (n : Nat) (body : Nat → σ → σ)
    (s : σ) (h0 : P 0 s) (hs : ∀ i, i < n → ∀ t, P i t → P (i + 1) (body i t)) :
    P n (for_loop n body s) := by
  induction n with
  | zero => exact h0
  | succ n ih =>
    exact hs n (Nat.lt_succ_self n) _ (ih fun i hi t ht => hs i (Nat.lt_succ_of_lt hi) t ht)

theorem flat_lt {R C i j : Nat} (hi : i < R) (hj : j < C) : i * C + j < R * C := by
  have h1 : (i + 1) * C ≤ R * C := Nat.mul_le_mul_right C hi
  have h2 : (i + 1) * C = i * C + C := by ring
  omega

theorem flat_inj {C i j i2 j2 : Nat} (hj : j < C) (hj2 : j2 < C)
    (h : i * C + j = i2 * C + j2) : i = i2 ∧ j = j2 := by
  have hC : 0 < C := by omega
  have e1 : (i * C + j) / C = i := by
    rw [Nat.add_comm, Nat.add_mul_div_right _ _ hC, Nat.div_eq_of_lt hj, Nat.zero_add]
  have e2 : (i2 * C + j2) / C = i2 := by
    rw [Nat.add_comm, Nat.add_mul_div_right _ _ hC, Nat.div_eq_of_lt hj2, Nat.zero_add]
  have hi : i = i2 := by rw [← e1, ← e2, h]
  subst hi
  exact ⟨rfl, by omega⟩

theorem matrix_idx_eq (m : matrix_t K) {R C i j : Nat} (hc : m.cols = C)
    (hRC : R * C < UINT_MOD) (hi : i < R) (hj : j < C) : matrix_idx m i j = i * C + j := by
  have := flat_lt hi hj
  unfold matrix_idx
  rw [hc, Nat.mod_eq_of_lt (by omega)]

theorem matrix_t.Holds.set {m : matrix_t K} {R C : Nat} {f : Nat → Nat → K}
    (h : m.Holds R C f) (hRC : R * C < UINT_MOD) {r c : Nat} (hr : r < R) (hc : c < C) (v : K) :
    (matrix_set_val m r c v).Holds R C (fun i j => if i = r ∧ j = c then v else f i j) := by
  obtain ⟨h1, h2, h3⟩ := h
  refine ⟨h1, h2, fun i hi j hj => ?_⟩
  have e1 : matrix_idx (matrix_set_val m r c v) i j = i * C + j :=
    matrix_idx_eq _ h2 hRC hi hj
  have e2 : matrix_idx m r c = r * C + c := matrix_idx_eq _ h2 hRC hr hc
  have e3 : matrix_idx m i j = i * C + j := matrix_idx_eq _ h2 hRC hi hj
  show Function.update m.data (matrix_idx m r c) v (matrix_idx (matrix_set_val m r c v) i j) = _
  rw [e1, e2]
  by_cases hij : i = r ∧ j = c
  · obtain ⟨rfl, rfl⟩ := hij
    simp
  · have hne : i * C + j ≠ r * C + c := fun he => hij (flat_inj hj hc he)
    rw [Function.update_noteq hne]
    show m.data _ = if i = r ∧ j = c then v else f i j
    rw [if_neg hij, ← h3 i hi j hj]
    show m.data _ = m.data _
    rw [e3]

theorem matrix_t.Holds.congr {m : matrix_t K} {R C : Nat} {f g : Nat → Nat → K}
    (h : m.Holds R C f) (hfg : ∀ i, i < R → ∀ j, j < C → f i j = g i j) : m.Holds R C g :=
  ⟨h.1, h.2.1, fun i hi j hj => (h.2.2 i hi j hj).trans (hfg i hi j hj)⟩

theorem matrix_t.Holds.self (m : matrix_t K) : m.Holds m.rows m.cols (matrix_get_val m) :=
  ⟨rfl, rfl, fun _ _ _ _ => rfl⟩

/-- A loop over the columns of row `r` that stores `v c` at `(r, c)`. -/
theorem Holds_row_loop {m : matrix_t K} {R C : Nat} {f : Nat → Nat → K}
    (h : m.Holds R C f) (hRC : R * C < UINT_MOD) {r : Nat} (hr : r < R) (v : Nat → K)
    (n : Nat) (hn : n ≤ C) :
    (for_loop n (fun c m => matrix_set_val m r c (v c)) m).Holds R C
      (fun i j => if i = r ∧ j < n then v j else f i j) := by
  refine for_loop_induction
    (fun k t => t.Holds R C (fun i j => if i = r ∧ j < k then v j else f i j)) n _ m ?_ ?_
  · exact h.congr fun i _ j _ => by simp
  · intro k hk t ht
    refine (ht.set hRC hr (show k < C by omega) (v k)).congr fun i _ j _ => ?_
    by_cases h1 : i = r ∧ j = k
    · obtain ⟨rfl, rfl⟩ := h1
      simp
    · rw [if_neg h1]
      by_cases h2 : i = r
      · have : j ≠ k := fun hjk => h1 ⟨h2, hjk⟩
        have h3 : j < k + 1 ↔ j < k := by omega
        simp [h2, h3]
      · simp [h2]

/-- A double loop that stores `v r c` at every cell `(r, c)`. -/
theorem Holds_fill_loop {m : matrix_t K} {R C : Nat} {f : Nat → Nat → K}
    (h : m.Holds R C f) (hRC : R * C < UINT_MOD) (v : Nat → Nat → K) :
    (for_loop R (fun r m => for_loop C (fun c m => matrix_set_val m r c (v r c)) m) m).Holds R C
      v := by
  have key : (for_loop R (fun r m => for_loop C (fun c m => matrix_set_val m r c (v r c)) m)
      m).Holds R C (fun i j => if i < R then v i j else f i j) := by
    refine for_loop_induction
      (fun k t => t.Holds R C (fun i j => if i < k then v i j else f i j)) R _ m ?_ ?_
    · exact h.congr fun i _ j _ => by simp
    · intro k hk t ht
      refine (Holds_row_loop ht hRC hk (v k) C le_rfl).congr fun i _ j hj => ?_
      by_cases h1 : i = k
      · subst h1
        simp [hj]
      · have h3 : i < k + 1 ↔ i < k := by omega
        simp [h1, h3]
  exact key.congr fun i hi j _ => by simp [hi]

/-- The innermost loop of `matrix_product`: cell `(i, j)` accumulates the terms `a k`. -/
theorem Holds_acc_loop [AddCommMonoid K] {m : matrix_t K} {R C : Nat} {f : Nat → Nat → K}
    (h : m.Holds R C f) (hRC : R * C < UINT_MOD) {i j : Nat} (hi : i < R) (hj : j < C)
    (a : Nat → K) (n : Nat) :
    (for_loop n (fun k m => matrix_set_val m i j (matrix_get_val m i j + a k)) m).Holds R C
      (fun i2 j2 => if i2 = i ∧ j2 = j then f i j + ∑ k in range n, a k else f i2 j2) := by
  refine for_loop_induction
    (fun n t => t.Holds R C
      (fun i2 j2 => if i2 = i ∧ j2 = j then f i j + ∑ k in range n, a k else f i2 j2)) n _ m ?_ ?_
  · exact h.congr fun i2 _ j2 _ => by
      by_cases h1 : i2 = i ∧ j2 = j
      · obtain ⟨rfl, rfl⟩ := h1
        simp
      · simp [h1]
  · intro k _ t ht
    have hget : matrix_get_val t i j = f i j + ∑ k in range k, a k := by
      rw [ht.2.2 i hi j hj]
      simp
    refine (ht.set hRC hi hj _).congr fun i2 _ j2 _ => ?_
    by_cases h1 : i2 = i ∧ j2 = j
    · simp only [h1, and_self, if_true]
      rw [hget, sum_range_succ, add_assoc]
    · simp [h1]

/-- The loops of `matrix_product` on a zeroed matrix leave the sums of products. -/
theorem Holds_product_loop [AddCommMonoid K] {m : matrix_t K} {R C : Nat}
    (h : m.Holds R C (fun _ _ => 0)) (hRC : R * C < UINT_MOD) (N : Nat) (a : Nat → Nat → Nat → K) :
    (for_loop R (fun i m => for_loop C (fun j m => for_loop N (fun k m =>
      matrix_set_val m i j (matrix_get_val m i j + a i j k)) m) m) m).Holds R C
      (fun i j => ∑ k in range N, a i j k) := by
  have row : ∀ (t : matrix_t K) (g : Nat → Nat → K) (i : Nat), i < R → t.Holds R C g →
      ∀ n, n ≤ C → (for_loop n (fun j m => for_loop N (fun k m =>
        matrix_set_val m i j (matrix_get_val m i j + a i j k)) m) t).Holds R C
        (fun i2 j2 => if i2 = i ∧ j2 < n then g i j2 + ∑ k in range N, a i j2 k else g i2 j2) := by
    intro t g i hi ht n hn
    refine for_loop_induction (fun n t => t.Holds R C (fun i2 j2 =>
      if i2 = i ∧ j2 < n then g i j2 + ∑ k in range N, a i j2 k else g i2 j2)) n _ t ?_ ?_
    · exact ht.congr fun i2 _ j2 _ => by simp
    · intro k hk u hu
      refine (Holds_acc_loop hu hRC hi (show k < C by omega) (a i k) N).congr fun i2 _ j2 _ => ?_
      by_cases h1 : i2 = i ∧ j2 = k
      · obtain ⟨rfl, rfl⟩ := h1
        simp
      · rw [if_neg h1]
        by_cases h2 : i2 = i
        · have : j2 ≠ k := fun hjk => h1 ⟨h2, hjk⟩
          have h3 : j2 < k + 1 ↔ j2 < k := by omega
          simp [h2, h3]
        · simp [h2]
  have key : (for_loop R (fun i m => for_loop C (fun j m => for_loop N (fun k m =>
      matrix_set_val m i j (matrix_get_val m i j + a i j k)) m) m) m).Holds R C
      (fun i j => if i < R then ∑ k in range N, a i j k else 0) := by
    refine for_loop_induction (fun n t => t.Holds R C
      (fun i j => if i < n then ∑ k in range N, a i j k else 0)) R _ m ?_ ?_
    · exact h.congr fun i _ j _ => by simp
    · intro k hk t ht
      refine (row t _ k hk ht C le_rfl).congr fun i2 _ j2 hj2 => ?_
      by_cases h1 : i2 = k
      · subst h1
        simp [hj2]
      · have h3 : i2 < k + 1 ↔ i2 < k := by omega
        simp [h1, h3]
  exact key.congr fun i hi j _ => by simp [hi]

theorem Holds_memset0 [Zero K] (m : matrix_t K) (hRC : m.rows * m.cols < UINT_MOD) :
    (matrix_memset0 m).Holds m.rows m.cols (fun _ _ => 0) := by
  refine ⟨rfl, rfl, fun i hi j hj => ?_⟩
  have e : matrix_idx (matrix_memset0 m) i j = i * m.cols + j :=
    matrix_idx_eq _ rfl hRC hi hj
  show (if matrix_idx (matrix_memset0 m) i j < m.rows * m.cols then (0 : K) else _) = 0
  rw [e, if_pos (flat_lt hi hj)]

/-- The function `matrix_transpose` succeeds when its allocation does and returns the transposed cells. -/
theorem matrix_transpose_Holds (e : pf_env K) (k : Nat) {src : matrix_t K} {R C : Nat}
    {f : Nat → Nat → K} (h : src.Holds R C f) (hRC : C * R < UINT_MOD)
    (hk : e.malloc_ok k = true) :
    ∃ m, matrix_transpose e k src = some m ∧ m.Holds C R (fun i j => f j i) := by
  obtain ⟨h1, h2, h3⟩ := h
  refine ⟨_, by simp only [matrix_transpose, MATRIX_ALLOC, hk, if_true, Option.map_some']; rfl, ?_⟩
  simp only [h1, h2]
  have h0 : (⟨C, R, e.junk k⟩ : matrix_t K).Holds C R (matrix_get_val ⟨C, R, e.junk k⟩) :=
    matrix_t.Holds.self _
  exact (Holds_fill_loop h0 hRC _).congr fun i hi j hj => h3 j hj i hi

/-- The function `matrix_product` succeeds when the inner dimensions agree and its allocation succeeds, and
returns the sums of products. -/
theorem matrix_product_Holds [Semiring K] (e : pf_env K) (k : Nat) {m1 m2 : matrix_t K}
    {R N C : Nat} {f g : Nat → Nat → K} (h1 : m1.Holds R N f) (h2 : m2.Holds N C g)
    (hRC : R * C < UINT_MOD) (hk : e.malloc_ok k = true) :
    ∃ m, matrix_product e k m1 m2 = some m ∧
      m.Holds R C (fun i j => ∑ l in range N, f i l * g l j) := by
  have hd : m1.cols = m2.rows := by rw [h1.2.1, h2.1]
  refine ⟨_, by simp only [matrix_product, MATRIX_ALLOC, hk, hd, bne_self_eq_false,
    Bool.and_false, if_true, Option.map_some']; rfl, ?_⟩
  rw [← hd]
  simp only [h1.1, h2.2.1, h1.2.1]
  have h0 : (matrix_memset0 (⟨R, C, e.junk k⟩ : matrix_t K)).Holds R C (fun _ _ => 0) :=
    Holds_memset0 _ hRC
  refine (Holds_product_loop h0 hRC N _).congr fun i hi j hj => ?_
  refine Finset.sum_congr rfl fun l hl => ?_
  rw [h1.2.2 i hi l (Finset.mem_range.1 hl), h2.2.2 l (Finset.mem_range.1 hl) j hj]

end Lemmas

section GJ
variable {K : Type} [LinearOrderedField K]
open Finset

theorem gj_inv_init (n : Nat) (G : Nat → Nat → K) (h : Nat → K) : gj_inv n G h 0 (G, h) := by
  refine ⟨fun x => Iff.rfl, fun i hi => ⟨fun l => if l = i then 1 else 0, fun j _ => ?_, ?_⟩,
    fun j hj => absurd hj (Nat.not_lt_zero j)⟩
  · simp [Finset.sum_ite_eq', hi]
  · intro _
    refine ⟨by simp, fun l _ hl => by simp [hl]⟩

theorem gj_eliminate_row_sum (n c : Nat) (s : (Nat → Nat → K) × (Nat → K)) (x : Nat → K)
    (i : Nat) (hi : i ≠ c) :
    ∑ j in range n, (gj_eliminate c s).1 i j * x j =
      ∑ j in range n, s.1 i j * x j - (s.1 i c / s.1 c c) * ∑ j in range n, s.1 c j * x j := by
  rw [Finset.mul_sum, ← Finset.sum_sub_distrib]
  refine Finset.sum_congr rfl fun j _ => ?_
  simp only [gj_eliminate, if_neg hi]
  ring

theorem gj_inv_step {n : Nat} {G : Nat → Nat → K} {h : Nat → K} {c : Nat}
    {s : (Nat → Nat → K) × (Nat → K)} (hs : gj_inv n G h c s) (hc : c < n)
    (hp : s.1 c c ≠ 0) : gj_inv n G h (c + 1) (gj_eliminate c s) := by
  obtain ⟨ha, hb, hd⟩ := hs
  refine ⟨fun x => (ha x).trans ⟨fun hx i hi => ?_, fun hx => ?_⟩, fun i hi => ?_, fun j hj => ?_⟩
  · by_cases hic : i = c
    · subst hic
      simpa [gj_eliminate] using hx i hi
    · rw [gj_eliminate_row_sum n c s x i hic, hx i hi, hx c hc]
      simp only [gj_eliminate, if_neg hic]
      ring
  · have hrow : ∑ j in range n, s.1 c j * x j = s.2 c := by
      simpa [gj_eliminate] using hx c hc
    intro i hi
    by_cases hic : i = c
    · subst hic
      exact hrow
    · have h1 := hx i hi
      rw [gj_eliminate_row_sum n c s x i hic, hrow] at h1
      simp only [gj_eliminate, if_neg hic] at h1
      linear_combination h1
  · obtain ⟨u, hu1, hu2⟩ := hb i hi
    by_cases hic : i = c
    · subst hic
      refine ⟨u, fun j hj => by simpa [gj_eliminate] using hu1 j hj, fun hle => ?_⟩
      omega
    · obtain ⟨w, hw1, hw2⟩ := hb c hc
      refine ⟨fun l => u l - (s.1 i c / s.1 c c) * w l, fun j hj => ?_, fun hle => ?_⟩
      · simp only [gj_eliminate, if_neg hic]
        rw [hu1 j hj, hw1 j hj, Finset.sum_mul, ← Finset.sum_sub_distrib]
        exact Finset.sum_congr rfl fun l _ => by ring
      · have hci : c ≤ i := by omega
        obtain ⟨hu3, hu4⟩ := hu2 hci
        obtain ⟨_, hw4⟩ := hw2 le_rfl
        refine ⟨?_, fun l hl hli => ?_⟩
        · simp only [hu3, hw4 i hci hic, mul_zero, sub_zero]
        · simp only [hu4 l (by omega) hli, hw4 l (by omega) (by omega), mul_zero, sub_zero]
  · by_cases hjc : j = c
    · subst hjc
      refine ⟨by simpa [gj_eliminate] using hp, fun i _ hij => ?_⟩
      simp only [gj_eliminate, if_neg hij]
      field_simp
    · have hjlt : j < c := by omega
      obtain ⟨hd1, hd2⟩ := hd j hjlt
      have hcj : s.1 c j = 0 := hd2 c hc (Ne.symm hjc)
      refine ⟨by simpa [gj_eliminate, hjc, hcj] using hd1, fun i hi hij => ?_⟩
      by_cases hic : i = c
      · subst hic
        simpa [gj_eliminate] using hcj
      · simp [gj_eliminate, hic, hcj, hd2 i hi hij]

/-- Every state the elimination loop reaches satisfies the invariant. -/
theorem gj_solve_inv (n : Nat) (G : Nat → Nat → K) (h : Nat → K) (c : Nat) (hc : c ≤ n)
    (s : (Nat → Nat → K) × (Nat → K))
    (hs : for_loop c (fun c s => s.bind fun s =>
      if s.1 c c = 0 then none else some (gj_eliminate c s)) (some (G, h)) = some s) :
    gj_inv n G h c s := by
  induction c generalizing s with
  | zero =>
    simp only [for_loop, Option.some.injEq] at hs
    subst hs
    exact gj_inv_init n G h
  | succ c ih =>
    simp only [for_loop] at hs
    cases hprev : for_loop c (fun c s => s.bind fun s =>
      if s.1 c c = 0 then none else some (gj_eliminate c s)) (some (G, h)) with
    | none => simp [hprev] at hs
    | some t =>
      rw [hprev] at hs
      simp only [Option.some_bind] at hs
      by_cases hp : t.1 c c = 0
      · simp [hp] at hs
      · simp only [hp, if_false, Option.some.injEq] at hs
        subst hs
        exact gj_inv_step (ih (by omega) t hprev) (by omega) hp

/-- The pivot of an unprocessed row is the quadratic form of `G` at the row's combination. -/
theorem gj_pivot_eq {n : Nat} {G : Nat → Nat → K} {h : Nat → K} {c : Nat}
    {s : (Nat → Nat → K) × (Nat → K)} (hs : gj_inv n G h c s) (hc : c < n) :
    ∃ u : Nat → K, u c = 1 ∧ (∀ l, c < l → u l = 0) ∧
      s.1 c c = ∑ j in range n, (∑ l in range n, u l * G l j) * u j := by
  obtain ⟨_, hb, hd⟩ := hs
  obtain ⟨u, hu1, hu2⟩ := hb c hc
  obtain ⟨hu3, hu4⟩ := hu2 le_rfl
  refine ⟨u, hu3, fun l hl => hu4 l (by omega) (by omega), ?_⟩
  have e : ∀ j ∈ range n, (∑ l in range n, u l * G l j) * u j = if j = c then s.1 c c else 0 := by
    intro j hj
    have hjn := Finset.mem_range.1 hj
    rw [← hu1 j hjn]
    by_cases hjc : j = c
    · subst hjc
      simp [hu3]
    · rw [if_neg hjc]
      rcases Nat.lt_or_gt_of_ne hjc with hlt | hgt
      · rw [(hd j hlt).2 c hc (Ne.symm hjc), zero_mul]
      · rw [hu4 j (by omega) hjc, mul_zero]
  rw [Finset.sum_congr rfl e, Finset.sum_ite_eq' (range n) c, if_pos (Finset.mem_range.2 hc)]

/-- On a system whose quadratic form does not vanish at the combinations the elimination can
reach, the elimination loop never meets a zero pivot. -/
theorem gj_solve_some (n : Nat) (G : Nat → Nat → K) (h : Nat → K)
    (hpd : ∀ c, c < n → ∀ u : Nat → K, u c = 1 → (∀ l, c < l → u l = 0) →
      ∑ j in range n, (∑ l in range n, u l * G l j) * u j ≠ 0)
    (c : Nat) (hc : c ≤ n) :
    ∃ s, for_loop c (fun c s => s.bind fun s =>
      if s.1 c c = 0 then none else some (gj_eliminate c s)) (some (G, h)) = some s := by
  induction c with
  | zero => exact ⟨_, rfl⟩
  | succ c ih =>
    obtain ⟨t, ht⟩ := ih (by omega)
    have hinv := gj_solve_inv n G h c (by omega) t ht
    obtain ⟨u, hu1, hu2, hu3⟩ := gj_pivot_eq hinv (show c < n by omega)
    have hp : t.1 c c ≠ 0 := by
      rw [hu3]
      exact hpd c (by omega) u hu1 hu2
    refine ⟨gj_eliminate c t, ?_⟩
    simp only [for_loop, ht, Option.some_bind, hp, if_false]

end GJ

section Refine
variable {K : Type} [LinearOrderedField K]

/-- Two loops whose bodies carry a relation between their states end in related states. -/
theorem for_loop_rel {σ τ : Type} (P : Nat → σ → τ → Prop) (n : Nat) (b1 : Nat → σ → σ)
    (b2 : Nat → τ → τ) (s1 : σ) (s2 : τ) (h0 : P 0 s1 s2)
    (hs : ∀ i, i < n → ∀ t1 t2, P i t1 t2 → P (i + 1) (b1 i t1) (b2 i t2)) :
    P n (for_loop n b1 s1) (for_loop n b2 s2) := by
  induction n with
  | zero => exact h0
  | succ n ih =>
    exact hs n (Nat.lt_succ_self n) _ _ (ih fun i hi t1 t2 ht => hs i (Nat.lt_succ_of_lt hi) t1 t2 ht)

theorem for_loop_fst {σ τ : Type} (n : Nat) (body : Nat → σ × τ → σ × τ) (g : Nat → σ → σ)
    (h : ∀ i s, (body i s).1 = g i s.1) (s : σ × τ) :
    (for_loop n body s).1 = for_loop n g s.1 := by
  induction n with
  | zero => rfl
  | succ n ih => rw [for_loop_succ, for_loop_succ, h, ih]

/-- The loop over `c2` of lines 133-135 subtracts `factor` times row `pr` from row `r`. -/
theorem Holds_elim_row {a : matrix_t K} {n : Nat} {g : Nat → Nat → K} (h : a.Holds n n g)
    (hn : n * n < UINT_MOD) {r pr : Nat} (hr : r < n) (hpr : pr < n) (hne : r ≠ pr)
    (factor : K) (m : Nat) (hm : m ≤ n) :
    (for_loop m (fun c2 a => matrix_set_val a r c2
      (matrix_get_val a r c2 - matrix_get_val a pr c2 * factor)) a).Holds n n
      (fun i j => if i = r ∧ j < m then g r j - g pr j * factor else g i j) := by
  refine for_loop_induction (fun m t => t.Holds n n
    (fun i j => if i = r ∧ j < m then g r j - g pr j * factor else g i j)) m _ a ?_ ?_
  · exact h.congr fun i _ j _ => by simp
  · intro k hk t ht
    have hkn : k < n := by omega
    have e1 : matrix_get_val t r k = g r k := by
      rw [ht.2.2 r hr k hkn]
      simp
    have e2 : matrix_get_val t pr k = g pr k := by
      rw [ht.2.2 pr hpr k hkn]
      simp [Ne.symm hne]
    refine (ht.set hn hr hkn _).congr fun i _ j _ => ?_
    by_cases h1 : i = r ∧ j = k
    · obtain ⟨rfl, rfl⟩ := h1
      simp [e1, e2]
    · rw [if_neg h1]
      by_cases h2 : i = r
      · have : j ≠ k := fun hjk => h1 ⟨h2, hjk⟩
        have h3 : j < k + 1 ↔ j < k := by omega
        simp [h2, h3]
      · simp [h2]

/-- Lines 129-137 perform the row operation `gj_eliminate` on the cells. -/
theorem pf_fit_eliminate_rel {n c : Nat} {s : matrix_t K × matrix_t K}
    {t : (Nat → Nat → K) × (Nat → K)} (h : gj_rel n s t) (hn : n * n < UINT_MOD) (hc : c < n) :
    gj_rel n (pf_fit_eliminate c c (t.1 c c) s) (gj_eliminate c t) := by
  have hn1 : n * 1 < UINT_MOD := by nlinarith
  have key : ∀ k, k ≤ n → gj_rel n
      (for_loop k (fun r s =>
        if r = c then s
        else
          let trv := matrix_get_val s.1 r c
          let factor := trv / t.1 c c
          let mat_ata := for_loop s.1.cols (fun c2 mat_ata =>
            matrix_set_val mat_ata r c2
              (matrix_get_val mat_ata r c2 - matrix_get_val mat_ata c c2 * factor)) s.1
          let mat_atb := matrix_set_val s.2 r 0
            (matrix_get_val s.2 r 0 - matrix_get_val s.2 c 0 * factor)
          (mat_ata, mat_atb)) s)
      (fun i j => if i < k then (gj_eliminate c t).1 i j else t.1 i j,
        fun i => if i < k then (gj_eliminate c t).2 i else t.2 i) := by
    intro k hk
    refine for_loop_induction (fun k u => gj_rel n u
      (fun i j => if i < k then (gj_eliminate c t).1 i j else t.1 i j,
        fun i => if i < k then (gj_eliminate c t).2 i else t.2 i)) k _ s ?_
      (fun r hr u hu => ?_)
    · exact ⟨h.1.congr fun i _ j _ => by simp, h.2.congr fun i _ j _ => by simp⟩
    · have hrn : r < n := by omega
      by_cases hrc : r = c
      · subst hrc
        simp only [if_true]
        refine ⟨hu.1.congr fun i _ j _ => ?_, hu.2.congr fun i _ j _ => ?_⟩
        · by_cases hir : i = r
          · subst hir
            simp [gj_eliminate]
          · have h3 : i < r + 1 ↔ i < r := by omega
            simp [h3]
        · by_cases hir : i = r
          · subst hir
            simp [gj_eliminate]
          · have h3 : i < r + 1 ↔ i < r := by omega
            simp [h3]
      · simp only [if_neg hrc]
        have e1 : matrix_get_val u.1 r c = t.1 r c := by
          rw [hu.1.2.2 r hrn c hc]
          simp
        have e2 : matrix_get_val u.2 r 0 = t.2 r := by
          rw [hu.2.2.2 r hrn 0 Nat.one_pos]
          simp
        have e3 : matrix_get_val u.2 c 0 = t.2 c := by
          rw [hu.2.2.2 c hc 0 Nat.one_pos]
          by_cases hcr : c < r
          · simp [hcr, gj_eliminate]
          · simp [hcr]
        have e4 : ∀ j, (if c < r then (gj_eliminate c t).1 c j else t.1 c j) = t.1 c j := by
          intro j
          by_cases hcr : c < r
          · simp [hcr, gj_eliminate]
          · simp [hcr]
        refine ⟨?_, ?_⟩
        · show (for_loop u.1.cols _ u.1).Holds n n _
          rw [hu.1.2.1, e1]
          refine (Holds_elim_row hu.1 hn hrn hc hrc (t.1 r c / t.1 c c) n le_rfl).congr
            fun i _ j hj => ?_
          by_cases hir : i = r
          · subst hir
            simp [hj, gj_eliminate, hrc, e4]
          · have h3 : i < r + 1 ↔ i < r := by omega
            simp [hir, h3]
        · show (matrix_set_val u.2 r 0 _).Holds n 1 _
          rw [e1, e2, e3]
          refine (hu.2.set hn1 hrn Nat.one_pos _).congr fun i _ j hj => ?_
          have hj0 : j = 0 := by omega
          by_cases hir : i = r
          · subst hir
            simp [hj0, gj_eliminate, hrc]
          · have h3 : i < r + 1 ↔ i < r := by omega
            simp [hir, h3]
  have hfin := key n le_rfl
  have hrows : s.1.rows = n := h.1.1
  unfold pf_fit_eliminate
  rw [hrows]
  exact ⟨hfin.1.congr fun i hi j _ => by simp [hi], hfin.2.congr fun i hi j _ => by simp [hi]⟩

/-- The elimination loop of `pf_fit` and the loop on cells agree: both stop at the same pivot
or both finish, in related states. -/
theorem pf_fit_solve_rel {n : Nat} {s : matrix_t K × matrix_t K}
    {t : (Nat → Nat → K) × (Nat → K)} (h : gj_rel n s t) (hn : n * n < UINT_MOD) :
    (pf_fit_solve s = none ∧ gj_solve n t = none) ∨
      ∃ s2 t2, pf_fit_solve s = some s2 ∧ gj_solve n t = some t2 ∧ gj_rel n s2 t2 := by
  have hcols : s.1.cols = n := h.1.2.1
  unfold pf_fit_solve gj_solve
  rw [hcols]
  refine for_loop_rel (fun _ o1 o2 => (o1 = none ∧ o2 = none) ∨
    ∃ s2 t2, o1 = some s2 ∧ o2 = some t2 ∧ gj_rel n s2 t2) n _ _ _ _
    (Or.inr ⟨s, t, rfl, rfl, h⟩) (fun c hc o1 o2 ho => ?_)
  rcases ho with ⟨h1, h2⟩ | ⟨s2, t2, h1, h2, h3⟩
  · left
    simp [h1, h2]
  · have e : matrix_get_val s2.1 c c = t2.1 c c := h3.1.2.2 c hc c hc
    subst h1 h2
    simp only [Option.some_bind, e]
    by_cases hp : t2.1 c c = 0
    · left
      simp [hp]
    · right
      exact ⟨_, _, by simp [hp], by simp [hp], pf_fit_eliminate_rel h3 hn hc⟩

end Refine

section RunBasic
variable {K : Type}

/-- Lines 94-97 leave the y-values in `mat_b`. -/
theorem pf_fit_fill_b_Holds (points : pf_points_t K) (m : matrix_t K) (l : List pf_event)
    (hm : m.Holds points.count 1 (matrix_get_val m)) (hr : points.count < UINT_MOD) :
    (pf_fit_fill_b points (m, l)).1.Holds points.count 1 (fun r _ => points.y r) := by
  have e : (pf_fit_fill_b points (m, l)).1 =
      for_loop points.count (fun r m => for_loop 1 (fun c m => matrix_set_val m r c
        (points.y r)) m) m := by
    unfold pf_fit_fill_b
    exact for_loop_fst _ _ _ (fun r s => rfl) (m, l)
  rw [e]
  exact Holds_fill_loop hm (by omega) _

/-- Lines 146-148 write exactly the first `order` cells of the caller's buffer. -/
theorem pf_fit_copy_fst (order : Nat) (m : matrix_t K) (coef : Nat → K) (l : List pf_event) :
    (pf_fit_copy order m (coef, l)).1 =
      fun i => if i < order then matrix_get_val m i 0 else coef i := by
  unfold pf_fit_copy
  refine for_loop_induction (fun k (u : (Nat → K) × List pf_event) =>
    u.1 = fun i => if i < k then matrix_get_val m i 0 else coef i) order _ (coef, l) ?_ ?_
  · funext i
    simp
  · intro k _ u hu
    funext i
    show Function.update u.1 k (matrix_get_val m k 0) i = _
    rw [hu]
    by_cases hik : i = k
    · subst hik
      simp
    · have h3 : i < k + 1 ↔ i < k := by omega
      simp [Function.update_noteq hik, h3]

end RunBasic

section Run
variable {K : Type} [LinearOrderedField K]
open Finset

/-- The exponent `degree - c` of line 84, computed in `unsigned int`, is `order - 1 - c`. -/
theorem degree_sub_eq {order c : Nat} (ho : order < UINT_MOD) (hc : c < order) :
    ((order + UINT_MOD - 1) % UINT_MOD + UINT_MOD - c) % UINT_MOD = order - 1 - c := by
  rw [UINT_MOD_eq] at *
  omega

/-- Lines 81-86 leave the design matrix in `mat_a`. -/
theorem pf_fit_fill_a_Holds (points : pf_points_t K) (order : Nat) (m : matrix_t K)
    (l : List pf_event) (hm : m.Holds points.count order (matrix_get_val m))
    (hr : points.count * order < UINT_MOD) (ho : order < UINT_MOD) :
    (pf_fit_fill_a points order ((order + UINT_MOD - 1) % UINT_MOD) (m, l)).1.Holds
      points.count order (design points order) := by
  have e : (pf_fit_fill_a points order ((order + UINT_MOD - 1) % UINT_MOD) (m, l)).1 =
      for_loop points.count (fun r m => for_loop order (fun c m => matrix_set_val m r c
        (points.x r ^ (((order + UINT_MOD - 1) % UINT_MOD + UINT_MOD - c) % UINT_MOD))) m) m := by
    unfold pf_fit_fill_a
    refine for_loop_fst _ _ _ (fun r s => ?_) (m, l)
    exact for_loop_fst _ _ _ (fun c s => rfl) s
  rw [e]
  refine (Holds_fill_loop hm hr _).congr fun i _ j hj => ?_
  simp only [design, degree_sub_eq ho hj]

/-- Lines 139-144 divide each pivot and the matching right-hand side by the pivot. -/
theorem pf_fit_normalise_rel {n : Nat} {s : matrix_t K × matrix_t K}
    {t : (Nat → Nat → K) × (Nat → K)} (h : gj_rel n s t) (hn : n * n < UINT_MOD) :
    gj_rel n (pf_fit_normalise s)
      (fun i j => if i = j then t.1 i j / t.1 i i else t.1 i j, fun i => t.2 i / t.1 i i) := by
  have key : ∀ k, k ≤ n → gj_rel n
      (for_loop k (fun c s =>
        let pr := c
        let prv := matrix_get_val s.1 pr c
        (matrix_set_val s.1 pr c (matrix_get_val s.1 pr c / prv),
          matrix_set_val s.2 pr 0 (matrix_get_val s.2 pr 0 / prv))) s)
      (fun i j => if i = j ∧ i < k then t.1 i j / t.1 i i else t.1 i j,
        fun i => if i < k then t.2 i / t.1 i i else t.2 i) := by
    intro k hk
    refine for_loop_induction (fun k u => gj_rel n u
      (fun i j => if i = j ∧ i < k then t.1 i j / t.1 i i else t.1 i j,
        fun i => if i < k then t.2 i / t.1 i i else t.2 i)) k _ s ?_ (fun c hc u hu => ?_)
    · exact ⟨h.1.congr fun i _ j _ => by simp, h.2.congr fun i _ j _ => by simp⟩
    · have hcn : c < n := by omega
      have hn1 : n * 1 < UINT_MOD := by nlinarith
      have e1 : matrix_get_val u.1 c c = t.1 c c := by
        rw [hu.1.2.2 c hcn c hcn]
        simp
      have e2 : matrix_get_val u.2 c 0 = t.2 c := by
        rw [hu.2.2.2 c hcn 0 Nat.one_pos]
        simp
      refine ⟨?_, ?_⟩
      · show (matrix_set_val u.1 c c _).Holds n n _
        rw [e1]
        refine (hu.1.set hn hcn hcn _).congr fun i _ j _ => ?_
        by_cases h1 : i = c ∧ j = c
        · obtain ⟨rfl, rfl⟩ := h1
          simp
        · rw [if_neg h1]
          by_cases h2 : i = j
          · subst h2
            have h4 : i ≠ c := fun hic => h1 ⟨hic, hic⟩
            have h3 : i < c + 1 ↔ i < c := by omega
            simp [h3]
          · simp [h2]
      · show (matrix_set_val u.2 c 0 _).Holds n 1 _
        rw [e1, e2]
        refine (hu.2.set hn1 hcn Nat.one_pos _).congr fun i _ j hj => ?_
        have hj0 : j = 0 := by omega
        by_cases hic : i = c
        · subst hic
          simp [hj0]
        · have h3 : i < c + 1 ↔ i < c := by omega
          simp [hic, h3]
  have hfin := key n le_rfl
  have hcols : s.1.cols = n := h.1.2.1
  unfold pf_fit_normalise
  rw [hcols]
  refine ⟨hfin.1.congr fun i hi j _ => ?_, hfin.2.congr fun i hi j _ => by simp [hi]⟩
  by_cases hij : i = j
  · subst hij
    simp [hi]
  · simp [hij]

/-- What `pf_fit` does once its arguments pass validation and its five allocations succeed, in
terms of the cells `(G, h)` its two products hold: it runs the elimination on them; a zero pivot
gives `PF_ESOLVE` and an untouched buffer, otherwise the result is `PF_OK` and cell `i` of the
buffer receives the `i`-th right-hand side divided by the `i`-th pivot. -/
theorem pf_fit_run_cells (e : pf_env K) (points : pf_points_t K) (order : Nat) (coef : Nat → K)
    (hnot : ¬ points.count < order) (hoo : order * order < UINT_MOD)
    (hm : ∀ k, k < 5 → e.malloc_ok k = true) (G : Nat → Nat → K) (h : Nat → K)
    (mat_at mat_ata mat_atb : matrix_t K)
    (hAt : matrix_transpose e 2 (pf_fit_fill_a points order ((order + UINT_MOD - 1) % UINT_MOD)
      (⟨points.count, order, e.junk 0⟩, [pf_event.alloc 0])).1 = some mat_at)
    (hAtA : matrix_product e 3 mat_at (pf_fit_fill_a points order
      ((order + UINT_MOD - 1) % UINT_MOD)
      (⟨points.count, order, e.junk 0⟩, [pf_event.alloc 0])).1 = some mat_ata)
    (hAtB : matrix_product e 4 mat_at (pf_fit_fill_b points
      (matrix_memset0 ⟨points.count, 1, e.junk 1⟩,
        (pf_fit_fill_a points order ((order + UINT_MOD - 1) % UINT_MOD)
          (⟨points.count, order, e.junk 0⟩, [pf_event.alloc 0])).2 ++ [pf_event.alloc 1])).1 =
      some mat_atb)
    (hrel : gj_rel order (mat_ata, mat_atb) (G, h)) :
    (gj_solve order (G, h) = none ∧
      (pf_fit e (some points) order (some coef)).err = PF_ESOLVE ∧
      (pf_fit e (some points) order (some coef)).coefficients = some coef) ∨
    ∃ t, gj_solve order (G, h) = some t ∧
      (pf_fit e (some points) order (some coef)).err = PF_OK ∧
      (pf_fit e (some points) order (some coef)).coefficients =
        some (fun i => if i < order then t.2 i / t.1 i i else coef i) := by
  have herr : (pf_fit e (some points) order (some coef)).err =
      match pf_fit_solve (mat_ata, mat_atb) with
      | none => PF_ESOLVE
      | some _ => PF_OK := by
    simp only [pf_fit, hnot, if_false, matrix_raw, matrix_create, MATRIX_ALLOC,
      hm 0 (by omega), hm 1 (by omega), if_true, Option.map_some', hAt, hAtA, hAtB]
    cases pf_fit_solve (mat_ata, mat_atb) <;> rfl
  have hcoef : (pf_fit e (some points) order (some coef)).coefficients =
      match pf_fit_solve (mat_ata, mat_atb) with
      | none => some coef
      | some s => some fun i =>
          if i < order then matrix_get_val (pf_fit_normalise s).2 i 0 else coef i := by
    simp only [pf_fit, hnot, if_false, matrix_raw, matrix_create, MATRIX_ALLOC,
      hm 0 (by omega), hm 1 (by omega), if_true, Option.map_some', hAt, hAtA, hAtB]
    cases pf_fit_solve (mat_ata, mat_atb) with
    | none => rfl
    | some s => simp only [pf_fit_copy_fst]
  rcases pf_fit_solve_rel hrel hoo with ⟨h1, h2⟩ | ⟨s2, t2, h1, h2, h3⟩
  · left
    rw [herr, hcoef, h1]
    exact ⟨h2, rfl, rfl⟩
  · right
    refine ⟨t2, h2, ?_, ?_⟩
    · rw [herr, h1]
    · rw [hcoef, h1]
      simp only
      congr 1
      funext i
      by_cases hi : i < order
      · simp only [hi, if_true]
        exact (pf_fit_normalise_rel h3 hoo).2.2.2 i hi 0 Nat.one_pos
      · simp only [hi, if_false]

/-- What `pf_fit` does once its arguments pass validation and its five allocations succeed, on
points whose design matrix the flat index addresses without wrapping: it runs the elimination
on the Gram matrix and the moment vector of the points. -/
theorem pf_fit_run (e : pf_env K) (points : pf_points_t K) (order : Nat) (coef : Nat → K)
    (hle : order ≤ points.count) (hcount : points.count < UINT_MOD)
    (hr : points.count * order < UINT_MOD) (hm : ∀ k, k < 5 → e.malloc_ok k = true) :
    (gj_solve order (gram points order, moment points order) = none ∧
      (pf_fit e (some points) order (some coef)).err = PF_ESOLVE ∧
      (pf_fit e (some points) order (some coef)).coefficients = some coef) ∨
    ∃ t, gj_solve order (gram points order, moment points order) = some t ∧
      (pf_fit e (some points) order (some coef)).err = PF_OK ∧
      (pf_fit e (some points) order (some coef)).coefficients =
        some (fun i => if i < order then t.2 i / t.1 i i else coef i) := by
  have ho : order < UINT_MOD := by omega
  have hoo : order * order < UINT_MOD := lt_of_le_of_lt (Nat.mul_le_mul_right order hle) hr
  have hoc : order * points.count < UINT_MOD := by rwa [Nat.mul_comm]
  have hA := pf_fit_fill_a_Holds points order ⟨points.count, order, e.junk 0⟩
    [pf_event.alloc 0] (matrix_t.Holds.self _) hr ho
  have hB := pf_fit_fill_b_Holds points (matrix_memset0 ⟨points.count, 1, e.junk 1⟩)
    (((pf_fit_fill_a points order ((order + UINT_MOD - 1) % UINT_MOD)
      (⟨points.count, order, e.junk 0⟩, [pf_event.alloc 0])).2) ++ [pf_event.alloc 1])
    (matrix_t.Holds.self _) hcount
  obtain ⟨mat_at, hAt1, hAt2⟩ := matrix_transpose_Holds e 2 hA hoc (hm 2 (by omega))
  obtain ⟨mat_ata, hAtA1, hAtA2⟩ := matrix_product_Holds e 3 hAt2 hA hoo (hm 3 (by omega))
  obtain ⟨mat_atb, hAtB1, hAtB2⟩ :=
    matrix_product_Holds e 4 hAt2 hB (show order * 1 < UINT_MOD by omega) (hm 4 (by omega))
  exact pf_fit_run_cells e points order coef (by omega) hoo hm _ _ mat_at mat_ata mat_atb
    hAt1 hAtA1 hAtB1 ⟨hAtA2.congr fun i _ j _ => rfl, hAtB2.congr fun i _ j _ => rfl⟩

end Run

section Poly
variable {K : Type} [LinearOrderedField K]
open Finset Polynomial

/-- The loop of `pf_eval` adds the remaining terms, lowest degree first. -/
theorem pf_eval_loop_eq (coefficients : Nat → K) (x : K) (i : Nat) (q n : K) :
    pf_eval_loop coefficients x i q n =
      n + ∑ k in range (i + 1), q * x ^ (i + 1 - k) * coefficients k := by
  induction i generalizing q n with
  | zero => simp [pf_eval_loop]
  | succ i ih =>
    rw [pf_eval_loop, ih, Finset.sum_range_succ _ (i + 1), add_assoc]
    congr 1
    rw [add_comm]
    congr 1
    · refine Finset.sum_congr rfl fun k hk => ?_
      have hk2 : k ≤ i := Nat.lt_succ_iff.1 (Finset.mem_range.1 hk)
      have e : i + 1 + 1 - k = (i + 1 - k) + 1 := by omega
      rw [e, pow_succ]
      ring
    · simp

/-- The value of `pf_eval` is that of the polynomial with the coefficients listed from the highest degree down. -/
theorem pf_eval_eq_sum (order : Nat) (coefficients : Nat → K) (x : K) :
    pf_eval order coefficients x = ∑ i in range order, coefficients i * x ^ (order - 1 - i) := by
  unfold pf_eval
  rcases order with _ | _ | n
  · simp
  · simp
  · have h1 : ¬ (n + 1 + 1 = 0) := by omega
    have h2 : ¬ (n + 1 + 1 = 1) := by omega
    simp only [h1, h2, if_false]
    rw [pf_eval_loop_eq, Finset.sum_range_succ _ (n + 1), add_comm]
    congr 1
    · refine Finset.sum_congr rfl fun k _ => ?_
      have e : n + 1 + 1 - 2 + 1 - k = n + 1 + 1 - 1 - k := by omega
      rw [e]
      ring
    · simp

/-- The value of `pf_eval` at a sample is the matching row of the design matrix applied to the
coefficients. -/
theorem pf_eval_eq_design (points : pf_points_t K) (order : Nat) (c : Nat → K) (r : Nat) :
    pf_eval order c (points.x r) = ∑ l in range order, c l * design points order r l := by
  rw [pf_eval_eq_sum]
  rfl

/-- A coefficient vector of length `n` whose polynomial vanishes at `n` distinct values is
zero. -/
theorem coeffs_eq_zero_of_roots (n : Nat) (u : Nat → K) (S : Finset K) (hS : n ≤ S.card)
    (hz : ∀ a ∈ S, ∑ l in range n, u l * a ^ (n - 1 - l) = 0) : ∀ l, l < n → u l = 0 := by
  set f : K[X] := ∑ l in range n, C (u l) * X ^ (n - 1 - l) with hf
  have hcoeff : ∀ m, f.coeff m = ∑ l in range n, if m = n - 1 - l then u l else 0 := by
    intro m
    rw [hf, finset_sum_coeff]
    exact Finset.sum_congr rfl fun l _ => by rw [coeff_C_mul_X_pow]
  have hdeg : f.degree < (n : WithBot ℕ) := by
    rw [degree_lt_iff_coeff_zero]
    intro m hm
    rw [hcoeff]
    refine Finset.sum_eq_zero fun l hl => ?_
    have : l < n := Finset.mem_range.1 hl
    rw [if_neg (by omega)]
  have hzero : f = 0 := by
    refine eq_zero_of_degree_lt_of_eval_finset_eq_zero S
      (lt_of_lt_of_le hdeg (by exact_mod_cast hS)) fun a ha => ?_
    rw [hf, eval_finset_sum]
    simpa [eval_mul, eval_C, eval_pow, eval_X] using hz a ha
  intro l hl
  have h1 := hcoeff (n - 1 - l)
  rw [hzero, coeff_zero, Finset.sum_eq_single l] at h1
  · simpa using h1.symm
  · intro b hb hbl
    have : b < n := Finset.mem_range.1 hb
    rw [if_neg (by omega)]
  · intro hl2
    exact absurd (Finset.mem_range.2 hl) hl2

/-- Fewer than `n` values are the roots of a polynomial with a non-zero coefficient vector of
length `n`. -/
theorem exists_coeffs_of_card_lt (n : Nat) (S : Finset K) (hS : S.card < n) :
    ∃ v : Nat → K, (∃ l, l < n ∧ v l ≠ 0) ∧
      ∀ a ∈ S, ∑ l in range n, v l * a ^ (n - 1 - l) = 0 := by
  set w : K[X] := Lagrange.nodal S id with hw
  have hdeg : w.natDegree = S.card := Lagrange.natDegree_nodal
  refine ⟨fun l => w.coeff (n - 1 - l), ⟨n - 1 - S.card, by omega, ?_⟩, fun a ha => ?_⟩
  · have e : n - 1 - (n - 1 - S.card) = w.natDegree := by omega
    simp only [e]
    rw [Lagrange.nodal_monic.coeff_natDegree]
    exact one_ne_zero
  · have h1 : eval a w = 0 := Lagrange.eval_nodal_at_node (v := id) ha
    rw [eval_eq_sum_range' (show w.natDegree < n by omega)] at h1
    rw [← h1, ← Finset.sum_range_reflect (fun i => w.coeff i * a ^ i) n]

/-- Values at pairwise distinct nodes are the values of a polynomial with `n` coefficients,
`n` being the number of nodes. -/
theorem exists_coeffs_interpolate (n : Nat) (hn : 1 ≤ n) (x y : Nat → K)
    (hx : ∀ i, i < n → ∀ j, j < n → x i = x j → i = j) :
    ∃ d : Nat → K, ∀ r, r < n → ∑ l in range n, d l * x r ^ (n - 1 - l) = y r := by
  have hinj : Set.InjOn x (range n : Finset Nat) := fun i hi j hj hij =>
    hx i (Finset.mem_range.1 (Finset.mem_coe.1 hi)) j (Finset.mem_range.1 (Finset.mem_coe.1 hj)) hij
  set p : K[X] := Lagrange.interpolate (range n) x y with hp
  have hdeg : p.natDegree < n := by
    by_cases h0 : p = 0
    · rw [h0, natDegree_zero]
      omega
    · rw [natDegree_lt_iff_degree_lt h0]
      simpa using Lagrange.degree_interpolate_lt (r := y) hinj
  refine ⟨fun l => p.coeff (n - 1 - l), fun r hr => ?_⟩
  have h1 : eval (x r) p = y r := Lagrange.eval_interpolate_at_node y hinj (Finset.mem_range.2 hr)
  rw [eval_eq_sum_range' hdeg] at h1
  rw [← h1, ← Finset.sum_range_reflect (fun i => p.coeff i * x r ^ i) n]

/-- The quadratic form of the Gram matrix is a sum of squares. -/
theorem gram_quadratic (points : pf_points_t K) (n : Nat) (u : Nat → K) :
    ∑ j in range n, (∑ l in range n, u l * gram points n l j) * u j =
      ∑ r in range points.count, (∑ l in range n, u l * design points n r l) ^ 2 := by
  have lhs : ∑ j in range n, (∑ l in range n, u l * gram points n l j) * u j =
      ∑ j in range n, ∑ l in range n, ∑ r in range points.count,
        (u l * design points n r l) * (u j * design points n r j) := by
    refine Finset.sum_congr rfl fun j _ => ?_
    rw [Finset.sum_mul]
    refine Finset.sum_congr rfl fun l _ => ?_
    rw [gram, Finset.mul_sum, Finset.sum_mul]
    exact Finset.sum_congr rfl fun r _ => by ring
  have rhs : ∑ r in range points.count, (∑ l in range n, u l * design points n r l) ^ 2 =
      ∑ r in range points.count, ∑ j in range n, ∑ l in range n,
        (u l * design points n r l) * (u j * design points n r j) := by
    refine Finset.sum_congr rfl fun r _ => ?_
    rw [pow_two, Finset.sum_mul_sum, Finset.sum_comm]
  rw [lhs, rhs]
  calc ∑ j in range n, ∑ l in range n, ∑ r in range points.count,
        (u l * design points n r l) * (u j * design points n r j)
      = ∑ j in range n, ∑ r in range points.count, ∑ l in range n,
        (u l * design points n r l) * (u j * design points n r j) :=
        Finset.sum_congr rfl fun j _ => Finset.sum_comm
    _ = _ := Finset.sum_comm

/-- The Gram matrix applied to `c` is `Aᵗ(Ac)`. -/
theorem gram_mulVec (points : pf_points_t K) (n : Nat) (c : Nat → K) (l : Nat) :
    ∑ j in range n, gram points n l j * c j =
      ∑ r in range points.count, design points n r l * ∑ j in range n, c j * design points n r j := by
  have lhs : ∑ j in range n, gram points n l j * c j =
      ∑ j in range n, ∑ r in range points.count,
        design points n r l * (c j * design points n r j) := by
    refine Finset.sum_congr rfl fun j _ => ?_
    rw [gram, Finset.sum_mul]
    exact Finset.sum_congr rfl fun r _ => by ring
  rw [lhs, Finset.sum_comm]
  exact Finset.sum_congr rfl fun r _ => by rw [Finset.mul_sum]

/-- A vector the design matrix sends to zero is sent to zero by the Gram matrix. -/
theorem gram_mulVec_eq_zero (points : pf_points_t K) (n : Nat) (v : Nat → K)
    (hv : ∀ r, r < points.count → ∑ l in range n, v l * design points n r l = 0) (i : Nat) :
    ∑ j in range n, gram points n i j * v j = 0 := by
  rw [gram_mulVec]
  exact Finset.sum_eq_zero fun r hr => by rw [hv r (Finset.mem_range.1 hr), mul_zero]

/-- With at least `n` distinct x-values the quadratic form of the Gram matrix of order `n`
vanishes at no vector with an entry equal to one. -/
theorem gram_quadratic_ne_zero (points : pf_points_t K) (n : Nat)
    (hS : n ≤ (xvalues points).card) (c : Nat) (hc : c < n) (u : Nat → K) (hu : u c = 1) :
    ∑ j in range n, (∑ l in range n, u l * gram points n l j) * u j ≠ 0 := by
  intro h0
  rw [gram_quadratic] at h0
  have hz := (Finset.sum_eq_zero_iff_of_nonneg fun r _ => sq_nonneg _).1 h0
  have hall : ∀ a ∈ xvalues points, ∑ l in range n, u l * a ^ (n - 1 - l) = 0 := by
    intro a ha
    obtain ⟨r, hr, rfl⟩ := Finset.mem_image.1 ha
    exact pow_eq_zero_iff (two_ne_zero) |>.1 (hz r hr)
  have := coeffs_eq_zero_of_roots n u (xvalues points) hS hall c hc
  rw [hu] at this
  exact one_ne_zero this

/-- The residual of `d` exceeds the residual of a solution `c` of the normal equations by the
squared length of `A(d - c)`. -/
theorem residual_eq_add (points : pf_points_t K) (n : Nat) (c d : Nat → K)
    (hc : ∀ i, i < n → ∑ j in range n, gram points n i j * c j = moment points n i) :
    residual points n d = residual points n c +
      ∑ r in range points.count, (∑ l in range n, (d l - c l) * design points n r l) ^ 2 := by
  have cross : ∑ r in range points.count,
      (∑ l in range n, (d l - c l) * design points n r l) *
        (∑ j in range n, c j * design points n r j - points.y r) = 0 := by
    have e : ∀ r ∈ range points.count,
        (∑ l in range n, (d l - c l) * design points n r l) *
          (∑ j in range n, c j * design points n r j - points.y r) =
        ∑ l in range n, (d l - c l) * (design points n r l *
          (∑ j in range n, c j * design points n r j) - design points n r l * points.y r) := by
      intro r _
      rw [Finset.sum_mul]
      exact Finset.sum_congr rfl fun l _ => by ring
    rw [Finset.sum_congr rfl e, Finset.sum_comm]
    refine Finset.sum_eq_zero fun l hl => ?_
    rw [← Finset.mul_sum, Finset.sum_sub_distrib, ← gram_mulVec, hc l (Finset.mem_range.1 hl)]
    simp [moment]
  unfold residual
  rw [← Finset.sum_add_distrib]
  have e2 : ∀ r ∈ range points.count, (pf_eval n d (points.x r) - points.y r) ^ 2 =
      ((pf_eval n c (points.x r) - points.y r) ^ 2 +
        (∑ l in range n, (d l - c l) * design points n r l) ^ 2) +
      2 * ((∑ l in range n, (d l - c l) * design points n r l) *
        (∑ j in range n, c j * design points n r j - points.y r)) := by
    intro r _
    rw [pf_eval_eq_design, pf_eval_eq_design]
    have e3 : ∑ l in range n, (d l - c l) * design points n r l =
        ∑ l in range n, d l * design points n r l - ∑ l in range n, c l * design points n r l := by
      rw [← Finset.sum_sub_distrib]
      exact Finset.sum_congr rfl fun l _ => by ring
    rw [e3]
    ring
  rw [Finset.sum_congr rfl e2, Finset.sum_add_distrib, ← Finset.mul_sum, cross, mul_zero,
    add_zero]

end Poly

section Str
variable {K : Type} [LinearOrderedField K]

theorem pf_strpoly_text_succ (fmt : K → List Char) (order : Nat) (c : Nat → K) (k : Nat) :
    for_loop (k + 1) (fun i t => t ++ pf_strpoly_piece fmt order c i) [] =
      for_loop k (fun i t => t ++ pf_strpoly_piece fmt order c i) [] ++
        pf_strpoly_piece fmt order c k := rfl

/-- One `snprintf` step keeps `head` at the length of the text produced so far, `len` at the
room left for it and `ok` set exactly while the text has fitted with room for a terminator. -/
theorem pf_strpoly_put_inv (len0 : Nat) (T w : List Char) (started : Bool)
    (s : pf_strpoly_state) (h1 : s.head = T.length)
    (h2 : s.len = if T.length < len0 then len0 - T.length else 0)
    (h3 : s.ok = true ↔ (started = false ∨ T.length < len0)) :
    (pf_strpoly_put s w).head = (T ++ w).length ∧
    ((pf_strpoly_put s w).len = if (T ++ w).length < len0 then len0 - (T ++ w).length else 0) ∧
    ((pf_strpoly_put s w).ok = true ↔ (T ++ w).length < len0) ∧
    (pf_strpoly_put s w).exp = s.exp := by
  have hlen : (T ++ w).length = T.length + w.length := List.length_append T w
  unfold pf_strpoly_put
  simp only [snprintf]
  by_cases hfit : w.length < s.len
  · have hT : T.length < len0 := by
      by_contra hc
      rw [if_neg hc] at h2
      omega
    rw [if_pos hT] at h2
    have hfit2 : T.length + w.length < len0 := by omega
    rw [if_pos hfit, hlen, if_pos hfit2]
    refine ⟨?_, ?_, ?_, rfl⟩
    · show s.head + w.length = _
      rw [h1]
    · show s.len - w.length = _
      omega
    · show s.ok = true ↔ _
      exact ⟨fun _ => hfit2, fun _ => h3.2 (Or.inr hT)⟩
  · have hfit2 : ¬ T.length + w.length < len0 := by
      intro hc
      have hT : T.length < len0 := by omega
      rw [if_pos hT] at h2
      omega
    rw [if_neg hfit, hlen, if_neg hfit2]
    refine ⟨?_, rfl, ?_, rfl⟩
    · show s.head + w.length = _
      rw [h1]
    · show false = true ↔ _
      simp [hfit2]

/-- One `snprintf` step that fits appends its text and a terminator to the text already in the
buffer and stores nothing beyond the terminator. -/
theorem pf_strpoly_put_buf (len0 : Nat) (T w : List Char) (started : Bool) (b0 : Nat → Char)
    (s : pf_strpoly_state) (h1 : s.head = T.length)
    (h2 : s.len = if T.length < len0 then len0 - T.length else 0)
    (hfit : (T ++ w).length < len0)
    (hb : ∃ b, s.buf = some b ∧ (∀ i, i < T.length → T[i]? = some (b i)) ∧
      (started = true → b T.length = NUL) ∧ ∀ i, T.length < i → b i = b0 i) :
    ∃ b, (pf_strpoly_put s w).buf = some b ∧
      (∀ i, i < (T ++ w).length → (T ++ w)[i]? = some (b i)) ∧
      b (T ++ w).length = NUL ∧ ∀ i, (T ++ w).length < i → b i = b0 i := by
  have hlen : (T ++ w).length = T.length + w.length := List.length_append T w
  obtain ⟨b, hb1, hb2, _, hb4⟩ := hb
  have hT : T.length < len0 := by omega
  rw [if_pos hT] at h2
  have hw : w.length < s.len := by omega
  have hne : s.len ≠ 0 := by omega
  have htake : List.take (s.len - 1) w = w := List.take_of_length_le (by omega)
  refine ⟨store_at b T.length (w ++ [NUL]), ?_, fun i hi => ?_, ?_, fun i hi => ?_⟩
  · unfold pf_strpoly_put
    simp only [snprintf, hw, if_true, hne, if_false, hb1, Option.map_some', htake, h1]
  · unfold store_at
    by_cases hiT : i < T.length
    · have : ¬ (T.length ≤ i ∧ i < T.length + (w ++ [NUL]).length) := by omega
      rw [if_neg this, List.getElem?_append_left hiT]
      exact hb2 i hiT
    · have hr : T.length ≤ i ∧ i < T.length + (w ++ [NUL]).length := by
        simp only [List.length_append, List.length_singleton]
        omega
      have hiw : i - T.length < w.length := by omega
      rw [if_pos hr, List.getElem?_append_right (by omega), List.getD_eq_getElem?_getD,
        List.getElem?_append_left hiw, List.getElem?_eq_getElem hiw]
      rfl
  · unfold store_at
    have hr : T.length ≤ (T ++ w).length ∧ (T ++ w).length < T.length + (w ++ [NUL]).length := by
      simp only [List.length_append, List.length_singleton]
      omega
    have e : (T ++ w).length - T.length = w.length := by omega
    rw [if_pos hr, e, List.getD_eq_getElem?_getD, List.getElem?_append_right (le_refl _)]
    simp
  · unfold store_at
    have hr : ¬ (T.length ≤ i ∧ i < T.length + (w ++ [NUL]).length) := by
      simp only [List.length_append, List.length_singleton]
      omega
    rw [if_neg hr]
    exact hb4 i (by omega)

/-- The piece of iteration `i` as the loop body computes it, from `s.exp = order - i`. -/
theorem pf_strpoly_body_inv (fmt : K → List Char) (order : Nat) (c : Nat → K) (len0 : Nat)
    (ho : order < UINT_MOD) (i : Nat) (hi : i < order) (T : List Char) (started : Bool)
    (s : pf_strpoly_state) (h1 : s.head = T.length)
    (h2 : s.len = if T.length < len0 then len0 - T.length else 0)
    (h3 : s.ok = true ↔ (started = false ∨ T.length < len0)) (h4 : s.exp = order - i) :
    (pf_strpoly_body fmt c i s).head = (T ++ pf_strpoly_piece fmt order c i).length ∧
    ((pf_strpoly_body fmt c i s).len =
      if (T ++ pf_strpoly_piece fmt order c i).length < len0
      then len0 - (T ++ pf_strpoly_piece fmt order c i).length else 0) ∧
    ((pf_strpoly_body fmt c i s).ok = true ↔
      (T ++ pf_strpoly_piece fmt order c i).length < len0) ∧
    (pf_strpoly_body fmt c i s).exp = order - (i + 1) := by
  have hexp : (s.exp + UINT_MOD - 1) % UINT_MOD = order - 1 - i := by
    rw [h4, UINT_MOD_eq]
    rw [UINT_MOD_eq] at ho
    omega
  unfold pf_strpoly_body pf_strpoly_piece
  simp only [hexp]
  by_cases h0 : i = 0
  · subst h0
    simp only [ne_eq, not_true_eq_false, if_false, false_and, List.nil_append]
    have := pf_strpoly_put_inv len0 T (pf_strpoly_term fmt (c 0) (order - 1 - 0)) started
      { s with exp := order - 1 - 0 } h1 h2 h3
    refine ⟨this.1, this.2.1, this.2.2.1, ?_⟩
    rw [this.2.2.2]
    show order - 1 - 0 = order - (0 + 1)
    omega
  · simp only [ne_eq, h0, not_false_eq_true, if_true, true_and]
    have p1 := pf_strpoly_put_inv len0 T (pf_strpoly_op (c i)) started
      { s with exp := order - 1 - i } h1 h2 h3
    have p3 : (pf_strpoly_put { s with exp := order - 1 - i } (pf_strpoly_op (c i))).ok = true ↔
        ((true = false) ∨ (T ++ pf_strpoly_op (c i)).length < len0) := by
      rw [p1.2.2.1]
      simp
    have p2 := pf_strpoly_put_inv len0 (T ++ pf_strpoly_op (c i))
      (pf_strpoly_term fmt (if c i < 0 then -c i else c i) (order - 1 - i)) true
      (pf_strpoly_put { s with exp := order - 1 - i } (pf_strpoly_op (c i))) p1.1 p1.2.1 p3
    rw [List.append_assoc] at p2
    refine ⟨p2.1, p2.2.1, p2.2.2.1, ?_⟩
    rw [p2.2.2.2, p1.2.2.2]
    show order - 1 - i = order - (i + 1)
    omega

/-- The state of `pf_strpoly` after `k` iterations, in terms of the text of those iterations. -/
theorem pf_strpoly_loop_inv (fmt : K → List Char) (order : Nat) (c : Nat → K)
    (buf : Option (Nat → Char)) (len0 : Nat) (ho : order < UINT_MOD) (k : Nat) (hk : k ≤ order) :
    (for_loop k (pf_strpoly_body fmt c) ⟨0, len0, true, order, buf⟩).head =
      (for_loop k (fun i t => t ++ pf_strpoly_piece fmt order c i) []).length ∧
    ((for_loop k (pf_strpoly_body fmt c) ⟨0, len0, true, order, buf⟩).len =
      if (for_loop k (fun i t => t ++ pf_strpoly_piece fmt order c i) []).length < len0
      then len0 - (for_loop k (fun i t => t ++ pf_strpoly_piece fmt order c i) []).length
      else 0) ∧
    ((for_loop k (pf_strpoly_body fmt c) ⟨0, len0, true, order, buf⟩).ok = true ↔
      (k = 0 ∨ (for_loop k (fun i t => t ++ pf_strpoly_piece fmt order c i) []).length < len0)) ∧
    (for_loop k (pf_strpoly_body fmt c) ⟨0, len0, true, order, buf⟩).exp = order - k := by
  induction k with
  | zero =>
    refine ⟨rfl, ?_, by simp [for_loop], rfl⟩
    show len0 = if 0 < len0 then len0 - 0 else 0
    by_cases h : 0 < len0
    · simp [h]
    · simp only [h, if_false]
      omega
  | succ k ih =>
    obtain ⟨i1, i2, i3, i4⟩ := ih (by omega)
    have i3b : (for_loop k (pf_strpoly_body fmt c) ⟨0, len0, true, order, buf⟩).ok = true ↔
        (decide (k ≠ 0) = false ∨
          (for_loop k (fun i t => t ++ pf_strpoly_piece fmt order c i) []).length < len0) := by
      rw [i3]
      simp
    have := pf_strpoly_body_inv fmt order c len0 ho k (by omega) _ (decide (k ≠ 0)) _ i1 i2 i3b i4
    rw [for_loop_succ, pf_strpoly_text_succ]
    refine ⟨this.1, this.2.1, ?_, this.2.2.2⟩
    rw [this.2.2.1]
    simp

/-- The buffer after iteration `i`, when the text still fits. -/
theorem pf_strpoly_body_buf (fmt : K → List Char) (order : Nat) (c : Nat → K) (len0 : Nat)
    (ho : order < UINT_MOD) (i : Nat) (hi : i < order) (T : List Char) (started : Bool)
    (b0 : Nat → Char) (s : pf_strpoly_state) (h1 : s.head = T.length)
    (h2 : s.len = if T.length < len0 then len0 - T.length else 0)
    (h3 : s.ok = true ↔ (started = false ∨ T.length < len0)) (h4 : s.exp = order - i)
    (hfit : (T ++ pf_strpoly_piece fmt order c i).length < len0)
    (hb : ∃ b, s.buf = some b ∧ (∀ i, i < T.length → T[i]? = some (b i)) ∧
      (started = true → b T.length = NUL) ∧ ∀ i, T.length < i → b i = b0 i) :
    ∃ b, (pf_strpoly_body fmt c i s).buf = some b ∧
      (∀ j, j < (T ++ pf_strpoly_piece fmt order c i).length →
        (T ++ pf_strpoly_piece fmt order c i)[j]? = some (b j)) ∧
      b (T ++ pf_strpoly_piece fmt order c i).length = NUL ∧
      ∀ j, (T ++ pf_strpoly_piece fmt order c i).length < j → b j = b0 j := by
  have hexp : (s.exp + UINT_MOD - 1) % UINT_MOD = order - 1 - i := by
    rw [h4, UINT_MOD_eq]
    rw [UINT_MOD_eq] at ho
    omega
  revert hfit
  unfold pf_strpoly_body pf_strpoly_piece
  simp only [hexp]
  by_cases h0 : i = 0
  · subst h0
    simp only [ne_eq, not_true_eq_false, if_false, false_and, List.nil_append]
    intro hfit
    exact pf_strpoly_put_buf len0 T _ started b0 { s with exp := order - 1 - 0 } h1 h2 hfit hb
  · simp only [ne_eq, h0, not_false_eq_true, if_true, true_and]
    intro hfit
    rw [← List.append_assoc] at hfit
    have hfit1 : (T ++ pf_strpoly_op (c i)).length < len0 := by
      rw [List.length_append] at hfit
      omega
    have p1 := pf_strpoly_put_inv len0 T (pf_strpoly_op (c i)) started
      { s with exp := order - 1 - i } h1 h2 h3
    have q1 := pf_strpoly_put_buf len0 T (pf_strpoly_op (c i)) started b0
      { s with exp := order - 1 - i } h1 h2 hfit1 hb
    obtain ⟨b1, r1, r2, r3, r4⟩ := q1
    have q2 := pf_strpoly_put_buf len0 (T ++ pf_strpoly_op (c i))
      (pf_strpoly_term fmt (if c i < 0 then -c i else c i) (order - 1 - i)) true b0
      (pf_strpoly_put { s with exp := order - 1 - i } (pf_strpoly_op (c i))) p1.1 p1.2.1 hfit
      ⟨b1, r1, r2, fun _ => r3, r4⟩
    rw [List.append_assoc] at q2
    exact q2

/-- The text of the first `k` iterations is no longer than the text of the first `n ≥ k`. -/
theorem pf_strpoly_text_length_mono (fmt : K → List Char) (order : Nat) (c : Nat → K)
    (k n : Nat) (hkn : k ≤ n) :
    (for_loop k (fun i t => t ++ pf_strpoly_piece fmt order c i) []).length ≤
      (for_loop n (fun i t => t ++ pf_strpoly_piece fmt order c i) []).length := by
  induction n with
  | zero =>
    have : k = 0 := by omega
    subst this
    exact le_rfl
  | succ n ih =>
    by_cases hk : k = n + 1
    · subst hk
      exact le_rfl
    · have := ih (by omega)
      rw [pf_strpoly_text_succ, List.length_append]
      omega

/-- The buffer of `pf_strpoly` after `k` iterations when the complete text fits. -/
theorem pf_strpoly_loop_buf (fmt : K → List Char) (order : Nat) (c : Nat → K)
    (b0 : Nat → Char) (len0 : Nat) (ho : order < UINT_MOD)
    (hfit : (pf_strpoly_text fmt order c).length < len0) (k : Nat) (hk : k ≤ order) :
    ∃ b, (for_loop k (pf_strpoly_body fmt c) ⟨0, len0, true, order, some b0⟩).buf = some b ∧
      (∀ j, j < (for_loop k (fun i t => t ++ pf_strpoly_piece fmt order c i) []).length →
        (for_loop k (fun i t => t ++ pf_strpoly_piece fmt order c i) [])[j]? = some (b j)) ∧
      (decide (k ≠ 0) = true →
        b (for_loop k (fun i t => t ++ pf_strpoly_piece fmt order c i) []).length = NUL) ∧
      ∀ j, (for_loop k (fun i t => t ++ pf_strpoly_piece fmt order c i) []).length < j →
        b j = b0 j := by
  induction k with
  | zero =>
    exact ⟨b0, rfl, fun j hj => absurd hj (Nat.not_lt_zero j), fun h => by simp at h,
      fun _ _ => rfl⟩
  | succ k ih =>
    obtain ⟨i1, i2, i3, i4⟩ := pf_strpoly_loop_inv fmt order c (some b0) len0 ho k (by omega)
    have i3b : (for_loop k (pf_strpoly_body fmt c) ⟨0, len0, true, order, some b0⟩).ok = true ↔
        (decide (k ≠ 0) = false ∨
          (for_loop k (fun i t => t ++ pf_strpoly_piece fmt order c i) []).length < len0) := by
      rw [i3]
      simp
    have hlt : (for_loop (k + 1) (fun i t => t ++ pf_strpoly_piece fmt order c i) []).length <
        len0 := lt_of_le_of_lt (pf_strpoly_text_length_mono fmt order c (k + 1) order hk) hfit
    rw [pf_strpoly_text_succ] at hlt
    obtain ⟨b, hb1, hb2, hb3, hb4⟩ := pf_strpoly_body_buf fmt order c len0 ho k (by omega) _
      (decide (k ≠ 0)) b0 _ i1 i2 i3b i4 hlt (ih (by omega))
    rw [for_loop_succ, pf_strpoly_text_succ]
    exact ⟨b, hb1, hb2, fun _ => hb3, hb4⟩

end Str

section Claims1
variable {K : Type} [LinearOrderedField K]

/-- After validation `pf_fit` never answers `PF_EPARAM`. -/
theorem pf_fit_err_ne_eparam (e : pf_env K) (p : pf_points_t K) (order : Nat) (coef : Nat → K)
    (h : ¬ p.count < order) : (pf_fit e (some p) order (some coef)).err ≠ PF_EPARAM := by
  simp only [pf_fit, h, if_false]
  repeat' split
  all_goals simp

/-- Whenever `pf_fit` answers `PF_OK` its arguments were non-null, there were at least `order`
points and the five allocations succeeded. -/
theorem pf_fit_ok_inv (e : pf_env K) (points : Option (pf_points_t K)) (order : Nat)
    (coefficients : Option (Nat → K)) (h : (pf_fit e points order coefficients).err = PF_OK) :
    ∃ p coef, points = some p ∧ coefficients = some coef ∧ order ≤ p.count ∧
      ∀ k, k < 5 → e.malloc_ok k = true := by
  rcases points with _ | p
  · simp [pf_fit] at h
  rcases coefficients with _ | coef
  · simp [pf_fit] at h
  by_cases hlt : p.count < order
  · simp [pf_fit, hlt] at h
  refine ⟨p, coef, rfl, rfl, by omega, ?_⟩
  cases h0 : e.malloc_ok 0
  · simp [pf_fit, hlt, matrix_raw, MATRIX_ALLOC, h0] at h
  cases h1 : e.malloc_ok 1
  · simp [pf_fit, hlt, matrix_raw, matrix_create, MATRIX_ALLOC, h0, h1] at h
  cases h2 : e.malloc_ok 2
  · simp [pf_fit, hlt, matrix_raw, matrix_create, matrix_transpose, MATRIX_ALLOC, h0, h1, h2] at h
  cases h3 : e.malloc_ok 3
  · simp [pf_fit, hlt, matrix_raw, matrix_create, matrix_transpose, matrix_product, MATRIX_ALLOC,
      h0, h1, h2, h3] at h
  cases h4 : e.malloc_ok 4
  · simp only [pf_fit, hlt, matrix_raw, matrix_create, matrix_transpose, matrix_product,
      MATRIX_ALLOC, h0, h1, h2, h3, h4, if_false, if_true, Option.map_some', Option.map_none',
      ite_self, Bool.false_eq_true] at h
    revert h
    repeat' split
    all_goals simp
  intro k hk
  interval_cases k <;> assumption

end Claims1

section Solve
variable {K : Type} [LinearOrderedField K]
open Finset

/-- When the elimination finishes, dividing each right-hand side by its pivot solves the
original system. -/
theorem gj_solution {n : Nat} {G : Nat → Nat → K} {h : Nat → K}
    {t : (Nat → Nat → K) × (Nat → K)} (ht : gj_solve n (G, h) = some t) (out : Nat → K)
    (hout : ∀ i, i < n → out i = t.2 i / t.1 i i) :
    ∀ i, i < n → ∑ j in range n, G i j * out j = h i := by
  obtain ⟨ha, _, hd⟩ := gj_solve_inv n G h n le_rfl t ht
  refine (ha out).2 fun i hi => ?_
  rw [Finset.sum_eq_single i]
  · rw [hout i hi]
    field_simp [(hd i hi).1]
  · intro j hj hji
    rw [(hd j (Finset.mem_range.1 hj)).2 i hi (Ne.symm hji), zero_mul]
  · intro hi2
    exact absurd (Finset.mem_range.2 hi) hi2

/-- When the elimination finishes, the matrix of the system has a trivial kernel. -/
theorem gj_injective {n : Nat} {G : Nat → Nat → K} {h : Nat → K}
    {t : (Nat → Nat → K) × (Nat → K)} (ht : gj_solve n (G, h) = some t) (v : Nat → K)
    (hv : ∀ i, i < n → ∑ j in range n, G i j * v j = 0) : ∀ i, i < n → v i = 0 := by
  obtain ⟨_, hb, hd⟩ := gj_solve_inv n G h n le_rfl t ht
  intro i hi
  obtain ⟨u, hu, _⟩ := hb i hi
  have h1 : ∑ j in range n, t.1 i j * v j = 0 := by
    have e : ∀ j ∈ range n, t.1 i j * v j = ∑ l in range n, u l * (G l j * v j) := by
      intro j hj
      rw [hu j (Finset.mem_range.1 hj), Finset.sum_mul]
      exact Finset.sum_congr rfl fun l _ => by ring
    rw [Finset.sum_congr rfl e, Finset.sum_comm]
    refine Finset.sum_eq_zero fun l hl => ?_
    rw [← Finset.mul_sum, hv l (Finset.mem_range.1 hl), mul_zero]
  rw [Finset.sum_eq_single i] at h1
  · exact (mul_eq_zero.1 h1).resolve_left (hd i hi).1
  · intro j hj hji
    rw [(hd j (Finset.mem_range.1 hj)).2 i hi (Ne.symm hji), zero_mul]
  · intro hi2
    exact absurd (Finset.mem_range.2 hi) hi2

/-- The x-values of a point sequence number at most its length. -/
theorem xvalues_card_le (points : pf_points_t K) : (xvalues points).card ≤ points.count := by
  unfold xvalues
  exact (Finset.card_image_le).trans (by simp)

/-- With at least `order` distinct x-values the elimination on the Gram matrix finishes. -/
theorem gram_solve_some (points : pf_points_t K) (order : Nat)
    (hS : order ≤ (xvalues points).card) :
    ∃ t, gj_solve order (gram points order, moment points order) = some t :=
  gj_solve_some order _ _
    (fun c hc u hu _ => gram_quadratic_ne_zero points order hS c hc u hu) order le_rfl

/-- With fewer than `order` distinct x-values the elimination on the Gram matrix meets a zero
pivot. -/
theorem gram_solve_none (points : pf_points_t K) (order : Nat)
    (hS : (xvalues points).card < order) :
    gj_solve order (gram points order, moment points order) = none := by
  cases ht : gj_solve order (gram points order, moment points order) with
  | none => rfl
  | some t =>
    exfalso
    obtain ⟨v, ⟨l, hl, hvl⟩, hv⟩ := exists_coeffs_of_card_lt order (xvalues points) hS
    have hz : ∀ r, r < points.count → ∑ l in range order, v l * design points order r l = 0 :=
      fun r hr => hv _ (Finset.mem_image.2 ⟨r, Finset.mem_range.2 hr, rfl⟩)
    exact hvl (gj_injective ht v (fun i _ => gram_mulVec_eq_zero points order v hz i) l hl)

/-- The status of `pf_fit` after validation and allocation is decided by the number of
distinct x-values; on success the buffer holds a solution of the normal equations in its first
`order` cells and is unchanged elsewhere. -/
theorem pf_fit_status (e : pf_env K) (points : pf_points_t K) (order : Nat) (coef : Nat → K)
    (hle : order ≤ points.count) (hcount : points.count < UINT_MOD)
    (hr : points.count * order < UINT_MOD) (hm : ∀ k, k < 5 → e.malloc_ok k = true) :
    ((xvalues points).card < order ∧
      (pf_fit e (some points) order (some coef)).err = PF_ESOLVE ∧
      (pf_fit e (some points) order (some coef)).coefficients = some coef) ∨
    (order ≤ (xvalues points).card ∧
      (pf_fit e (some points) order (some coef)).err = PF_OK ∧
      ∃ out, (pf_fit e (some points) order (some coef)).coefficients = some out ∧
        (∀ i, i < order → ∑ j in range order, gram points order i j * out j =
          moment points order i) ∧
        (∀ v : Nat → K, (∀ i, i < order → ∑ j in range order, gram points order i j * v j = 0) →
          ∀ i, i < order → v i = 0) ∧
        ∀ i, order ≤ i → out i = coef i) := by
  rcases pf_fit_run e points order coef hle hcount hr hm with ⟨h1, h2, h3⟩ | ⟨t, h1, h2, h3⟩
  · left
    refine ⟨?_, h2, h3⟩
    by_contra hc
    obtain ⟨t, ht⟩ := gram_solve_some points order (by omega)
    rw [ht] at h1
    exact Option.noConfusion h1
  · right
    refine ⟨?_, h2, _, h3, ?_, fun v hv => gj_injective h1 v hv, fun i hi => ?_⟩
    · by_contra hc
      rw [gram_solve_none points order (by omega)] at h1
      exact Option.noConfusion h1
    · exact gj_solution h1 _ fun i hi => by simp only [hi, if_true]
    · have : ¬ i < order := by omega
      simp only [this, if_false]

/-- The moment vector of samples of the polynomial `p` is the Gram matrix applied to `p`. -/
theorem moment_of_poly (points : pf_points_t K) (order : Nat) (p : Nat → K)
    (hy : ∀ r, r < points.count → points.y r = ∑ l in range order, p l * design points order r l)
    (i : Nat) : moment points order i = ∑ j in range order, gram points order i j * p j := by
  rw [gram_mulVec, moment]
  exact Finset.sum_congr rfl fun r hr => by rw [hy r (Finset.mem_range.1 hr)]

/-- Samples of a polynomial with `order` coefficients at no fewer than `order` distinct
x-values are fitted by that polynomial. -/
theorem pf_fit_recovers (e : pf_env K) (points : pf_points_t K) (order : Nat) (coef : Nat → K)
    (p : Nat → K) (ho : 1 ≤ order) (hS : order ≤ (xvalues points).card)
    (hr : points.count * order < UINT_MOD) (hm : ∀ k, k < 5 → e.malloc_ok k = true)
    (hy : ∀ r, r < points.count → points.y r = ∑ l in range order, p l * design points order r l) :
    (pf_fit e (some points) order (some coef)).err = PF_OK ∧
      ∃ out, (pf_fit e (some points) order (some coef)).coefficients = some out ∧
        ∀ i, i < order → out i = p i := by
  have hle : order ≤ points.count := hS.trans (xvalues_card_le points)
  have hcount : points.count < UINT_MOD := lt_of_le_of_lt (Nat.le_mul_of_pos_right _ ho) hr
  rcases pf_fit_status e points order coef hle hcount hr hm with ⟨h1, _⟩ | ⟨_, h2, out, h3, h4, h5, _⟩
  · omega
  · refine ⟨h2, out, h3, fun i hi => ?_⟩
    have hz : ∀ i, i < order → ∑ j in range order, gram points order i j * (out j - p j) = 0 := by
      intro i hi
      have e1 : ∀ j ∈ range order, gram points order i j * (out j - p j) =
          gram points order i j * out j - gram points order i j * p j := fun j _ => by ring
      rw [Finset.sum_congr rfl e1, Finset.sum_sub_distrib, h4 i hi,
        moment_of_poly points order p hy i, sub_self]
    exact sub_eq_zero.1 (h5 (fun j => out j - p j) hz i hi)

end Solve

section Wrap
variable {K : Type}

/-- A row-major double loop is a single loop over the flat position. -/
theorem for_loop_flatten {σ : Type} (R C : Nat) (hC : 0 < C) (F : Nat → Nat → σ → σ) (s : σ) :
    for_loop R (fun r s => for_loop C (fun c s => F r c s) s) s =
      for_loop (R * C) (fun t s => F (t / C) (t % C) s) s := by
  induction R with
  | zero => simp [for_loop]
  | succ k ih =>
    rw [for_loop_succ, ih]
    have key : ∀ c, c ≤ C →
        for_loop c (fun c s => F k c s) (for_loop (k * C) (fun t s => F (t / C) (t % C) s) s) =
          for_loop (k * C + c) (fun t s => F (t / C) (t % C) s) s := by
      intro c hc
      induction c with
      | zero => rfl
      | succ c ihc =>
        have e1 : (k * C + c) / C = k := by
          rw [Nat.add_comm, Nat.add_mul_div_right _ _ hC, Nat.div_eq_of_lt (by omega), Nat.zero_add]
        have e2 : (k * C + c) % C = c := by
          rw [Nat.add_comm, Nat.add_mul_mod_self_right, Nat.mod_eq_of_lt (by omega)]
        rw [for_loop_succ, ihc (by omega), ← Nat.add_assoc, for_loop_succ, e1, e2]
    rw [key C le_rfl]
    congr 1
    ring

/-- Stores at successive flat positions leave the dimensions alone and, in each cell below
`UINT_MOD`, the value of the last position that reached it. -/
theorem wrap_fill_data (C : Nat) (val : Nat → K) (m0 : matrix_t K) (hc : m0.cols = C)
    (n : Nat) (hn : n ≤ 2 * UINT_MOD) :
    (for_loop n (fun t m => matrix_set_val m (t / C) (t % C) (val t)) m0).rows = m0.rows ∧
    (for_loop n (fun t m => matrix_set_val m (t / C) (t % C) (val t)) m0).cols = C ∧
    ∀ f, f < UINT_MOD →
      (for_loop n (fun t m => matrix_set_val m (t / C) (t % C) (val t)) m0).data f =
        if f + UINT_MOD < n then val (f + UINT_MOD) else if f < n then val f else m0.data f := by
  induction n with
  | zero =>
    refine ⟨rfl, hc, fun f _ => ?_⟩
    simp [for_loop]
  | succ n ih =>
    obtain ⟨h1, h2, h3⟩ := ih (by omega)
    rw [for_loop_succ]
    refine ⟨h1, h2, fun f hf => ?_⟩
    have hidx : matrix_idx (for_loop n (fun t m => matrix_set_val m (t / C) (t % C) (val t)) m0)
        (n / C) (n % C) = n % UINT_MOD := by
      unfold matrix_idx
      rw [h2, Nat.mul_comm, Nat.div_add_mod]
    show Function.update _ _ _ f = _
    rw [hidx]
    by_cases hfn : f = n % UINT_MOD
    · rw [hfn, Function.update_same]
      by_cases hlt : n < UINT_MOD
      · rw [Nat.mod_eq_of_lt hlt]
        have a1 : ¬ n + UINT_MOD < n + 1 := by omega
        have a2 : n < n + 1 := by omega
        rw [if_neg a1, if_pos a2]
      · have e : n % UINT_MOD = n - UINT_MOD := by
          rw [Nat.mod_eq_sub_mod (by omega), Nat.mod_eq_of_lt (by omega)]
        rw [e]
        have a1 : n - UINT_MOD + UINT_MOD < n + 1 := by omega
        have a2 : n - UINT_MOD + UINT_MOD = n := by omega
        rw [if_pos a1, a2]
    · rw [Function.update_noteq hfn, h3 f hf]
      have b1 : (f + UINT_MOD < n + 1) ↔ (f + UINT_MOD < n) := by
        constructor
        · intro h
          have : f + UINT_MOD ≠ n := by
            intro he
            apply hfn
            rw [← he, Nat.add_mod_right, Nat.mod_eq_of_lt hf]
          omega
        · intro h
          omega
      have b2 : f < n + 1 → f < n := by
        intro h
        by_cases hlt : n < UINT_MOD
        · have : f ≠ n := by
            intro he
            apply hfn
            rw [he, Nat.mod_eq_of_lt hlt]
          omega
        · omega
      by_cases c1 : f + UINT_MOD < n
      · rw [if_pos c1, if_pos (b1.2 c1)]
      · rw [if_neg c1, if_neg (fun h => c1 (b1.1 h))]
        by_cases c2 : f < n
        · rw [if_pos c2, if_pos (by omega)]
        · rw [if_neg c2, if_neg (fun h => c2 (b2 h))]

/-- A fill of `R * C = UINT_MOD + 2` cells in row-major order: the last two stores land in
cells 0 and 1, every other cell keeps the value stored at its own position. -/
theorem wrap_fill_get (R C : Nat) (hC : 0 < C) (hRC : R * C = UINT_MOD + 2) (v : Nat → Nat → K)
    (m0 : matrix_t K) (hc : m0.cols = C) :
    (for_loop R (fun r m => for_loop C (fun c m => matrix_set_val m r c (v r c)) m) m0).rows =
      m0.rows ∧
    (for_loop R (fun r m => for_loop C (fun c m => matrix_set_val m r c (v r c)) m) m0).cols =
      C ∧
    ∀ i, i < R → ∀ j, j < C →
      matrix_get_val
        (for_loop R (fun r m => for_loop C (fun c m => matrix_set_val m r c (v r c)) m) m0) i j =
        if i * C + j < 2 then v ((i * C + j + UINT_MOD) / C) ((i * C + j + UINT_MOD) % C)
        else v i j := by
  have hU : UINT_MOD = 4294967296 := UINT_MOD_eq
  rw [for_loop_flatten R C hC (fun r c m => matrix_set_val m r c (v r c)) m0]
  obtain ⟨h1, h2, h3⟩ := wrap_fill_data C (fun t => v (t / C) (t % C)) m0 hc (R * C) (by omega)
  refine ⟨h1, h2, fun i hi j hj => ?_⟩
  have hlt : i * C + j < R * C := flat_lt hi hj
  have e1 : (i * C + j) / C = i := by
    rw [Nat.add_comm, Nat.add_mul_div_right _ _ hC, Nat.div_eq_of_lt hj, Nat.zero_add]
  have e2 : (i * C + j) % C = j := by
    rw [Nat.add_comm, Nat.add_mul_mod_self_right, Nat.mod_eq_of_lt hj]
  unfold matrix_get_val matrix_idx
  rw [h2]
  by_cases hw : i * C + j < UINT_MOD
  · rw [Nat.mod_eq_of_lt hw, h3 _ hw]
    by_cases h2lt : i * C + j < 2
    · rw [if_pos (by omega), if_pos h2lt]
    · rw [if_neg (by omega), if_pos hlt, if_neg h2lt, e1, e2]
  · have e : (i * C + j) % UINT_MOD = i * C + j - UINT_MOD := by
      rw [Nat.mod_eq_sub_mod (by omega), Nat.mod_eq_of_lt (by omega)]
    have e3 : i * C + j - UINT_MOD + UINT_MOD = i * C + j := by omega
    rw [e, h3 _ (by omega), if_pos (by omega), if_neg (by omega), e3, e1, e2]

end Wrap

section WrapFit
variable {K : Type} [LinearOrderedField K]
open Finset

theorem wrap_count_eq : wrap_count = 1431655766 := rfl

/-- The cells of `mat_a` after lines 81-86 on `wrap_count` points with `order = 3`. -/
theorem wrap_mat_a (points : pf_points_t K) (hN : points.count = wrap_count) (junk : Nat → K)
    (log : List pf_event) :
    (pf_fit_fill_a points 3 ((3 + UINT_MOD - 1) % UINT_MOD)
      (⟨points.count, 3, junk⟩, log)).1.Holds points.count 3 (wrap_design points) := by
  have hU : UINT_MOD = 4294967296 := UINT_MOD_eq
  have e : (pf_fit_fill_a points 3 ((3 + UINT_MOD - 1) % UINT_MOD)
      (⟨points.count, 3, junk⟩, log)).1 =
      for_loop points.count (fun r m => for_loop 3 (fun c m => matrix_set_val m r c
        (points.x r ^ (((3 + UINT_MOD - 1) % UINT_MOD + UINT_MOD - c) % UINT_MOD))) m)
        ⟨points.count, 3, junk⟩ := by
    unfold pf_fit_fill_a
    refine for_loop_fst _ _ _ (fun r s => ?_)
      ((⟨points.count, 3, junk⟩ : matrix_t K), log)
    exact for_loop_fst _ _ _ (fun c s => rfl) s
  rw [e]
  obtain ⟨h1, h2, h3⟩ := wrap_fill_get points.count 3 (by decide)
    (by rw [hN, wrap_count_eq, hU])
    (fun r c => points.x r ^ (((3 + UINT_MOD - 1) % UINT_MOD + UINT_MOD - c) % UINT_MOD))
    (⟨points.count, 3, junk⟩ : matrix_t K) rfl
  refine ⟨h1, h2, fun i hi j hj => ?_⟩
  rw [h3 i hi j hj]
  have hexp : ∀ c, c < 3 →
      ((3 + UINT_MOD - 1) % UINT_MOD + UINT_MOD - c) % UINT_MOD = 2 - c := fun c hc =>
    degree_sub_eq (by rw [hU]; decide) hc
  unfold wrap_design
  by_cases h00 : i = 0 ∧ j = 0
  · obtain ⟨rfl, rfl⟩ := h00
    have a1 : (0 * 3 + 0 + UINT_MOD) / 3 = wrap_count - 1 := by rw [hU, wrap_count_eq]
    have a2 : (0 * 3 + 0 + UINT_MOD) % 3 = 1 := by rw [hU]
    rw [if_pos (by decide), a1, a2, hexp 1 (by decide)]
    simp
  · by_cases h01 : i = 0 ∧ j = 1
    · obtain ⟨rfl, rfl⟩ := h01
      have a1 : (0 * 3 + 1 + UINT_MOD) / 3 = wrap_count - 1 := by rw [hU, wrap_count_eq]
      have a2 : (0 * 3 + 1 + UINT_MOD) % 3 = 2 := by rw [hU]
      rw [if_pos (by decide), a1, a2, hexp 2 (by decide)]
      simp
    · have hge : ¬ i * 3 + j < 2 := by
        intro hlt
        have hi0 : i = 0 := by omega
        subst hi0
        have : j = 0 ∨ j = 1 := by omega
        rcases this with rfl | rfl
        · exact h00 ⟨rfl, rfl⟩
        · exact h01 ⟨rfl, rfl⟩
      rw [if_neg hge, if_neg h00, if_neg h01, hexp j hj]

/-- The cells of `mat_at` after `matrix_transpose` on `wrap_count` points with `order = 3`. -/
theorem wrap_mat_at (e : pf_env K) (k : Nat) (hk : e.malloc_ok k = true)
    (points : pf_points_t K) (hN : points.count = wrap_count) (src : matrix_t K)
    (hsrc : src.Holds points.count 3 (wrap_design points)) :
    ∃ m, matrix_transpose e k src = some m ∧ m.Holds 3 points.count (wrap_transpose points) := by
  have hU : UINT_MOD = 4294967296 := UINT_MOD_eq
  obtain ⟨s1, s2, s3⟩ := hsrc
  refine ⟨_, by simp only [matrix_transpose, MATRIX_ALLOC, hk, if_true, Option.map_some']; rfl, ?_⟩
  simp only [s1, s2]
  obtain ⟨h1, h2, h3⟩ := wrap_fill_get 3 points.count (by rw [hN, wrap_count_eq]; decide)
    (by rw [hN, wrap_count_eq, hU]) (fun r c => matrix_get_val src c r)
    ⟨3, points.count, e.junk k⟩ rfl
  refine ⟨h1, h2, fun i hi l hl => ?_⟩
  rw [h3 i hi l hl]
  have hl2 : l < wrap_count := by rw [← hN]; exact hl
  rw [wrap_count_eq] at hl2
  unfold wrap_transpose
  by_cases h00 : i = 0 ∧ l = 0
  · obtain ⟨rfl, rfl⟩ := h00
    have a1 : (0 * points.count + 0 + UINT_MOD) / points.count = 2 := by
      rw [hN, hU, wrap_count_eq]
    have a2 : (0 * points.count + 0 + UINT_MOD) % points.count = wrap_count - 2 := by
      rw [hN, hU, wrap_count_eq]
    rw [if_pos (by omega), a1, a2]
    simp only [and_self, if_true]
    exact s3 _ (by rw [hN, wrap_count_eq]; decide) 2 (by decide)
  · by_cases h01 : i = 0 ∧ l = 1
    · obtain ⟨rfl, rfl⟩ := h01
      have a1 : (0 * points.count + 1 + UINT_MOD) / points.count = 2 := by
        rw [hN, hU, wrap_count_eq]
      have a2 : (0 * points.count + 1 + UINT_MOD) % points.count = wrap_count - 1 := by
        rw [hN, hU, wrap_count_eq]
      rw [if_pos (by omega), a1, a2]
      simp only [one_ne_zero, and_false, if_false, and_self, if_true]
      exact s3 _ (by rw [hN, wrap_count_eq]; decide) 2 (by decide)
    · have hge : ¬ i * points.count + l < 2 := by
        intro hlt
        have hi0 : i = 0 := by
          rcases Nat.eq_zero_or_pos i with h | h
          · exact h
          · exfalso
            have h5 : points.count ≤ i * points.count := Nat.le_mul_of_pos_left _ h
            have h6 : points.count = 1431655766 := by rw [hN, wrap_count_eq]
            omega
        subst hi0
        have : l = 0 ∨ l = 1 := by omega
        rcases this with rfl | rfl
        · exact h00 ⟨rfl, rfl⟩
        · exact h01 ⟨rfl, rfl⟩
      rw [if_neg hge, if_neg h00, if_neg h01]
      exact s3 l hl i hi

/-- What `pf_fit` does with `order = 3` on `wrap_count` points once its allocations succeed: it
runs the elimination on the products of the cells the wrapped stores left in `mat_at` and
`mat_a`. -/
theorem pf_fit_wrap_run (e : pf_env K) (points : pf_points_t K) (coef : Nat → K)
    (hN : points.count = wrap_count) (hm : ∀ k, k < 5 → e.malloc_ok k = true)
    (G : Nat → Nat → K) (h : Nat → K)
    (hG : ∀ i, i < 3 → ∀ j, j < 3 →
      ∑ l in range points.count, wrap_transpose points i l * wrap_design points l j = G i j)
    (hh : ∀ i, i < 3 →
      ∑ l in range points.count, wrap_transpose points i l * points.y l = h i) :
    (gj_solve 3 (G, h) = none ∧
      (pf_fit e (some points) 3 (some coef)).err = PF_ESOLVE ∧
      (pf_fit e (some points) 3 (some coef)).coefficients = some coef) ∨
    ∃ t, gj_solve 3 (G, h) = some t ∧
      (pf_fit e (some points) 3 (some coef)).err = PF_OK ∧
      (pf_fit e (some points) 3 (some coef)).coefficients =
        some (fun i => if i < 3 then t.2 i / t.1 i i else coef i) := by
  have hU : UINT_MOD = 4294967296 := UINT_MOD_eq
  have hcount : points.count < UINT_MOD := by rw [hN, wrap_count_eq, hU]; decide
  have hA := wrap_mat_a points hN (e.junk 0) [pf_event.alloc 0]
  have hB := pf_fit_fill_b_Holds points (matrix_memset0 ⟨points.count, 1, e.junk 1⟩)
    (((pf_fit_fill_a points 3 ((3 + UINT_MOD - 1) % UINT_MOD)
      (⟨points.count, 3, e.junk 0⟩, [pf_event.alloc 0])).2) ++ [pf_event.alloc 1])
    (matrix_t.Holds.self _) hcount
  obtain ⟨mat_at, hAt1, hAt2⟩ := wrap_mat_at e 2 (hm 2 (by omega)) points hN _ hA
  obtain ⟨mat_ata, hAtA1, hAtA2⟩ :=
    matrix_product_Holds e 3 hAt2 hA (by rw [hU]; decide) (hm 3 (by omega))
  obtain ⟨mat_atb, hAtB1, hAtB2⟩ :=
    matrix_product_Holds e 4 hAt2 hB (by rw [hU]; decide) (hm 4 (by omega))
  exact pf_fit_run_cells e points 3 coef (by rw [hN, wrap_count_eq]; decide)
    (by rw [hU]; decide) hm G h mat_at mat_ata mat_atb hAt1 hAtA1 hAtB1
    ⟨hAtA2.congr hG, hAtB2.congr fun i hi _ _ => hh i hi⟩

/-- A sum whose terms are constant from index 3 on. -/
theorem sum_range_thin (N : Nat) (hN : 3 ≤ N) (F : Nat → K) (c0 : K)
    (hF : ∀ l, 3 ≤ l → l < N → F l = c0) :
    ∑ l in range N, F l = F 0 + F 1 + F 2 + ((N - 3 : Nat) : K) * c0 := by
  have key : ∀ n, ∑ l in range (3 + n), (if l < 3 then F l else c0) =
      F 0 + F 1 + F 2 + (n : K) * c0 := by
    intro n
    induction n with
    | zero => simp [Finset.sum_range_succ]
    | succ n ih =>
      rw [← Nat.add_assoc, Finset.sum_range_succ, ih, if_neg (by omega)]
      push_cast
      ring
  have e : ∑ l in range N, F l = ∑ l in range N, (if l < 3 then F l else c0) := by
    refine Finset.sum_congr rfl fun l hl => ?_
    by_cases h3 : l < 3
    · rw [if_pos h3]
    · rw [if_neg h3]
      exact hF l (by omega) (Finset.mem_range.1 hl)
  have e2 : N = 3 + (N - 3) := by omega
  rw [e]
  conv_lhs => rw [e2]
  exact key (N - 3)

end WrapFit

section WrapConcrete
open Finset

/-- On `points_wrap_two` the product of the wrapped `mat_at` and `mat_a` is `wrap_two_ata`. -/
theorem wrap_two_ata_eq (i : Nat) (hi : i < 3) (j : Nat) (hj : j < 3) :
    ∑ l in range points_wrap_two.count,
      wrap_transpose points_wrap_two i l * wrap_design points_wrap_two l j =
      wrap_two_ata i j := by
  rw [sum_range_thin points_wrap_two.count (by decide) _ ((0 : ℚ) ^ (2 - i) * 0 ^ (2 - j))
    (fun l h3 _ => ?_)]
  · have e : (((points_wrap_two.count - 3 : Nat)) : ℚ) = 1431655763 := by
      simp [points_wrap_two, wrap_count]
    rw [e]
    interval_cases i <;> interval_cases j <;>
      norm_num [wrap_transpose, wrap_design, points_wrap_two, wrap_count, wrap_two_ata]
  · have h0 : l ≠ 0 := by omega
    have h1 : l ≠ 1 := by omega
    simp [wrap_transpose, wrap_design, points_wrap_two, h0, h1]

/-- On `points_wrap_two` the product of the wrapped `mat_at` and `mat_b` is `wrap_two_atb`. -/
theorem wrap_two_atb_eq (i : Nat) (hi : i < 3) :
    ∑ l in range points_wrap_two.count, wrap_transpose points_wrap_two i l * points_wrap_two.y l =
      wrap_two_atb i := by
  rw [sum_range_thin points_wrap_two.count (by decide) _ (0 : ℚ) (fun l h3 _ => ?_)]
  · interval_cases i <;>
      norm_num [wrap_transpose, wrap_design, points_wrap_two, wrap_count, wrap_two_atb]
  · have h0 : l ≠ 0 := by omega
    simp [points_wrap_two, h0]

/-- On `points_wrap_line` the product of the wrapped `mat_at` and `mat_a` is
`wrap_line_ata`. -/
theorem wrap_line_ata_eq (i : Nat) (hi : i < 3) (j : Nat) (hj : j < 3) :
    ∑ l in range points_wrap_line.count,
      wrap_transpose points_wrap_line i l * wrap_design points_wrap_line l j =
      wrap_line_ata i j := by
  rw [sum_range_thin points_wrap_line.count (by decide) _ ((0 : ℚ) ^ (2 - i) * 0 ^ (2 - j))
    (fun l h3 _ => ?_)]
  · have e : (((points_wrap_line.count - 3 : Nat)) : ℚ) = 1431655763 := by
      simp [points_wrap_line, wrap_count]
    rw [e]
    interval_cases i <;> interval_cases j <;>
      norm_num [wrap_transpose, wrap_design, points_wrap_line, wrap_count, wrap_line_ata]
  · have h0 : l ≠ 0 := by omega
    have h1 : l ≠ 1 := by omega
    have h2 : l ≠ 2 := by omega
    simp [wrap_transpose, wrap_design, points_wrap_line, h0, h1, h2]

/-- On `points_wrap_line` the product of the wrapped `mat_at` and `mat_b` is
`wrap_line_atb`. -/
theorem wrap_line_atb_eq (i : Nat) (hi : i < 3) :
    ∑ l in range points_wrap_line.count,
      wrap_transpose points_wrap_line i l * points_wrap_line.y l = wrap_line_atb i := by
  rw [sum_range_thin points_wrap_line.count (by decide) _ (0 : ℚ) (fun l h3 _ => ?_)]
  · interval_cases i <;>
      norm_num [wrap_transpose, wrap_design, points_wrap_line, wrap_count, wrap_line_atb]
  · have h1 : l ≠ 1 := by omega
    have h2 : l ≠ 2 := by omega
    simp [points_wrap_line, h1, h2]

/-- The outcome of `pf_fit` on `points_wrap_two` with `order = 3`: `PF_OK` and the
coefficients `[-1/2, 1, 0]`. -/
theorem pf_fit_wrap_two :
    (pf_fit env_ok (some points_wrap_two) 3 (some coef_zero)).err = PF_OK ∧
    ∃ out, (pf_fit env_ok (some points_wrap_two) 3 (some coef_zero)).coefficients = some out ∧
      out 0 = -1 / 2 ∧ out 1 = 1 ∧ out 2 = 0 := by
  have hsolve : ∀ t, gj_solve 3 (wrap_two_ata, wrap_two_atb) = some t →
      t.2 0 / t.1 0 0 = -1 / 2 ∧ t.2 1 / t.1 1 1 = 1 ∧ t.2 2 / t.1 2 2 = 0 := by decide!
  have hs : (gj_solve 3 (wrap_two_ata, wrap_two_atb)).isSome = true := by decide!
  rcases pf_fit_wrap_run env_ok points_wrap_two coef_zero rfl (fun _ _ => rfl)
    wrap_two_ata wrap_two_atb wrap_two_ata_eq wrap_two_atb_eq with ⟨h1, _⟩ | ⟨t, h1, h2, h3⟩
  · rw [h1] at hs
    exact absurd hs (by decide)
  · obtain ⟨a, b, c⟩ := hsolve t h1
    exact ⟨h2, _, h3, by simpa using a, by simpa using b, by simpa using c⟩

/-- The outcome of `pf_fit` on `points_wrap_line` with `order = 3`: `PF_OK` and the
coefficients `[1/3, 1/3, 0]`. -/
theorem pf_fit_wrap_line :
    (pf_fit env_ok (some points_wrap_line) 3 (some coef_zero)).err = PF_OK ∧
    ∃ out, (pf_fit env_ok (some points_wrap_line) 3 (some coef_zero)).coefficients = some out ∧
      out 0 = 1 / 3 ∧ out 1 = 1 / 3 ∧ out 2 = 0 := by
  have hsolve : ∀ t, gj_solve 3 (wrap_line_ata, wrap_line_atb) = some t →
      t.2 0 / t.1 0 0 = 1 / 3 ∧ t.2 1 / t.1 1 1 = 1 / 3 ∧ t.2 2 / t.1 2 2 = 0 := by decide!
  have hs : (gj_solve 3 (wrap_line_ata, wrap_line_atb)).isSome = true := by decide!
  rcases pf_fit_wrap_run env_ok points_wrap_line coef_zero rfl (fun _ _ => rfl)
    wrap_line_ata wrap_line_atb wrap_line_ata_eq wrap_line_atb_eq with ⟨h1, _⟩ | ⟨t, h1, h2, h3⟩
  · rw [h1] at hs
    exact absurd hs (by decide)
  · obtain ⟨a, b, c⟩ := hsolve t h1
    exact ⟨h2, _, h3, by simpa using a, by simpa using b, by simpa using c⟩

end WrapConcrete

section ClaimsFit
variable {K : Type} [LinearOrderedField K]
open Finset

/-- C1: `pf_fit` returns `PF_EPARAM` if and only if `points` is NULL, or `coefficients` is NULL,
or `points->count < order`, for every value of `order` (0 included); and in that case the whole
outcome is the status alone: the event log is empty (no matrix was allocated, no point accessor
was called, no coefficient was stored) and the buffer is the caller's, whatever the allocator
would have answered. -/
theorem pf_fit_eparam_iff (e : pf_env K) (points : Option (pf_points_t K)) (order : Nat)
    (coefficients : Option (Nat → K)) :
    ((pf_fit e points order coefficients).err = PF_EPARAM ↔
      (points = none ∨ coefficients = none ∨ ∃ p, points = some p ∧ p.count < order)) ∧
    ((pf_fit e points order coefficients).err = PF_EPARAM →
      pf_fit e points order coefficients = ⟨PF_EPARAM, coefficients, []⟩ ∧
      (pf_fit e points order coefficients).log = [] ∧
      ∀ e2 : pf_env K, pf_fit e2 points order coefficients = ⟨PF_EPARAM, coefficients, []⟩) := by
  rcases points with _ | p
  · simp [pf_fit]
  rcases coefficients with _ | coef
  · simp [pf_fit]
  by_cases hlt : p.count < order
  · simp [pf_fit, hlt]
  · have hne := pf_fit_err_ne_eparam e p order coef hlt
    refine ⟨⟨fun h => absurd h hne, fun h => ?_⟩, fun h => absurd h hne⟩
    rcases h with h | h | ⟨q, hq, hq2⟩
    · exact Option.noConfusion h
    · exact Option.noConfusion h
    · cases hq
      exact absurd hq2 hlt

/-- C1 at four points and `order = 5`: the call is rejected with an empty event log. -/
theorem pf_fit_eparam_iff_witness :
    ((pf_fit env_ok (some points_square) 5 (some coef_zero)).err = PF_EPARAM ↔
      ((some points_square = none) ∨ (some coef_zero = none) ∨
        ∃ p, some points_square = some p ∧ p.count < 5)) ∧
    ((pf_fit env_ok (some points_square) 5 (some coef_zero)).err = PF_EPARAM →
      pf_fit env_ok (some points_square) 5 (some coef_zero) =
        ⟨PF_EPARAM, some coef_zero, []⟩ ∧
      (pf_fit env_ok (some points_square) 5 (some coef_zero)).log = [] ∧
      ∀ e2 : pf_env ℚ, pf_fit e2 (some points_square) 5 (some coef_zero) =
        ⟨PF_EPARAM, some coef_zero, []⟩) :=
  pf_fit_eparam_iff env_ok (some points_square) 5 (some coef_zero)

/-- C2 (amended): least-squares optimality. For every point sequence and every order `>= 1`
with `count * order < 2 ^ 32` (the flat index of the design matrix does not wrap), whenever
`pf_fit` returns `PF_OK` the coefficients `c` it wrote minimise the sum of squared residuals:
`residual c <= residual d` for every coefficient vector `d`. -/
theorem pf_fit_least_squares (e : pf_env K) (points : Option (pf_points_t K)) (order : Nat)
    (coefficients : Option (Nat → K)) (ho : 1 ≤ order)
    (hr : ∀ p, points = some p → p.count * order < UINT_MOD)
    (hok : (pf_fit e points order coefficients).err = PF_OK) :
    ∃ p c, points = some p ∧ (pf_fit e points order coefficients).coefficients = some c ∧
      ∀ d : Nat → K, residual p order c ≤ residual p order d := by
  obtain ⟨p, coef, rfl, rfl, hle, hm⟩ := pf_fit_ok_inv e points order coefficients hok
  have hr2 := hr p rfl
  have hcount : p.count < UINT_MOD := lt_of_le_of_lt (Nat.le_mul_of_pos_right _ ho) hr2
  rcases pf_fit_status e p order coef hle hcount hr2 hm with ⟨_, h2, _⟩ | ⟨_, _, out, h3, h4, _, _⟩
  · rw [hok] at h2
    exact absurd h2 (by decide)
  · refine ⟨p, out, rfl, h3, fun d => ?_⟩
    rw [residual_eq_add p order out d h4]
    exact le_add_of_nonneg_right (Finset.sum_nonneg fun r _ => sq_nonneg _)

/-- C2 (amended) at the points `(0,3), (5,4), (-1,8)` fitted by a line (`order = 2`). -/
theorem pf_fit_least_squares_witness :
    (1 ≤ 2 ∧ (∀ p, some points_three = some p → p.count * 2 < UINT_MOD) ∧
      (pf_fit env_ok (some points_three) 2 (some coef_zero)).err = PF_OK) ∧
    ∃ p c, some points_three = some p ∧
      (pf_fit env_ok (some points_three) 2 (some coef_zero)).coefficients = some c ∧
      ∀ d : Nat → ℚ, residual p 2 c ≤ residual p 2 d :=
  ⟨⟨by decide, fun p hp => by cases hp; decide, by decide!⟩,
    pf_fit_least_squares env_ok (some points_three) 2 (some coef_zero) (by decide)
      (fun p hp => by cases hp; decide) (by decide!)⟩

/-- C3 (amended): with non-null arguments, `count >= order >= 1`, `count * order < 2 ^ 32` (the
flat index of the design matrix does not wrap) and all five allocations succeeding, `pf_fit`
returns `PF_ESOLVE` exactly when the x-values contain fewer than `order` distinct values and
`PF_OK` otherwise; in particular on pairwise distinct x-values the fit succeeds for every order
from 1 to `count`. -/
theorem pf_fit_esolve_iff (e : pf_env K) (points : pf_points_t K) (order : Nat) (coef : Nat → K)
    (ho : 1 ≤ order) (hle : order ≤ points.count) (hr : points.count * order < UINT_MOD)
    (hm : ∀ k, k < 5 → e.malloc_ok k = true) :
    ((pf_fit e (some points) order (some coef)).err = PF_ESOLVE ↔
      (xvalues points).card < order) ∧
    ((pf_fit e (some points) order (some coef)).err = PF_OK ↔
      order ≤ (xvalues points).card) ∧
    ((∀ i, i < points.count → ∀ j, j < points.count → points.x i = points.x j → i = j) →
      (pf_fit e (some points) order (some coef)).err = PF_OK) := by
  have hcount : points.count < UINT_MOD := lt_of_le_of_lt (Nat.le_mul_of_pos_right _ ho) hr
  have key := pf_fit_status e points order coef hle hcount hr hm
  have h1 : (pf_fit e (some points) order (some coef)).err = PF_ESOLVE ↔
      (xvalues points).card < order := by
    rcases key with ⟨a, b, _⟩ | ⟨a, b, _⟩
    · exact ⟨fun _ => a, fun _ => b⟩
    · rw [b]
      exact ⟨fun h => absurd h (by decide), fun h => absurd h (by omega)⟩
  have h2 : (pf_fit e (some points) order (some coef)).err = PF_OK ↔
      order ≤ (xvalues points).card := by
    rcases key with ⟨a, b, _⟩ | ⟨a, b, _⟩
    · rw [b]
      exact ⟨fun h => absurd h (by decide), fun h => absurd h (by omega)⟩
    · exact ⟨fun _ => a, fun _ => b⟩
  refine ⟨h1, h2, fun hinj => h2.2 ?_⟩
  have hcard : (xvalues points).card = points.count := by
    unfold xvalues
    rw [Finset.card_image_of_injOn, Finset.card_range]
    intro i hi j hj hij
    exact hinj i (Finset.mem_range.1 (Finset.mem_coe.1 hi)) j
      (Finset.mem_range.1 (Finset.mem_coe.1 hj)) hij
  omega

/-- C3 (amended) at the x-values `0 .. 7` of the test driver and `order = 8`. -/
theorem pf_fit_esolve_iff_witness :
    (1 ≤ 8 ∧ 8 ≤ points_test.count ∧ points_test.count * 8 < UINT_MOD ∧
      ∀ k, k < 5 → env_ok.malloc_ok k = true) ∧
    ((pf_fit env_ok (some points_test) 8 (some coef_zero)).err = PF_ESOLVE ↔
      (xvalues points_test).card < 8) ∧
    ((pf_fit env_ok (some points_test) 8 (some coef_zero)).err = PF_OK ↔
      8 ≤ (xvalues points_test).card) ∧
    ((∀ i, i < points_test.count → ∀ j, j < points_test.count →
        points_test.x i = points_test.x j → i = j) →
      (pf_fit env_ok (some points_test) 8 (some coef_zero)).err = PF_OK) :=
  ⟨⟨by decide, by decide, by decide, fun _ _ => rfl⟩,
    pf_fit_esolve_iff env_ok points_test 8 coef_zero (by decide) (by decide) (by decide)
      (fun _ _ => rfl)⟩

/-- C5 (amended): for `order = 1` and every point sequence with `count >= 1` (any x-values, 0
included; `count` an `unsigned int`), when the buffer is non-null and the five allocations
succeed, `pf_fit` returns `PF_OK` and writes `coefficients[0] = (sum of all y_r) / count`. -/
theorem pf_fit_order_one_mean (e : pf_env K) (points : pf_points_t K) (coef : Nat → K)
    (h1 : 1 ≤ points.count) (hcount : points.count < UINT_MOD)
    (hm : ∀ k, k < 5 → e.malloc_ok k = true) :
    (pf_fit e (some points) 1 (some coef)).err = PF_OK ∧
    ∃ out, (pf_fit e (some points) 1 (some coef)).coefficients = some out ∧
      out 0 = (∑ r in range points.count, points.y r) / points.count := by
  have hcard : 1 ≤ (xvalues points).card := by
    apply Finset.card_pos.2
    exact ⟨points.x 0, Finset.mem_image.2 ⟨0, Finset.mem_range.2 h1, rfl⟩⟩
  rcases pf_fit_status e points 1 coef h1 hcount (by omega) hm with
    ⟨a, _⟩ | ⟨_, h2, out, h3, h4, _, _⟩
  · omega
  · refine ⟨h2, out, h3, ?_⟩
    have h5 := h4 0 Nat.one_pos
    have hcnt : (points.count : K) ≠ 0 := Nat.cast_ne_zero.2 (by omega)
    simp only [Finset.sum_range_one, gram, moment, design, Nat.sub_self, pow_zero, mul_one,
      one_mul, Finset.sum_const, Finset.card_range, nsmul_eq_mul] at h5
    rw [← h5]
    field_simp

/-- C5 (amended) at the points `(0,3), (5,4), (-1,8)`. -/
theorem pf_fit_order_one_mean_witness :
    (1 ≤ points_three.count ∧ points_three.count < UINT_MOD ∧
      ∀ k, k < 5 → env_ok.malloc_ok k = true) ∧
    ((pf_fit env_ok (some points_three) 1 (some coef_zero)).err = PF_OK ∧
      ∃ out, (pf_fit env_ok (some points_three) 1 (some coef_zero)).coefficients = some out ∧
        out 0 = (∑ r in range points_three.count, points_three.y r) / points_three.count) :=
  ⟨⟨by decide, by decide, fun _ _ => rfl⟩,
    pf_fit_order_one_mean env_ok points_three coef_zero (by decide) (by decide) (fun _ _ => rfl)⟩

/-- C6 (amended): interpolation. For every point sequence with `count >= 1` and pairwise
distinct x-values, when the buffer is non-null, the five allocations succeed and
`count * count < 2 ^ 32`, `pf_fit` with `order = count` returns `PF_OK` and the written
coefficients satisfy `pf_eval(order, coefficients, x_i) = y_i` for every input point. -/
theorem pf_fit_interpolates (e : pf_env K) (points : pf_points_t K) (coef : Nat → K)
    (h1 : 1 ≤ points.count) (hr : points.count * points.count < UINT_MOD)
    (hm : ∀ k, k < 5 → e.malloc_ok k = true)
    (hx : ∀ i, i < points.count → ∀ j, j < points.count → points.x i = points.x j → i = j) :
    (pf_fit e (some points) points.count (some coef)).err = PF_OK ∧
    ∃ out, (pf_fit e (some points) points.count (some coef)).coefficients = some out ∧
      ∀ i, i < points.count → pf_eval points.count out (points.x i) = points.y i := by
  have hcard : (xvalues points).card = points.count := by
    unfold xvalues
    rw [Finset.card_image_of_injOn, Finset.card_range]
    intro i hi j hj hij
    exact hx i (Finset.mem_range.1 (Finset.mem_coe.1 hi)) j
      (Finset.mem_range.1 (Finset.mem_coe.1 hj)) hij
  obtain ⟨d, hd⟩ := exists_coeffs_interpolate points.count h1 points.x points.y hx
  obtain ⟨hok, out, hout, heq⟩ := pf_fit_recovers e points points.count coef d h1 (by omega) hr hm
    (fun r hr2 => (hd r hr2).symm)
  refine ⟨hok, out, hout, fun i hi => ?_⟩
  rw [pf_eval_eq_sum, ← hd i hi]
  exact Finset.sum_congr rfl fun l hl => by rw [heq l (Finset.mem_range.1 hl)]

/-- C6 (amended) at the points `(0,3), (5,4), (-1,8)` and `order = 3`. -/
theorem pf_fit_interpolates_witness :
    (1 ≤ points_three.count ∧ points_three.count * points_three.count < UINT_MOD ∧
      (∀ k, k < 5 → env_ok.malloc_ok k = true) ∧
      ∀ i, i < points_three.count → ∀ j, j < points_three.count →
        points_three.x i = points_three.x j → i = j) ∧
    ((pf_fit env_ok (some points_three) points_three.count (some coef_zero)).err = PF_OK ∧
      ∃ out, (pf_fit env_ok (some points_three) points_three.count (some coef_zero)).coefficients =
          some out ∧
        ∀ i, i < points_three.count →
          pf_eval points_three.count out (points_three.x i) = points_three.y i) :=
  ⟨⟨by decide, by decide, fun _ _ => rfl, by decide!⟩,
    pf_fit_interpolates env_ok points_three coef_zero (by decide) (by decide) (fun _ _ => rfl)
      (by decide!)⟩

/-- C7 (amended): exact recovery. For every order `>= 1`, every coefficient vector `p` (highest
degree first) and every point sequence with at least `order` distinct x-values whose y-values
are `y_r = pf_eval(order, p, x_r)`, when the buffer is non-null, the five allocations succeed
and `count * order < 2 ^ 32`, `pf_fit` returns `PF_OK` and writes exactly `p`. -/
theorem pf_fit_exact_recovery (e : pf_env K) (points : pf_points_t K) (order : Nat)
    (coef p : Nat → K) (ho : 1 ≤ order) (hS : order ≤ (xvalues points).card)
    (hr : points.count * order < UINT_MOD) (hm : ∀ k, k < 5 → e.malloc_ok k = true)
    (hy : ∀ r, r < points.count → points.y r = pf_eval order p (points.x r)) :
    (pf_fit e (some points) order (some coef)).err = PF_OK ∧
    ∃ out, (pf_fit e (some points) order (some coef)).coefficients = some out ∧
      ∀ i, i < order → out i = p i :=
  pf_fit_recovers e points order coef p ho hS hr hm fun r hr2 => by
    rw [hy r hr2, pf_eval_eq_design]

/-- C7 (amended) at the points `(0,1), (1,2), (2,5), (3,10)` of `y = x^2 + 1` with `order = 3`: the
coefficients are `[1, 0, 1]` and the fitted polynomial takes the value 17 at 4. -/
theorem pf_fit_exact_recovery_witness :
    (1 ≤ 3 ∧ 3 ≤ (xvalues points_square).card ∧ points_square.count * 3 < UINT_MOD ∧
      (∀ k, k < 5 → env_ok.malloc_ok k = true) ∧
      ∀ r, r < points_square.count →
        points_square.y r = pf_eval 3 (fun i => [1, 0, 1].getD i 0) (points_square.x r)) ∧
    ((pf_fit env_ok (some points_square) 3 (some coef_zero)).err = PF_OK ∧
      ∃ out, (pf_fit env_ok (some points_square) 3 (some coef_zero)).coefficients = some out ∧
        ∀ i, i < 3 → out i = (fun i => [1, 0, 1].getD i 0) i) ∧
    (∀ out, (pf_fit env_ok (some points_square) 3 (some coef_zero)).coefficients = some out →
      out 0 = 1 ∧ out 1 = 0 ∧ out 2 = 1 ∧ pf_eval 3 out 4 = 17) :=
  ⟨⟨by decide, by decide!, by decide, fun _ _ => rfl, by decide!⟩,
    pf_fit_exact_recovery env_ok points_square 3 coef_zero (fun i => [1, 0, 1].getD i 0)
      (by decide) (by decide!) (by decide) (fun _ _ => rfl) (by decide!),
    by decide!⟩

end ClaimsFit

section Counterexamples
open Finset

/-- The residual of a cubic-free fit on `points_wrap_two`: the point `(0,1)`, the point `(2,0)`
and `wrap_count - 2` points `(0,0)`. -/
theorem residual_wrap_two (c : Nat → ℚ) :
    residual points_wrap_two 3 c =
      (c 2 - 1) ^ 2 + (c 0 * 4 + c 1 * 2 + c 2) ^ 2 + 1431655764 * c 2 ^ 2 := by
  unfold residual
  rw [sum_range_thin points_wrap_two.count (by decide) _ ((c 2) ^ 2) (fun l h3 _ => ?_)]
  · have e : (((points_wrap_two.count - 3 : Nat)) : ℚ) = 1431655763 := by
      simp [points_wrap_two, wrap_count]
    rw [e]
    simp only [pf_eval_eq_sum, Finset.sum_range_succ, Finset.sum_range_zero]
    norm_num [points_wrap_two]
    ring
  · have h0 : l ≠ 0 := by omega
    have h1 : l ≠ 1 := by omega
    simp only [pf_eval_eq_sum, Finset.sum_range_succ, Finset.sum_range_zero]
    simp [points_wrap_two, h0, h1]

/-- C2 fails past `2 ^ 32` cells: on the `wrap_count` points `(0,1), (2,0), (0,0), ...` with
`order = 3` the flat index of `mat_a` and `mat_at` wraps, `pf_fit` returns `PF_OK` and writes
`[-1/2, 1, 0]`, whose residual is 1, while the constant `1 / wrap_count` has a smaller one. -/
theorem pf_fit_least_squares_counterexample :
    1 ≤ 3 ∧ (pf_fit env_ok (some points_wrap_two) 3 (some coef_zero)).err = PF_OK ∧
    ∃ c d : Nat → ℚ,
      (pf_fit env_ok (some points_wrap_two) 3 (some coef_zero)).coefficients = some c ∧
      residual points_wrap_two 3 d < residual points_wrap_two 3 c := by
  obtain ⟨hok, out, hout, h0, h1, h2⟩ := pf_fit_wrap_two
  refine ⟨by decide, hok, out, fun i => if i = 2 then 1 / 1431655766 else 0, hout, ?_⟩
  rw [residual_wrap_two, residual_wrap_two, h0, h1, h2]
  norm_num

/-- The x-values of `points_wrap_two` are 0 and 2 only. -/
theorem xvalues_wrap_two_card : (xvalues points_wrap_two).card < 3 := by
  have hsub : xvalues points_wrap_two ⊆ {0, 2} := by
    intro a ha
    obtain ⟨r, _, rfl⟩ := Finset.mem_image.1 ha
    by_cases h1 : r = 1
    · simp [points_wrap_two, h1]
    · simp [points_wrap_two, h1]
  have := Finset.card_le_card hsub
  have h2 : ({0, 2} : Finset ℚ).card ≤ 2 := Finset.card_le_two
  omega

/-- C3 fails past `2 ^ 32` cells: the `wrap_count` points `(0,1), (2,0), (0,0), ...` have two
distinct x-values, the arguments are non-null, `count >= order = 3 >= 1` and every allocation
succeeds, yet `pf_fit` returns `PF_OK`, not `PF_ESOLVE`. -/
theorem pf_fit_esolve_iff_counterexample :
    (1 ≤ 3 ∧ 3 ≤ points_wrap_two.count ∧ ∀ k, k < 5 → env_ok.malloc_ok k = true) ∧
    (xvalues points_wrap_two).card < 3 ∧
    (pf_fit env_ok (some points_wrap_two) 3 (some coef_zero)).err = PF_OK ∧
    (pf_fit env_ok (some points_wrap_two) 3 (some coef_zero)).err ≠ PF_ESOLVE := by
  refine ⟨⟨by decide, by decide, fun _ _ => rfl⟩, xvalues_wrap_two_card, pf_fit_wrap_two.1, ?_⟩
  rw [pf_fit_wrap_two.1]
  decide

/-- C5 fails when an allocation fails or the buffer is NULL: three points with `order = 1`
give `PF_EALLOC` under a failing allocator and `PF_EPARAM` with a NULL buffer, not `PF_OK`. -/
theorem pf_fit_order_one_mean_counterexample :
    1 ≤ points_three.count ∧
    (pf_fit env_fail (some points_three) 1 (some coef_zero)).err = PF_EALLOC ∧
    (pf_fit env_fail (some points_three) 1 (some coef_zero)).coefficients = some coef_zero ∧
    (pf_fit env_ok (some points_three) 1 none).err = PF_EPARAM := by
  refine ⟨by decide, by decide!, rfl, by decide!⟩

/-- The x-values of `points_wrap_line` include 0, 1 and 2. -/
theorem xvalues_wrap_line_card : 3 ≤ (xvalues points_wrap_line).card := by
  have hsub : ({0, 2, 1} : Finset ℚ) ⊆ xvalues points_wrap_line := by
    intro a ha
    simp only [Finset.mem_insert, Finset.mem_singleton] at ha
    rcases ha with rfl | rfl | rfl
    · exact Finset.mem_image.2 ⟨0, Finset.mem_range.2 (by decide), by simp [points_wrap_line]⟩
    · exact Finset.mem_image.2 ⟨1, Finset.mem_range.2 (by decide), by simp [points_wrap_line]⟩
    · exact Finset.mem_image.2 ⟨2, Finset.mem_range.2 (by decide), by simp [points_wrap_line]⟩
  have h3 : ({0, 2, 1} : Finset ℚ).card = 3 := by decide
  have := Finset.card_le_card hsub
  omega

/-- C7 fails past `2 ^ 32` cells and when an allocation fails: the `wrap_count` points
`(0,0), (2,2), (1,1), (0,0), ...` are samples of `p = [0, 1, 0]` at three distinct x-values,
yet `pf_fit` with `order = 3` writes `[1/3, 1/3, 0]`; and on the four points of `y = x^2 + 1` a
failing allocator gives `PF_EALLOC`, not `PF_OK`. -/
theorem pf_fit_exact_recovery_counterexample :
    (1 ≤ 3 ∧ 3 ≤ (xvalues points_wrap_line).card ∧
      (∀ k, k < 5 → env_ok.malloc_ok k = true) ∧
      ∀ r, r < points_wrap_line.count →
        points_wrap_line.y r =
          pf_eval 3 (fun i => if i = 1 then 1 else 0) (points_wrap_line.x r)) ∧
    (∃ out, (pf_fit env_ok (some points_wrap_line) 3 (some coef_zero)).coefficients = some out ∧
      out 0 ≠ (fun i => if i = 1 then (1 : ℚ) else 0) 0) ∧
    (pf_fit env_fail (some points_square) 3 (some coef_zero)).err = PF_EALLOC := by
  obtain ⟨_, out, hout, h0, _, _⟩ := pf_fit_wrap_line
  refine ⟨⟨by decide, xvalues_wrap_line_card, fun _ _ => rfl, fun r _ => ?_⟩,
    ⟨out, hout, ?_⟩, by decide!⟩
  · simp only [pf_eval_eq_sum, Finset.sum_range_succ, Finset.sum_range_zero]
    by_cases h1 : r = 1
    · simp [points_wrap_line, h1]
    · by_cases h2 : r = 2
      · simp [points_wrap_line, h2]
      · simp [points_wrap_line, h1, h2]
  · rw [h0]
    norm_num

end Counterexamples

section ClaimsEvalStr
variable {K : Type} [LinearOrderedField K]
open Finset

/-- The Horner form is the polynomial with the coefficients listed from the highest degree. -/
theorem horner_eq_sum (order : Nat) (c : Nat → K) (x : K) :
    horner order c x = ∑ i in range order, c i * x ^ (order - 1 - i) := by
  unfold horner
  induction order with
  | zero => simp [for_loop]
  | succ n ih =>
    rw [for_loop_succ, ih, Finset.sum_range_succ, Finset.sum_mul]
    congr 1
    · refine Finset.sum_congr rfl fun i hi => ?_
      have hin : i < n := Finset.mem_range.1 hi
      have e : n + 1 - 1 - i = (n - 1 - i) + 1 := by omega
      rw [e, pow_succ]
      ring
    · simp

/-- The value `pf_strpoly` returns for `order >= 1`, in terms of the length of the text. -/
theorem pf_strpoly_ret (fmt : K → List Char) (order : Nat) (c : Nat → K)
    (buf : Option (Nat → Char)) (len : Nat) (h1 : 1 ≤ order) (ho : order < UINT_MOD) :
    (pf_strpoly fmt order c buf len).1 =
      if (pf_strpoly_text fmt order c).length < len then (pf_strpoly_text fmt order c).length
      else (pf_strpoly_text fmt order c).length + 1 := by
  obtain ⟨i1, _, i3, _⟩ := pf_strpoly_loop_inv fmt order c buf len ho order le_rfl
  have hne : order ≠ 0 := by omega
  unfold pf_strpoly
  simp only [hne, if_false]
  unfold pf_strpoly_text
  by_cases hfit : (for_loop order (fun i t => t ++ pf_strpoly_piece fmt order c i) []).length < len
  · rw [if_pos hfit, if_pos (i3.2 (Or.inr hfit)), i1]
  · have hok : ¬ (for_loop order (pf_strpoly_body fmt c) ⟨0, len, true, order, buf⟩).ok = true :=
      fun h => (i3.1 h).elim hne hfit
    rw [if_neg hfit, if_neg hok, i1]

/-- C9: the two-phase sizing law. For every order `>= 1` (an `unsigned int`), if
`S = pf_strpoly(order, c, NULL, 0)` then `S = L + 1`, `L` being the length of the complete text,
and nothing is stored; a second call with a buffer of `S` chars returns `S - 1 = L` and leaves
the complete text followed by NUL in the buffer, storing nothing at index `S` or beyond. -/
theorem pf_strpoly_two_phase (fmt : K → List Char) (order : Nat) (c : Nat → K)
    (b0 : Nat → Char) (h1 : 1 ≤ order) (ho : order < UINT_MOD) :
    (pf_strpoly fmt order c none 0).1 = (pf_strpoly_text fmt order c).length + 1 ∧
    (pf_strpoly fmt order c none 0).2 = none ∧
    (pf_strpoly fmt order c (some b0) (pf_strpoly fmt order c none 0).1).1 =
      (pf_strpoly fmt order c none 0).1 - 1 ∧
    (pf_strpoly fmt order c (some b0) (pf_strpoly fmt order c none 0).1).1 =
      (pf_strpoly_text fmt order c).length ∧
    ∃ b, (pf_strpoly fmt order c (some b0) (pf_strpoly fmt order c none 0).1).2 = some b ∧
      (∀ i, i < (pf_strpoly_text fmt order c).length →
        (pf_strpoly_text fmt order c)[i]? = some (b i)) ∧
      b (pf_strpoly_text fmt order c).length = NUL ∧
      ∀ i, (pf_strpoly fmt order c none 0).1 ≤ i → b i = b0 i := by
  have hS : (pf_strpoly fmt order c none 0).1 = (pf_strpoly_text fmt order c).length + 1 := by
    rw [pf_strpoly_ret fmt order c none 0 h1 ho, if_neg (Nat.not_lt_zero _)]
  have hne : order ≠ 0 := by omega
  have hnone : (pf_strpoly fmt order c none 0).2 = none := by
    have hput : ∀ (s : pf_strpoly_state) (w : List Char), s.buf = none ∧ s.len = 0 →
        (pf_strpoly_put s w).buf = none ∧ (pf_strpoly_put s w).len = 0 := by
      intro s w hs
      unfold pf_strpoly_put
      have hlt : ¬ (snprintf s.buf s.head s.len w).2 < s.len := by
        rw [hs.2]
        exact Nat.not_lt_zero _
      rw [if_neg hlt]
      refine ⟨?_, rfl⟩
      show (snprintf s.buf s.head s.len w).1 = none
      unfold snprintf
      rw [hs.2, if_pos rfl, hs.1]
    have : ∀ k, (for_loop k (pf_strpoly_body fmt c) ⟨0, 0, true, order, none⟩).buf = none ∧
        (for_loop k (pf_strpoly_body fmt c) ⟨0, 0, true, order, none⟩).len = 0 := by
      intro k
      induction k with
      | zero => exact ⟨rfl, rfl⟩
      | succ k ih =>
        rw [for_loop_succ]
        generalize for_loop k (pf_strpoly_body fmt c) ⟨0, 0, true, order, none⟩ = s at ih
        unfold pf_strpoly_body
        refine hput _ _ ?_
        by_cases hk : k ≠ 0
        · rw [if_pos hk]
          exact hput _ _ ih
        · rw [if_neg hk]
          exact ih
    unfold pf_strpoly
    simp only [hne, if_false]
    exact (this order).1
  have hret : (pf_strpoly fmt order c (some b0) (pf_strpoly fmt order c none 0).1).1 =
      (pf_strpoly_text fmt order c).length := by
    rw [hS, pf_strpoly_ret fmt order c _ _ h1 ho, if_pos (Nat.lt_succ_self _)]
  refine ⟨hS, hnone, ?_, hret, ?_⟩
  · rw [hret, hS]
    rfl
  · rw [hS]
    obtain ⟨b, hb1, hb2, hb3, hb4⟩ := pf_strpoly_loop_buf fmt order c b0
      ((pf_strpoly_text fmt order c).length + 1) ho (Nat.lt_succ_self _) order le_rfl
    refine ⟨b, ?_, hb2, hb3 (by simpa using hne), fun i hi => hb4 i ?_⟩
    · unfold pf_strpoly
      simp only [hne, if_false]
      exact hb1
    · show (pf_strpoly_text fmt order c).length < i
      omega

/-- C9 at the coefficients `[1, -2, 0, 5]`. -/
theorem pf_strpoly_two_phase_witness :
    (1 ≤ 4 ∧ 4 < UINT_MOD) ∧
    ((pf_strpoly fmt_frac 4 (fun i => [1, -2, 0, 5].getD i 0) none 0).1 =
        (pf_strpoly_text fmt_frac 4 (fun i => [1, -2, 0, 5].getD i 0)).length + 1 ∧
      (pf_strpoly fmt_frac 4 (fun i => [1, -2, 0, 5].getD i 0) none 0).2 = none ∧
      (pf_strpoly fmt_frac 4 (fun i => [1, -2, 0, 5].getD i 0) (some buf_z)
          (pf_strpoly fmt_frac 4 (fun i => [1, -2, 0, 5].getD i 0) none 0).1).1 =
        (pf_strpoly fmt_frac 4 (fun i => [1, -2, 0, 5].getD i 0) none 0).1 - 1 ∧
      (pf_strpoly fmt_frac 4 (fun i => [1, -2, 0, 5].getD i 0) (some buf_z)
          (pf_strpoly fmt_frac 4 (fun i => [1, -2, 0, 5].getD i 0) none 0).1).1 =
        (pf_strpoly_text fmt_frac 4 (fun i => [1, -2, 0, 5].getD i 0)).length ∧
      ∃ b, (pf_strpoly fmt_frac 4 (fun i => [1, -2, 0, 5].getD i 0) (some buf_z)
          (pf_strpoly fmt_frac 4 (fun i => [1, -2, 0, 5].getD i 0) none 0).1).2 = some b ∧
        (∀ i, i < (pf_strpoly_text fmt_frac 4 (fun i => [1, -2, 0, 5].getD i 0)).length →
          (pf_strpoly_text fmt_frac 4 (fun i => [1, -2, 0, 5].getD i 0))[i]? = some (b i)) ∧
        b (pf_strpoly_text fmt_frac 4 (fun i => [1, -2, 0, 5].getD i 0)).length = NUL ∧
        ∀ i, (pf_strpoly fmt_frac 4 (fun i => [1, -2, 0, 5].getD i 0) none 0).1 ≤ i →
          b i = buf_z i) :=
  ⟨⟨by decide, by decide⟩,
    pf_strpoly_two_phase fmt_frac 4 (fun i => [1, -2, 0, 5].getD i 0) buf_z (by decide)
      (by decide)⟩

/-- C10: for every order `>= 1` (an `unsigned int`), coefficient array, buffer and length `len`,
with `L` the length of the complete text: if `len >= L + 1` the call returns `L`, and if
`len <= L` it returns `L + 1`; for `order = 0` it returns 0 whatever `len` is. -/
theorem pf_strpoly_return (fmt : K → List Char) (order : Nat) (c : Nat → K)
    (buf : Option (Nat → Char)) (len : Nat) (h1 : 1 ≤ order) (ho : order < UINT_MOD) :
    ((pf_strpoly_text fmt order c).length + 1 ≤ len →
      (pf_strpoly fmt order c buf len).1 = (pf_strpoly_text fmt order c).length) ∧
    (len ≤ (pf_strpoly_text fmt order c).length →
      (pf_strpoly fmt order c buf len).1 = (pf_strpoly_text fmt order c).length + 1) ∧
    (pf_strpoly fmt 0 c buf len).1 = 0 := by
  refine ⟨fun h => ?_, fun h => ?_, by simp [pf_strpoly]⟩
  · rw [pf_strpoly_ret fmt order c buf len h1 ho, if_pos (by omega)]
  · rw [pf_strpoly_ret fmt order c buf len h1 ho, if_neg (by omega)]

/-- C10 at the coefficients `[1, -2, 0, 5]` and a buffer of 5 chars. -/
theorem pf_strpoly_return_witness :
    (1 ≤ 4 ∧ 4 < UINT_MOD) ∧
    (((pf_strpoly_text fmt_frac 4 (fun i => [1, -2, 0, 5].getD i 0)).length + 1 ≤ 5 →
        (pf_strpoly fmt_frac 4 (fun i => [1, -2, 0, 5].getD i 0) (some buf_z) 5).1 =
          (pf_strpoly_text fmt_frac 4 (fun i => [1, -2, 0, 5].getD i 0)).length) ∧
      (5 ≤ (pf_strpoly_text fmt_frac 4 (fun i => [1, -2, 0, 5].getD i 0)).length →
        (pf_strpoly fmt_frac 4 (fun i => [1, -2, 0, 5].getD i 0) (some buf_z) 5).1 =
          (pf_strpoly_text fmt_frac 4 (fun i => [1, -2, 0, 5].getD i 0)).length + 1) ∧
      (pf_strpoly fmt_frac 0 (fun i => [1, -2, 0, 5].getD i 0) (some buf_z) 5).1 = 0) :=
  ⟨⟨by decide, by decide⟩,
    pf_strpoly_return fmt_frac 4 (fun i => [1, -2, 0, 5].getD i 0) (some buf_z) 5 (by decide)
      (by decide)⟩

end ClaimsEvalStr

section StrBounds
variable {K : Type} [LinearOrderedField K]

/-- The body of the loop of `pf_strpoly` at `i = 0`: one `snprintf` call. -/
theorem pf_strpoly_body_zero (fmt : K → List Char) (c : Nat → K) (s : pf_strpoly_state) :
    pf_strpoly_body fmt c 0 s =
      pf_strpoly_put { s with exp := (s.exp + UINT_MOD - 1) % UINT_MOD }
        (pf_strpoly_term fmt (c 0) ((s.exp + UINT_MOD - 1) % UINT_MOD)) := rfl

/-- The body of the loop of `pf_strpoly` at `i ≠ 0`: two `snprintf` calls. -/
theorem pf_strpoly_body_pos (fmt : K → List Char) (c : Nat → K) (k : Nat) (hk : k ≠ 0)
    (s : pf_strpoly_state) :
    pf_strpoly_body fmt c k s =
      pf_strpoly_put
        (pf_strpoly_put { s with exp := (s.exp + UINT_MOD - 1) % UINT_MOD } (pf_strpoly_op (c k)))
        (pf_strpoly_term fmt (if k ≠ 0 ∧ c k < 0 then -c k else c k)
          ((s.exp + UINT_MOD - 1) % UINT_MOD)) := by
  show pf_strpoly_put (if k ≠ 0 then pf_strpoly_put _ _ else _) _ = _
  rw [if_pos hk]

/-- The recorded body at `i = 0`. -/
theorem pf_strpoly_body_log_zero (fmt : K → List Char) (c : Nat → K)
    (p : pf_strpoly_state × List (Nat × Nat)) :
    pf_strpoly_body_log fmt c 0 p =
      pf_strpoly_put_log ({ p.1 with exp := (p.1.exp + UINT_MOD - 1) % UINT_MOD }, p.2)
        (pf_strpoly_term fmt (c 0) ((p.1.exp + UINT_MOD - 1) % UINT_MOD)) := rfl

/-- The recorded body at `i ≠ 0`. -/
theorem pf_strpoly_body_log_pos (fmt : K → List Char) (c : Nat → K) (k : Nat) (hk : k ≠ 0)
    (p : pf_strpoly_state × List (Nat × Nat)) :
    pf_strpoly_body_log fmt c k p =
      pf_strpoly_put_log
        (pf_strpoly_put_log ({ p.1 with exp := (p.1.exp + UINT_MOD - 1) % UINT_MOD }, p.2)
          (pf_strpoly_op (c k)))
        (pf_strpoly_term fmt (if k ≠ 0 ∧ c k < 0 then -c k else c k)
          ((p.1.exp + UINT_MOD - 1) % UINT_MOD)) := by
  show pf_strpoly_put_log (if k ≠ 0 then pf_strpoly_put_log _ _ else _) _ = _
  rw [if_pos hk]

/-- The recorded body of the loop of `pf_strpoly` computes the state the body itself does. -/
theorem pf_strpoly_body_log_fst (fmt : K → List Char) (c : Nat → K) (k : Nat)
    (q : pf_strpoly_state × List (Nat × Nat)) :
    (pf_strpoly_body_log fmt c k q).1 = pf_strpoly_body fmt c k q.1 := by
  by_cases hk : k = 0
  · subst hk
    rfl
  · rw [pf_strpoly_body_log_pos fmt c k hk, pf_strpoly_body_pos fmt c k hk]
    rfl

/-- The recorded loop of `pf_strpoly` runs through the same states as the loop itself. -/
theorem pf_strpoly_log_fst (fmt : K → List Char) (c : Nat → K) (k : Nat)
    (p : pf_strpoly_state × List (Nat × Nat)) :
    (for_loop k (pf_strpoly_body_log fmt c) p).1 = for_loop k (pf_strpoly_body fmt c) p.1 := by
  induction k with
  | zero => rfl
  | succ k ih =>
    rw [for_loop_succ, for_loop_succ, pf_strpoly_body_log_fst, ih]

/-- What `snprintf` stores lies between its offset and its offset plus its size. -/
theorem snprintf_frame (b : Nat → Char) (head size : Nat) (text : List Char) :
    ∃ b2, (snprintf (some b) head size text).1 = some b2 ∧
      ∀ i, (i < head ∨ head + size ≤ i) → b2 i = b i := by
  unfold snprintf
  by_cases hs : size = 0
  · exact ⟨b, by simp [hs], fun _ _ => rfl⟩
  · refine ⟨store_at b head (List.take (size - 1) text ++ [NUL]),
      by simp only [hs, if_false, Option.map_some'], fun i hi => ?_⟩
    unfold store_at
    have hl : (List.take (size - 1) text ++ [NUL]).length ≤ size := by
      simp only [List.length_append, List.length_take, List.length_singleton]
      omega
    rw [if_neg (by omega)]

/-- With size 0 `snprintf` leaves the buffer, present or not, as it is. -/
theorem snprintf_zero (buf : Option (Nat → Char)) (head : Nat) (text : List Char) :
    (snprintf buf head 0 text).1 = buf := by
  simp [snprintf]

/-- One step keeps what remains of the buffer within its length and touches nothing at index
`len0` or beyond. -/
theorem pf_strpoly_put_frame (len0 : Nat) (b0 : Nat → Char) (s : pf_strpoly_state)
    (w : List Char) (h1 : s.len = 0 ∨ s.head + s.len = len0)
    (hb : ∃ b, s.buf = some b ∧ ∀ i, len0 ≤ i → b i = b0 i) :
    ((pf_strpoly_put s w).len = 0 ∨ (pf_strpoly_put s w).head + (pf_strpoly_put s w).len = len0) ∧
    ∃ b, (pf_strpoly_put s w).buf = some b ∧ ∀ i, len0 ≤ i → b i = b0 i := by
  obtain ⟨b, hb1, hb2⟩ := hb
  obtain ⟨b2, e1, e2⟩ := snprintf_frame b s.head s.len w
  have hbuf : (pf_strpoly_put s w).buf = (snprintf s.buf s.head s.len w).1 := by
    unfold pf_strpoly_put
    by_cases hw : (snprintf s.buf s.head s.len w).2 < s.len
    · simp only [hw, if_true]
    · simp only [hw, if_false]
  refine ⟨?_, b2, by rw [hbuf, hb1, e1], fun i hi => ?_⟩
  · unfold pf_strpoly_put
    by_cases hw : (snprintf s.buf s.head s.len w).2 < s.len
    · simp only [hw, if_true]
      right
      have hw2 : w.length < s.len := hw
      show s.head + w.length + (s.len - w.length) = len0
      omega
    · simp only [hw, if_false]
      left
      trivial
  · rcases h1 with h0 | h0
    · have : b2 = b := by
        have := snprintf_zero (some b) s.head w
        rw [h0] at e1
        rw [this] at e1
        exact (Option.some.inj e1).symm
      rw [this]
      exact hb2 i hi
    · rw [e2 i (Or.inr (by omega))]
      exact hb2 i hi

/-- One step with a record: the recorded call has size 0 or ends at `len0`. -/
theorem pf_strpoly_put_log_inv (len0 : Nat) (s : pf_strpoly_state) (l : List (Nat × Nat))
    (w : List Char) (h1 : s.len = 0 ∨ s.head + s.len = len0)
    (h2 : ∀ q ∈ l, q.2 = 0 ∨ q.1 + q.2 = len0) :
    ((pf_strpoly_put_log (s, l) w).1.len = 0 ∨
      (pf_strpoly_put_log (s, l) w).1.head + (pf_strpoly_put_log (s, l) w).1.len = len0) ∧
    ∀ q ∈ (pf_strpoly_put_log (s, l) w).2, q.2 = 0 ∨ q.1 + q.2 = len0 := by
  refine ⟨?_, fun q hq => ?_⟩
  · show (pf_strpoly_put s w).len = 0 ∨
      (pf_strpoly_put s w).head + (pf_strpoly_put s w).len = len0
    unfold pf_strpoly_put
    by_cases hw : (snprintf s.buf s.head s.len w).2 < s.len
    · simp only [hw, if_true]
      right
      have hw2 : w.length < s.len := hw
      show s.head + w.length + (s.len - w.length) = len0
      omega
    · simp only [hw, if_false]
      left
      trivial
  · have hq2 : q ∈ l ++ [(s.head, s.len)] := hq
    rcases List.mem_append.1 hq2 with h | h
    · exact h2 q h
    · rw [List.mem_singleton.1 h]
      exact h1

/-- One iteration with a record: its calls have size 0 or end at `len0`. -/
theorem pf_strpoly_body_log_inv (fmt : K → List Char) (c : Nat → K) (len0 k : Nat)
    (p : pf_strpoly_state × List (Nat × Nat)) (h1 : p.1.len = 0 ∨ p.1.head + p.1.len = len0)
    (h2 : ∀ q ∈ p.2, q.2 = 0 ∨ q.1 + q.2 = len0) :
    ((pf_strpoly_body_log fmt c k p).1.len = 0 ∨
      (pf_strpoly_body_log fmt c k p).1.head + (pf_strpoly_body_log fmt c k p).1.len = len0) ∧
    ∀ q ∈ (pf_strpoly_body_log fmt c k p).2, q.2 = 0 ∨ q.1 + q.2 = len0 := by
  by_cases hk : k = 0
  · subst hk
    rw [pf_strpoly_body_log_zero]
    exact pf_strpoly_put_log_inv len0
      { p.1 with exp := (p.1.exp + UINT_MOD - 1) % UINT_MOD } p.2 _ h1 h2
  · rw [pf_strpoly_body_log_pos fmt c k hk]
    have a := pf_strpoly_put_log_inv len0
      { p.1 with exp := (p.1.exp + UINT_MOD - 1) % UINT_MOD } p.2 (pf_strpoly_op (c k)) h1 h2
    exact pf_strpoly_put_log_inv len0 _ _ _ a.1 a.2

/-- One iteration touches nothing at index `len0` or beyond. -/
theorem pf_strpoly_body_frame (fmt : K → List Char) (c : Nat → K) (len0 k : Nat)
    (b0 : Nat → Char) (s : pf_strpoly_state) (h1 : s.len = 0 ∨ s.head + s.len = len0)
    (hb : ∃ b, s.buf = some b ∧ ∀ i, len0 ≤ i → b i = b0 i) :
    ((pf_strpoly_body fmt c k s).len = 0 ∨
      (pf_strpoly_body fmt c k s).head + (pf_strpoly_body fmt c k s).len = len0) ∧
    ∃ b, (pf_strpoly_body fmt c k s).buf = some b ∧ ∀ i, len0 ≤ i → b i = b0 i := by
  by_cases hk : k = 0
  · subst hk
    rw [pf_strpoly_body_zero]
    exact pf_strpoly_put_frame len0 b0
      { s with exp := (s.exp + UINT_MOD - 1) % UINT_MOD } _ h1 hb
  · rw [pf_strpoly_body_pos fmt c k hk]
    have a := pf_strpoly_put_frame len0 b0
      { s with exp := (s.exp + UINT_MOD - 1) % UINT_MOD } (pf_strpoly_op (c k)) h1 hb
    exact pf_strpoly_put_frame len0 b0 _ _ a.1 a.2

/-- One step with `len = 0` leaves the buffer, present or not, as it is. -/
theorem pf_strpoly_put_zero (buf : Option (Nat → Char)) (s : pf_strpoly_state) (w : List Char)
    (hs : s.buf = buf ∧ s.len = 0) :
    (pf_strpoly_put s w).buf = buf ∧ (pf_strpoly_put s w).len = 0 := by
  unfold pf_strpoly_put
  have hlt : ¬ (snprintf s.buf s.head s.len w).2 < s.len := by
    rw [hs.2]
    exact Nat.not_lt_zero _
  rw [if_neg hlt]
  refine ⟨?_, rfl⟩
  show (snprintf s.buf s.head s.len w).1 = buf
  rw [hs.2, snprintf_zero, hs.1]

/-- One iteration with `len = 0` leaves the buffer, present or not, as it is. -/
theorem pf_strpoly_body_zero_len (fmt : K → List Char) (c : Nat → K) (k : Nat)
    (buf : Option (Nat → Char)) (s : pf_strpoly_state) (hs : s.buf = buf ∧ s.len = 0) :
    (pf_strpoly_body fmt c k s).buf = buf ∧ (pf_strpoly_body fmt c k s).len = 0 := by
  by_cases hk : k = 0
  · subst hk
    rw [pf_strpoly_body_zero]
    exact pf_strpoly_put_zero buf _ _ hs
  · rw [pf_strpoly_body_pos fmt c k hk]
    exact pf_strpoly_put_zero buf _ _ (pf_strpoly_put_zero buf _ _ hs)

/-- Every `snprintf` call of the first `k` iterations has size 0 or ends at `len0`. -/
theorem pf_strpoly_calls_inv (fmt : K → List Char) (c : Nat → K) (order len0 : Nat)
    (buf : Option (Nat → Char)) (k : Nat) :
    ((for_loop k (pf_strpoly_body_log fmt c) (⟨0, len0, true, order, buf⟩, [])).1.len = 0 ∨
      (for_loop k (pf_strpoly_body_log fmt c) (⟨0, len0, true, order, buf⟩, [])).1.head +
        (for_loop k (pf_strpoly_body_log fmt c) (⟨0, len0, true, order, buf⟩, [])).1.len = len0) ∧
    ∀ q ∈ (for_loop k (pf_strpoly_body_log fmt c) (⟨0, len0, true, order, buf⟩, [])).2,
      q.2 = 0 ∨ q.1 + q.2 = len0 := by
  induction k with
  | zero =>
    refine ⟨Or.inr ?_, fun q hq => ?_⟩
    · show 0 + len0 = len0
      omega
    · exact absurd hq (List.not_mem_nil q)
  | succ k ih =>
    rw [for_loop_succ]
    exact pf_strpoly_body_log_inv fmt c len0 k _ ih.1 ih.2

/-- The loop of `pf_strpoly` touches nothing at index `len0` or beyond. -/
theorem pf_strpoly_loop_frame (fmt : K → List Char) (c : Nat → K) (order len0 : Nat)
    (b0 : Nat → Char) (k : Nat) :
    ((for_loop k (pf_strpoly_body fmt c) ⟨0, len0, true, order, some b0⟩).len = 0 ∨
      (for_loop k (pf_strpoly_body fmt c) ⟨0, len0, true, order, some b0⟩).head +
        (for_loop k (pf_strpoly_body fmt c) ⟨0, len0, true, order, some b0⟩).len = len0) ∧
    ∃ b, (for_loop k (pf_strpoly_body fmt c) ⟨0, len0, true, order, some b0⟩).buf = some b ∧
      ∀ i, len0 ≤ i → b i = b0 i := by
  induction k with
  | zero =>
    refine ⟨Or.inr ?_, b0, rfl, fun _ _ => rfl⟩
    show 0 + len0 = len0
    omega
  | succ k ih =>
    rw [for_loop_succ]
    exact pf_strpoly_body_frame fmt c len0 k b0 _ ih.1 ih.2

/-- With `len = 0` the loop of `pf_strpoly` leaves the buffer, present or not, as it is. -/
theorem pf_strpoly_loop_zero (fmt : K → List Char) (c : Nat → K) (order : Nat)
    (buf : Option (Nat → Char)) (k : Nat) :
    (for_loop k (pf_strpoly_body fmt c) ⟨0, 0, true, order, buf⟩).buf = buf ∧
    (for_loop k (pf_strpoly_body fmt c) ⟨0, 0, true, order, buf⟩).len = 0 := by
  induction k with
  | zero => exact ⟨rfl, rfl⟩
  | succ k ih =>
    rw [for_loop_succ]
    exact pf_strpoly_body_zero_len fmt c k buf _ ih

end StrBounds

section ClaimsStrBounds
variable {K : Type} [LinearOrderedField K]

/-- C11: `pf_strpoly` never writes past the given length. For every order, coefficient array,
buffer and `len`: every `snprintf` call it makes receives an offset `head` and a size `rem` with
`rem = 0` or `head + rem = len`, and the calls recorded are those of the run itself; a call to
`snprintf` stores nothing outside `[head, head + rem)`; so no byte at index `>= len` of `buf` is
written; and with `len = 0` nothing is written at all, whether `buf` is NULL or not. -/
theorem pf_strpoly_in_bounds (fmt : K → List Char) (order : Nat) (c : Nat → K)
    (buf : Option (Nat → Char)) (len : Nat) :
    (∀ q ∈ pf_strpoly_calls fmt order c buf len, q.2 = 0 ∨ q.1 + q.2 = len) ∧
    ((for_loop order (pf_strpoly_body_log fmt c) (⟨0, len, true, order, buf⟩, [])).1 =
      for_loop order (pf_strpoly_body fmt c) ⟨0, len, true, order, buf⟩) ∧
    (∀ (b : Nat → Char) (head rem : Nat) (text : List Char),
      ∃ b2, (snprintf (some b) head rem text).1 = some b2 ∧
        ∀ i, (i < head ∨ head + rem ≤ i) → b2 i = b i) ∧
    (∀ b0, buf = some b0 →
      ∃ b, (pf_strpoly fmt order c buf len).2 = some b ∧ ∀ i, len ≤ i → b i = b0 i) ∧
    (pf_strpoly fmt order c buf 0).2 = buf ∧
    (pf_strpoly fmt order c none len).2 = none := by
  refine ⟨fun q hq => ?_, pf_strpoly_log_fst fmt c order _, snprintf_frame, fun b0 hb0 => ?_,
    ?_, ?_⟩
  · unfold pf_strpoly_calls at hq
    by_cases ho : order = 0
    · rw [if_pos ho] at hq
      exact absurd hq (List.not_mem_nil q)
    · rw [if_neg ho] at hq
      exact (pf_strpoly_calls_inv fmt c order len buf order).2 q hq
  · subst hb0
    unfold pf_strpoly
    by_cases ho : order = 0
    · rw [if_pos ho]
      exact ⟨b0, rfl, fun _ _ => rfl⟩
    · rw [if_neg ho]
      exact (pf_strpoly_loop_frame fmt c order len b0 order).2
  · unfold pf_strpoly
    by_cases ho : order = 0
    · rw [if_pos ho]
    · rw [if_neg ho]
      exact (pf_strpoly_loop_zero fmt c order buf order).1
  · unfold pf_strpoly
    by_cases ho : order = 0
    · rw [if_pos ho]
    · rw [if_neg ho]
      have hnone : ∀ k, (for_loop k (pf_strpoly_body fmt c) ⟨0, len, true, order, none⟩).buf =
          none := by
        intro k
        induction k with
        | zero => rfl
        | succ k ih =>
          rw [for_loop_succ]
          have hput : ∀ (s : pf_strpoly_state) (w : List Char), s.buf = none →
              (pf_strpoly_put s w).buf = none := by
            intro s w hs
            have hbuf : (pf_strpoly_put s w).buf = (snprintf s.buf s.head s.len w).1 := by
              unfold pf_strpoly_put
              by_cases hw : (snprintf s.buf s.head s.len w).2 < s.len
              · simp only [hw, if_true]
              · simp only [hw, if_false]
            rw [hbuf, hs]
            unfold snprintf
            by_cases h0 : s.len = 0
            · simp only [h0, if_true]
            · simp only [h0, if_false, Option.map_none']
          by_cases hk : k = 0
          · subst hk
            rw [pf_strpoly_body_zero]
            exact hput _ _ ih
          · rw [pf_strpoly_body_pos fmt c k hk]
            exact hput _ _ (hput _ _ ih)
      exact hnone order

/-- C15: `pf_strerror` is a total function that maps 0 (`PF_OK`) to "OK", 1 (`PF_EALLOC`) to
"Allocation failure", 2 (`PF_EPARAM`) to "Bad parameter", 3 (`PF_ESOLVE`) to "Unable to solve"
and every other code to "Unknown error"; the four enumerated codes have pairwise distinct
messages, none of them "Unknown error". -/
theorem pf_strerror_spec :
    pf_strerror PF_OK = "OK" ∧ pf_strerror PF_EALLOC = "Allocation failure" ∧
    pf_strerror PF_EPARAM = "Bad parameter" ∧ pf_strerror PF_ESOLVE = "Unable to solve" ∧
    (∀ code : pf_err_t, code ≠ PF_OK → code ≠ PF_EALLOC → code ≠ PF_EPARAM → code ≠ PF_ESOLVE →
      pf_strerror code = "Unknown error") ∧
    (∀ a b : pf_err_t, a ≤ 3 → b ≤ 3 → pf_strerror a = pf_strerror b → a = b) ∧
    (∀ a : pf_err_t, a ≤ 3 → pf_strerror a ≠ "Unknown error") := by
  refine ⟨rfl, rfl, rfl, rfl, fun code h0 h1 h2 h3 => ?_, fun a b ha hb => ?_, fun a ha => ?_⟩
  · match code, h0, h1, h2, h3 with
    | 0, h0, _, _, _ => exact absurd rfl h0
    | 1, _, h1, _, _ => exact absurd rfl h1
    | 2, _, _, h2, _ => exact absurd rfl h2
    | 3, _, _, _, h3 => exact absurd rfl h3
    | _ + 4, _, _, _, _ => rfl
  · interval_cases a <;> interval_cases b <;> decide
  · interval_cases a <;> decide

end ClaimsStrBounds

section Events
variable {K : Type}

/-- A loop whose body keeps the dimensions of the matrix keeps them. -/
theorem for_loop_dims (n : Nat) (body : Nat → matrix_t K → matrix_t K) (m : matrix_t K)
    (h : ∀ i t, (body i t).rows = t.rows ∧ (body i t).cols = t.cols) :
    (for_loop n body m).rows = m.rows ∧ (for_loop n body m).cols = m.cols := by
  induction n with
  | zero => exact ⟨rfl, rfl⟩
  | succ n ih =>
    rw [for_loop_succ]
    exact ⟨(h n _).1.trans ih.1, (h n _).2.trans ih.2⟩

/-- The allocation of `matrix_transpose` decides its result, whose dimensions are those of
`src` swapped. -/
theorem matrix_transpose_some (e : pf_env K) (k : Nat) (src : matrix_t K)
    (hk : e.malloc_ok k = true) :
    ∃ m, matrix_transpose e k src = some m ∧ m.rows = src.cols ∧ m.cols = src.rows := by
  refine ⟨_, by simp only [matrix_transpose, MATRIX_ALLOC, hk, if_true, Option.map_some']; rfl,
    ?_⟩
  have := for_loop_dims src.cols (fun r matrix => for_loop src.rows (fun c matrix =>
    matrix_set_val matrix r c (matrix_get_val src c r)) matrix)
    (⟨src.cols, src.rows, e.junk k⟩ : matrix_t K)
    (fun r t => for_loop_dims src.rows _ t (fun c u => ⟨rfl, rfl⟩))
  exact this

theorem matrix_transpose_none (e : pf_env K) (k : Nat) (src : matrix_t K)
    (hk : e.malloc_ok k = false) : matrix_transpose e k src = none := by
  simp [matrix_transpose, MATRIX_ALLOC, hk]

/-- When the inner dimensions agree the allocation of `matrix_product` decides its result,
which has the rows of `m1` and the columns of `m2`. -/
theorem matrix_product_some [Zero K] [Add K] [Mul K] (e : pf_env K) (k : Nat)
    (m1 m2 : matrix_t K) (hd : m1.cols = m2.rows) (hk : e.malloc_ok k = true) :
    ∃ m, matrix_product e k m1 m2 = some m ∧ m.rows = m1.rows ∧ m.cols = m2.cols := by
  refine ⟨_, by simp only [matrix_product, MATRIX_ALLOC, hk, hd, bne_self_eq_false,
    Bool.and_false, if_true, Option.map_some']; rfl, ?_⟩
  have := for_loop_dims m1.rows (fun i matrix => for_loop m2.cols (fun j matrix =>
    for_loop m2.rows (fun k matrix => matrix_set_val matrix i j
      (matrix_get_val matrix i j + matrix_get_val m1 i k * matrix_get_val m2 k j)) matrix)
      matrix) (matrix_memset0 (⟨m1.rows, m2.cols, e.junk k⟩ : matrix_t K))
    (fun i t => for_loop_dims m2.cols _ t (fun j u =>
      for_loop_dims m2.rows _ u (fun k v => ⟨rfl, rfl⟩)))
  exact this

theorem matrix_product_none [Zero K] [Add K] [Mul K] (e : pf_env K) (k : Nat)
    (m1 m2 : matrix_t K) (hk : e.malloc_ok k = false) : matrix_product e k m1 m2 = none := by
  unfold matrix_product
  split
  · rfl
  · simp [MATRIX_ALLOC, hk]

/-- The events of lines 94-97 and the dimensions of `mat_b` after them. -/
theorem pf_fit_fill_b_log (points : pf_points_t K) (m : matrix_t K) (l : List pf_event) :
    (pf_fit_fill_b points (m, l)).2 = l ++ pf_fit_y_events points.count ∧
    (pf_fit_fill_b points (m, l)).1.rows = m.rows ∧
    (pf_fit_fill_b points (m, l)).1.cols = m.cols := by
  unfold pf_fit_fill_b pf_fit_y_events
  refine for_loop_induction (fun k (s : matrix_t K × List pf_event) =>
    s.2 = l ++ (List.range k).map pf_event.get_y ∧ s.1.rows = m.rows ∧ s.1.cols = m.cols)
    points.count _ (m, l) ?_ ?_
  · simp
  · intro k _ s hs
    refine ⟨?_, hs.2.1, hs.2.2⟩
    show s.2 ++ [pf_event.get_y k] = _
    rw [hs.1, List.range_succ, List.map_append, List.append_assoc]
    rfl

/-- The events of lines 146-148. -/
theorem pf_fit_copy_log (order : Nat) (m : matrix_t K) (coef : Nat → K) (l : List pf_event) :
    (pf_fit_copy order m (coef, l)).2 = l ++ pf_fit_store_events order := by
  unfold pf_fit_copy pf_fit_store_events
  refine for_loop_induction (fun k (s : (Nat → K) × List pf_event) =>
    s.2 = l ++ (List.range k).map pf_event.store) order _ (coef, l) ?_ ?_
  · simp
  · intro k _ s hs
    show s.2 ++ [pf_event.store k] = _
    rw [hs, List.range_succ, List.map_append, List.append_assoc]
    rfl

end Events

section EventsFit
variable {K : Type} [LinearOrderedField K]

/-- The events of lines 81-86 and the dimensions of `mat_a` after them. -/
theorem pf_fit_fill_a_log (points : pf_points_t K) (order degree : Nat) (m : matrix_t K)
    (l : List pf_event) :
    (pf_fit_fill_a points order degree (m, l)).2 = l ++ pf_fit_x_events points.count order ∧
    (pf_fit_fill_a points order degree (m, l)).1.rows = m.rows ∧
    (pf_fit_fill_a points order degree (m, l)).1.cols = m.cols := by
  unfold pf_fit_fill_a pf_fit_x_events
  refine for_loop_induction (fun k (s : matrix_t K × List pf_event) =>
    s.2 = l ++ ((List.range k).flatMap fun r => List.replicate order (pf_event.get_x r)) ∧
      s.1.rows = m.rows ∧ s.1.cols = m.cols) points.count _ (m, l) ?_ ?_
  · simp
  · intro k _ s hs
    have inner : ∀ n, (for_loop n (fun c (s : matrix_t K × List pf_event) =>
        (matrix_set_val s.1 k c (points.x k ^ ((degree + UINT_MOD - c) % UINT_MOD)),
          s.2 ++ [pf_event.get_x k])) s).2 = s.2 ++ List.replicate n (pf_event.get_x k) ∧
        (for_loop n (fun c (s : matrix_t K × List pf_event) =>
        (matrix_set_val s.1 k c (points.x k ^ ((degree + UINT_MOD - c) % UINT_MOD)),
          s.2 ++ [pf_event.get_x k])) s).1.rows = s.1.rows ∧
        (for_loop n (fun c (s : matrix_t K × List pf_event) =>
        (matrix_set_val s.1 k c (points.x k ^ ((degree + UINT_MOD - c) % UINT_MOD)),
          s.2 ++ [pf_event.get_x k])) s).1.cols = s.1.cols := by
      intro n
      induction n with
      | zero => simp [for_loop]
      | succ n ih =>
        rw [for_loop_succ]
        refine ⟨?_, ih.2.1, ih.2.2⟩
        show _ ++ [pf_event.get_x k] = _
        rw [ih.1, List.replicate_succ', List.append_assoc]
    obtain ⟨i1, i2, i3⟩ := inner order
    refine ⟨?_, i2.trans hs.2.1, i3.trans hs.2.2⟩
    show (for_loop order _ s).2 = _
    rw [i1, hs.1, List.range_succ, List.flatMap_append, List.append_assoc]
    simp

end EventsFit

section Outcome
variable {K : Type} [LinearOrderedField K]

/-- The outcome of `pf_fit` after validation, exit by exit: the status, the buffer and the
events of the call, for each place where the first failing allocation can be, for a zero pivot
and for success. -/
theorem pf_fit_cases (e : pf_env K) (p : pf_points_t K) (order : Nat) (coef : Nat → K)
    (hnot : ¬ p.count < order) :
    (e.malloc_ok 0 = false ∧
      pf_fit e (some p) order (some coef) = ⟨PF_EALLOC, some coef, []⟩) ∨
    (e.malloc_ok 0 = true ∧ e.malloc_ok 1 = false ∧
      pf_fit e (some p) order (some coef) = ⟨PF_EALLOC, some coef,
        [pf_event.alloc 0] ++ pf_fit_x_events p.count order ++ [pf_event.destroy 0]⟩) ∨
    (e.malloc_ok 0 = true ∧ e.malloc_ok 1 = true ∧ e.malloc_ok 2 = false ∧
      pf_fit e (some p) order (some coef) = ⟨PF_EALLOC, some coef,
        [pf_event.alloc 0] ++ pf_fit_x_events p.count order ++ [pf_event.alloc 1] ++
          pf_fit_y_events p.count ++ [pf_event.destroy 1, pf_event.destroy 0]⟩) ∨
    (e.malloc_ok 0 = true ∧ e.malloc_ok 1 = true ∧ e.malloc_ok 2 = true ∧
      e.malloc_ok 3 = false ∧
      pf_fit e (some p) order (some coef) = ⟨PF_EALLOC, some coef,
        [pf_event.alloc 0] ++ pf_fit_x_events p.count order ++ [pf_event.alloc 1] ++
          pf_fit_y_events p.count ++ [pf_event.alloc 2, pf_event.destroy 2, pf_event.destroy 1,
            pf_event.destroy 0]⟩) ∨
    (e.malloc_ok 0 = true ∧ e.malloc_ok 1 = true ∧ e.malloc_ok 2 = true ∧
      e.malloc_ok 3 = true ∧ e.malloc_ok 4 = false ∧
      pf_fit e (some p) order (some coef) = ⟨PF_EALLOC, some coef,
        [pf_event.alloc 0] ++ pf_fit_x_events p.count order ++ [pf_event.alloc 1] ++
          pf_fit_y_events p.count ++ [pf_event.alloc 2, pf_event.alloc 3, pf_event.destroy 3,
            pf_event.destroy 2, pf_event.destroy 1, pf_event.destroy 0]⟩) ∨
    ((∀ k, k < 5 → e.malloc_ok k = true) ∧
      pf_fit e (some p) order (some coef) = ⟨PF_ESOLVE, some coef,
        [pf_event.alloc 0] ++ pf_fit_x_events p.count order ++ [pf_event.alloc 1] ++
          pf_fit_y_events p.count ++ [pf_event.alloc 2, pf_event.alloc 3, pf_event.alloc 4] ++
          [pf_event.destroy 4, pf_event.destroy 3, pf_event.destroy 2, pf_event.destroy 1,
            pf_event.destroy 0]⟩) ∨
    ((∀ k, k < 5 → e.malloc_ok k = true) ∧
      ∃ out : Nat → K, (∀ i, order ≤ i → out i = coef i) ∧
        pf_fit e (some p) order (some coef) = ⟨PF_OK, some out,
          [pf_event.alloc 0] ++ pf_fit_x_events p.count order ++ [pf_event.alloc 1] ++
            pf_fit_y_events p.count ++ [pf_event.alloc 2, pf_event.alloc 3, pf_event.alloc 4] ++
            pf_fit_store_events order ++
            [pf_event.destroy 4, pf_event.destroy 3, pf_event.destroy 2, pf_event.destroy 1,
              pf_event.destroy 0]⟩) := by
  obtain ⟨a1, a2, a3⟩ := pf_fit_fill_a_log p order ((order + UINT_MOD - 1) % UINT_MOD)
    ⟨p.count, order, e.junk 0⟩ [pf_event.alloc 0]
  obtain ⟨b1, b2, b3⟩ := pf_fit_fill_b_log p (matrix_memset0 ⟨p.count, 1, e.junk 1⟩)
    ((pf_fit_fill_a p order ((order + UINT_MOD - 1) % UINT_MOD)
      (⟨p.count, order, e.junk 0⟩, [pf_event.alloc 0])).2 ++ [pf_event.alloc 1])
  rw [a1] at b1 b2 b3
  cases h0 : e.malloc_ok 0
  · left
    refine ⟨rfl, ?_⟩
    simp only [pf_fit, hnot, if_false, matrix_raw, MATRIX_ALLOC, h0, Bool.false_eq_true]
  right
  cases h1 : e.malloc_ok 1
  · left
    refine ⟨rfl, rfl, ?_⟩
    simp only [pf_fit, hnot, if_false, matrix_raw, matrix_create, MATRIX_ALLOC, h0, h1, if_true,
      Bool.false_eq_true, Option.map_none', a1]
  right
  cases h2 : e.malloc_ok 2
  · left
    refine ⟨rfl, rfl, rfl, ?_⟩
    simp only [pf_fit, hnot, if_false, matrix_raw, matrix_create, MATRIX_ALLOC, h0, h1, if_true,
      Option.map_some', matrix_transpose_none e 2 _ h2, a1, b1]
  right
  obtain ⟨mat_at, hAt, c1, c2⟩ := matrix_transpose_some e 2
    (pf_fit_fill_a p order ((order + UINT_MOD - 1) % UINT_MOD)
      (⟨p.count, order, e.junk 0⟩, [pf_event.alloc 0])).1 h2
  cases h3 : e.malloc_ok 3
  · left
    refine ⟨rfl, rfl, rfl, rfl, ?_⟩
    simp only [pf_fit, hnot, if_false, matrix_raw, matrix_create, MATRIX_ALLOC, h0, h1, if_true,
      Option.map_some', hAt, matrix_product_none e 3 _ _ h3, a1, b1]
  right
  obtain ⟨mat_ata, hAtA, _, _⟩ := matrix_product_some e 3 mat_at
    (pf_fit_fill_a p order ((order + UINT_MOD - 1) % UINT_MOD)
      (⟨p.count, order, e.junk 0⟩, [pf_event.alloc 0])).1 (by rw [c2]) h3
  cases h4 : e.malloc_ok 4
  · left
    refine ⟨rfl, rfl, rfl, rfl, rfl, ?_⟩
    simp only [pf_fit, hnot, if_false, matrix_raw, matrix_create, MATRIX_ALLOC, h0, h1, if_true,
      Option.map_some', hAt, hAtA, matrix_product_none e 4 _ _ h4, a1, b1]
  right
  obtain ⟨mat_atb, hAtB, _, _⟩ := matrix_product_some e 4 mat_at
    (pf_fit_fill_b p (matrix_memset0 ⟨p.count, 1, e.junk 1⟩,
      (pf_fit_fill_a p order ((order + UINT_MOD - 1) % UINT_MOD)
        (⟨p.count, order, e.junk 0⟩, [pf_event.alloc 0])).2 ++ [pf_event.alloc 1])).1
    (by rw [c2, a2, a1, b2]; rfl) h4
  rw [a1] at hAtB
  have hm : ∀ k, k < 5 → e.malloc_ok k = true := by
    intro k hk
    interval_cases k <;> assumption
  cases hs : pf_fit_solve (mat_ata, mat_atb) with
  | none =>
    left
    refine ⟨hm, ?_⟩
    simp only [pf_fit, hnot, if_false, matrix_raw, matrix_create, MATRIX_ALLOC, h0, h1, if_true,
      Option.map_some', hAt, hAtA, hAtB, hs, a1, b1]
  | some s =>
    right
    refine ⟨hm, (fun i => if i < order then matrix_get_val (pf_fit_normalise s).2 i 0
      else coef i), fun i hi => ?_, ?_⟩
    · simp only [if_neg (show ¬ i < order by omega)]
    · simp only [pf_fit, hnot, if_false, matrix_raw, matrix_create, MATRIX_ALLOC, h0, h1,
        if_true, Option.map_some', hAt, hAtA, hAtB, hs, pf_fit_copy_log, pf_fit_copy_fst, a1, b1]

end Outcome

section Heap

theorem mem_x_events {count order : Nat} {ev : pf_event}
    (h : ev ∈ pf_fit_x_events count order) : ∃ r, r < count ∧ ev = pf_event.get_x r := by
  unfold pf_fit_x_events at h
  obtain ⟨r, hr, hev⟩ := List.mem_flatMap.1 h
  exact ⟨r, List.mem_range.1 hr, (List.mem_replicate.1 hev).2⟩

theorem mem_y_events {count : Nat} {ev : pf_event}
    (h : ev ∈ pf_fit_y_events count) : ∃ r, r < count ∧ ev = pf_event.get_y r := by
  unfold pf_fit_y_events at h
  obtain ⟨r, hr, hev⟩ := List.mem_map.1 h
  exact ⟨r, List.mem_range.1 hr, hev.symm⟩

theorem mem_store_events {order : Nat} {ev : pf_event} :
    ev ∈ pf_fit_store_events order ↔ ∃ i, i < order ∧ ev = pf_event.store i := by
  unfold pf_fit_store_events
  constructor
  · intro h
    obtain ⟨r, hr, hev⟩ := List.mem_map.1 h
    exact ⟨r, List.mem_range.1 hr, hev.symm⟩
  · rintro ⟨i, hi, rfl⟩
    exact List.mem_map.2 ⟨i, List.mem_range.2 hi, rfl⟩

/-- The stores of lines 146-148 write each of the first `order` coefficients once. -/
theorem count_store_events (order i : Nat) :
    (pf_fit_store_events order).count (pf_event.store i) = if i < order then 1 else 0 := by
  unfold pf_fit_store_events
  induction order with
  | zero => simp
  | succ n ih =>
    rw [List.range_succ, List.map_append, List.count_append, ih]
    have hone : List.count (pf_event.store i) [pf_event.store n] = if i = n then 1 else 0 := by
      by_cases h1 : i = n
      · subst h1
        simp
      · rw [if_neg h1]
        exact List.count_eq_zero.2 fun h =>
          h1 (pf_event.store.inj (List.mem_singleton.1 h))
    show _ + List.count (pf_event.store i) [pf_event.store n] = _
    rw [hone]
    by_cases h1 : i = n
    · subst h1
      simp
    · by_cases h3 : i < n
      · have : i < n + 1 := by omega
        simp [h3, this, h1]
      · have : ¬ i < n + 1 := by omega
        simp [h3, this, h1]

/-- Events that neither allocate nor destroy leave the live matrices as they are. -/
theorem pf_heap_inert (l : List pf_event) (live : Finset Nat)
    (h : ∀ ev ∈ l, (∀ id, ev ≠ pf_event.alloc id) ∧ ∀ id, ev ≠ pf_event.destroy id) :
    l.foldl pf_heap_step (some live) = some live := by
  induction l with
  | nil => rfl
  | cons a l ih =>
    have ha := h a (List.mem_cons_self a l)
    have hstep : pf_heap_step (some live) a = some live := by
      cases a with
      | alloc id => exact absurd rfl (ha.1 id)
      | destroy id => exact absurd rfl (ha.2 id)
      | get_x idx => rfl
      | get_y idx => rfl
      | store i => rfl
    rw [List.foldl_cons, hstep]
    exact ih fun ev hev => h ev (List.mem_cons_of_mem a hev)

theorem pf_heap_x_events (count order : Nat) (live : Finset Nat) :
    (pf_fit_x_events count order).foldl pf_heap_step (some live) = some live :=
  pf_heap_inert _ live fun ev hev => by
    obtain ⟨r, _, rfl⟩ := mem_x_events hev
    exact ⟨fun id h => pf_event.noConfusion h, fun id h => pf_event.noConfusion h⟩

theorem pf_heap_y_events (count : Nat) (live : Finset Nat) :
    (pf_fit_y_events count).foldl pf_heap_step (some live) = some live :=
  pf_heap_inert _ live fun ev hev => by
    obtain ⟨r, _, rfl⟩ := mem_y_events hev
    exact ⟨fun id h => pf_event.noConfusion h, fun id h => pf_event.noConfusion h⟩

theorem pf_heap_store_events (order : Nat) (live : Finset Nat) :
    (pf_fit_store_events order).foldl pf_heap_step (some live) = some live :=
  pf_heap_inert _ live fun ev hev => by
    obtain ⟨r, _, rfl⟩ := mem_store_events.1 hev
    exact ⟨fun id h => pf_event.noConfusion h, fun id h => pf_event.noConfusion h⟩

theorem pf_heap_alloc (live : Finset Nat) (id : Nat) (h : id ∉ live) :
    pf_heap_step (some live) (pf_event.alloc id) = some (insert id live) := by
  show (if id ∈ live then none else some (insert id live)) = _
  rw [if_neg h]

theorem pf_heap_destroy (live : Finset Nat) (id : Nat) (h : id ∈ live) :
    pf_heap_step (some live) (pf_event.destroy id) = some (live.erase id) := by
  show (if id ∈ live then some (live.erase id) else none) = _
  rw [if_pos h]

theorem count_x_events (count order : Nat) (ev : pf_event) (h : ∀ r, ev ≠ pf_event.get_x r) :
    (pf_fit_x_events count order).count ev = 0 :=
  List.count_eq_zero.2 fun hev => by
    obtain ⟨r, _, rfl⟩ := mem_x_events hev
    exact h r rfl

theorem count_y_events (count : Nat) (ev : pf_event) (h : ∀ r, ev ≠ pf_event.get_y r) :
    (pf_fit_y_events count).count ev = 0 :=
  List.count_eq_zero.2 fun hev => by
    obtain ⟨r, _, rfl⟩ := mem_y_events hev
    exact h r rfl

theorem count_store_events_zero (order : Nat) (ev : pf_event) (h : ∀ r, ev ≠ pf_event.store r) :
    (pf_fit_store_events order).count ev = 0 :=
  List.count_eq_zero.2 fun hev => by
    obtain ⟨r, _, rfl⟩ := mem_store_events.1 hev
    exact h r rfl

end Heap

section ClaimsHeap
variable {K : Type} [LinearOrderedField K]

/-- The status `pf_fit` returns is one of the four enumerated codes, and it is `PF_EALLOC`
exactly when, validation passed, one of the five allocations failed. -/
theorem pf_fit_ealloc_iff (e : pf_env K) (points : Option (pf_points_t K)) (order : Nat)
    (coefficients : Option (Nat → K)) :
    ((pf_fit e points order coefficients).err = PF_OK ∨
      (pf_fit e points order coefficients).err = PF_EPARAM ∨
      (pf_fit e points order coefficients).err = PF_EALLOC ∨
      (pf_fit e points order coefficients).err = PF_ESOLVE) ∧
    ((pf_fit e points order coefficients).err = PF_EALLOC ↔
      ∃ p coef, points = some p ∧ coefficients = some coef ∧ ¬ p.count < order ∧
        ∃ k, k < 5 ∧ e.malloc_ok k = false ∧ ∀ j, j < k → e.malloc_ok j = true) := by
  rcases points with _ | p
  · simp [pf_fit]
  rcases coefficients with _ | coef
  · simp [pf_fit]
  by_cases hlt : p.count < order
  · simp [pf_fit, hlt]
  have hall : ∀ (k : Nat), k < 5 → e.malloc_ok k = false →
      (∀ j, j < k → e.malloc_ok j = true) →
      ∃ p2 coef2, some p = some p2 ∧ some coef = some coef2 ∧ ¬ p2.count < order ∧
        ∃ k, k < 5 ∧ e.malloc_ok k = false ∧ ∀ j, j < k → e.malloc_ok j = true :=
    fun k hk h1 h2 => ⟨p, coef, rfl, rfl, hlt, k, hk, h1, h2⟩
  have hnone : (∀ k, k < 5 → e.malloc_ok k = true) →
      ¬ ∃ p2 coef2, some p = some p2 ∧ some coef = some coef2 ∧ ¬ p2.count < order ∧
        ∃ k, k < 5 ∧ e.malloc_ok k = false ∧ ∀ j, j < k → e.malloc_ok j = true := by
    rintro hm ⟨_, _, _, _, _, k, hk, hf, _⟩
    rw [hm k hk] at hf
    exact Bool.noConfusion hf
  rcases pf_fit_cases e p order coef hlt with ⟨h0, h⟩ | ⟨h0, h1, h⟩ | ⟨h0, h1, h2, h⟩ |
    ⟨h0, h1, h2, h3, h⟩ | ⟨h0, h1, h2, h3, h4, h⟩ | ⟨hm, h⟩ | ⟨hm, out, _, h⟩
  · rw [h]
    exact ⟨Or.inr (Or.inr (Or.inl rfl)), fun _ => hall 0 (by omega) h0 (fun j hj => by omega),
      fun _ => rfl⟩
  · rw [h]
    refine ⟨Or.inr (Or.inr (Or.inl rfl)), fun _ => hall 1 (by omega) h1 (fun j hj => ?_),
      fun _ => rfl⟩
    interval_cases j
    exact h0
  · rw [h]
    refine ⟨Or.inr (Or.inr (Or.inl rfl)), fun _ => hall 2 (by omega) h2 (fun j hj => ?_),
      fun _ => rfl⟩
    interval_cases j <;> assumption
  · rw [h]
    refine ⟨Or.inr (Or.inr (Or.inl rfl)), fun _ => hall 3 (by omega) h3 (fun j hj => ?_),
      fun _ => rfl⟩
    interval_cases j <;> assumption
  · rw [h]
    refine ⟨Or.inr (Or.inr (Or.inl rfl)), fun _ => hall 4 (by omega) h4 (fun j hj => ?_),
      fun _ => rfl⟩
    interval_cases j <;> assumption
  · rw [h]
    exact ⟨Or.inr (Or.inr (Or.inr rfl)),
      fun h3 => absurd (show PF_ESOLVE = PF_EALLOC from h3) (by decide),
      fun h3 => absurd h3 (hnone hm)⟩
  · rw [h]
    exact ⟨Or.inl rfl, fun h3 => absurd (show PF_OK = PF_EALLOC from h3) (by decide),
      fun h3 => absurd h3 (hnone hm)⟩

/-- The events of a call of `pf_fit` leave the live matrices as they were. -/
theorem pf_fit_heap (e : pf_env K) (points : Option (pf_points_t K)) (order : Nat)
    (coefficients : Option (Nat → K)) (live : Finset Nat) (hfresh : ∀ k, k < 5 → k ∉ live) :
    pf_heap live (pf_fit e points order coefficients).log = some live := by
  have f0 := hfresh 0 (by omega)
  have f1 := hfresh 1 (by omega)
  have f2 := hfresh 2 (by omega)
  have f3 := hfresh 3 (by omega)
  have f4 := hfresh 4 (by omega)
  rcases points with _ | p
  · simp [pf_fit, pf_heap]
  rcases coefficients with _ | coef
  · simp [pf_fit, pf_heap]
  by_cases hlt : p.count < order
  · simp [pf_fit, hlt, pf_heap]
  rcases pf_fit_cases e p order coef hlt with ⟨h0, h⟩ | ⟨h0, h1, h⟩ | ⟨h0, h1, h2, h⟩ |
    ⟨h0, h1, h2, h3, h⟩ | ⟨h0, h1, h2, h3, h4, h⟩ | ⟨hm, h⟩ | ⟨hm, out, _, h⟩
  all_goals
    rw [h]
    simp [pf_heap, List.foldl_append, pf_heap_x_events, pf_heap_y_events, pf_heap_store_events,
      pf_heap_step, f0, f1, f2, f3, f4]

end ClaimsHeap

section ClaimsLeak
variable {K : Type} [LinearOrderedField K]

/-- Every matrix occurs as often in an allocation as in a `matrix_destroy` of a call of
`pf_fit`, and at most once. -/
theorem pf_fit_alloc_destroy (e : pf_env K) (points : Option (pf_points_t K)) (order : Nat)
    (coefficients : Option (Nat → K)) (id : Nat) :
    (pf_fit e points order coefficients).log.count (pf_event.alloc id) =
      (pf_fit e points order coefficients).log.count (pf_event.destroy id) ∧
    (pf_fit e points order coefficients).log.count (pf_event.alloc id) ≤ 1 := by
  have x1 := fun c o => count_x_events c o (pf_event.alloc id) (fun r h => pf_event.noConfusion h)
  have x2 := fun c o => count_x_events c o (pf_event.destroy id)
    (fun r h => pf_event.noConfusion h)
  have y1 := fun c => count_y_events c (pf_event.alloc id) (fun r h => pf_event.noConfusion h)
  have y2 := fun c => count_y_events c (pf_event.destroy id) (fun r h => pf_event.noConfusion h)
  have s1 := fun o => count_store_events_zero o (pf_event.alloc id)
    (fun r h => pf_event.noConfusion h)
  have s2 := fun o => count_store_events_zero o (pf_event.destroy id)
    (fun r h => pf_event.noConfusion h)
  rcases points with _ | p
  · simp [pf_fit]
  rcases coefficients with _ | coef
  · simp [pf_fit]
  by_cases hlt : p.count < order
  · simp [pf_fit, hlt]
  rcases pf_fit_cases e p order coef hlt with ⟨h0, h⟩ | ⟨h0, h1, h⟩ | ⟨h0, h1, h2, h⟩ |
    ⟨h0, h1, h2, h3, h⟩ | ⟨h0, h1, h2, h3, h4, h⟩ | ⟨hm, h⟩ | ⟨hm, out, _, h⟩
  all_goals
    rw [h]
    simp only [List.count_append, x1, x2, y1, y2, s1, s2, List.count_cons, List.count_nil,
      beq_iff_eq, pf_event.alloc.injEq, pf_event.destroy.injEq, reduceCtorEq, if_false]
    constructor <;> (try split_ifs) <;> first | trivial | omega

/-- The coefficient buffer is stored to only when `pf_fit` returns `PF_OK`, and then each of
its first `order` cells once. -/
theorem pf_fit_stores (e : pf_env K) (points : Option (pf_points_t K)) (order : Nat)
    (coefficients : Option (Nat → K)) (i : Nat) :
    ((pf_fit e points order coefficients).err ≠ PF_OK →
      (pf_fit e points order coefficients).coefficients = coefficients ∧
      (pf_fit e points order coefficients).log.count (pf_event.store i) = 0) ∧
    ((pf_fit e points order coefficients).err = PF_OK →
      (pf_fit e points order coefficients).log.count (pf_event.store i) =
        if i < order then 1 else 0) := by
  have x1 := fun c o => count_x_events c o (pf_event.store i) (fun r h => pf_event.noConfusion h)
  have y1 := fun c => count_y_events c (pf_event.store i) (fun r h => pf_event.noConfusion h)
  rcases points with _ | p
  · simp [pf_fit]
  rcases coefficients with _ | coef
  · simp [pf_fit]
  by_cases hlt : p.count < order
  · simp [pf_fit, hlt]
  rcases pf_fit_cases e p order coef hlt with ⟨h0, h⟩ | ⟨h0, h1, h⟩ | ⟨h0, h1, h2, h⟩ |
    ⟨h0, h1, h2, h3, h⟩ | ⟨h0, h1, h2, h3, h4, h⟩ | ⟨hm, h⟩ | ⟨hm, out, _, h⟩
  all_goals
    rw [h]
    simp [List.count_append, x1, y1, count_store_events]

end ClaimsLeak

section ClaimsAtomic
variable {K : Type} [LinearOrderedField K]

/-- When `pf_fit` returns `PF_OK` the buffer was present and keeps its cells from index `order`
on. -/
theorem pf_fit_ok_buffer (e : pf_env K) (points : Option (pf_points_t K)) (order : Nat)
    (coefficients : Option (Nat → K))
    (hok : (pf_fit e points order coefficients).err = PF_OK) :
    ∃ coef out, coefficients = some coef ∧
      (pf_fit e points order coefficients).coefficients = some out ∧
      ∀ i, order ≤ i → out i = coef i := by
  obtain ⟨p, coef, rfl, rfl, hle, _⟩ := pf_fit_ok_inv e points order coefficients hok
  rcases pf_fit_cases e p order coef (by omega) with ⟨h0, h⟩ | ⟨h0, h1, h⟩ | ⟨h0, h1, h2, h⟩ |
    ⟨h0, h1, h2, h3, h⟩ | ⟨h0, h1, h2, h3, h4, h⟩ | ⟨hm, h⟩ | ⟨hm, out, hout, h⟩
  · rw [h] at hok
    exact absurd (show PF_EALLOC = PF_OK from hok) (by decide)
  · rw [h] at hok
    exact absurd (show PF_EALLOC = PF_OK from hok) (by decide)
  · rw [h] at hok
    exact absurd (show PF_EALLOC = PF_OK from hok) (by decide)
  · rw [h] at hok
    exact absurd (show PF_EALLOC = PF_OK from hok) (by decide)
  · rw [h] at hok
    exact absurd (show PF_EALLOC = PF_OK from hok) (by decide)
  · rw [h] at hok
    exact absurd (show PF_ESOLVE = PF_OK from hok) (by decide)
  · exact ⟨coef, out, rfl, by rw [h], hout⟩

/-- C14: no leak on any exit path of `pf_fit`. With the heap as the set of live matrices and
each of the five allocations free to succeed or fail, for every input and every set `live` of
matrices live at the call (none of them one of the blocks the call is given): running the
events of the call from `live` ends in `live` without a heap error, every matrix is allocated
as often as it is destroyed and at most once, the status is one of `PF_OK`, `PF_EPARAM`,
`PF_EALLOC`, `PF_ESOLVE`, and it is `PF_EALLOC` exactly when an allocation failed. -/
theorem pf_fit_no_leak (e : pf_env K) (points : Option (pf_points_t K)) (order : Nat)
    (coefficients : Option (Nat → K)) (live : Finset Nat) (hfresh : ∀ k, k < 5 → k ∉ live) :
    pf_heap live (pf_fit e points order coefficients).log = some live ∧
    (∀ id, (pf_fit e points order coefficients).log.count (pf_event.alloc id) =
        (pf_fit e points order coefficients).log.count (pf_event.destroy id) ∧
      (pf_fit e points order coefficients).log.count (pf_event.alloc id) ≤ 1) ∧
    ((pf_fit e points order coefficients).err = PF_OK ∨
      (pf_fit e points order coefficients).err = PF_EPARAM ∨
      (pf_fit e points order coefficients).err = PF_EALLOC ∨
      (pf_fit e points order coefficients).err = PF_ESOLVE) ∧
    ((pf_fit e points order coefficients).err = PF_EALLOC ↔
      ∃ p coef, points = some p ∧ coefficients = some coef ∧ ¬ p.count < order ∧
        ∃ k, k < 5 ∧ e.malloc_ok k = false ∧ ∀ j, j < k → e.malloc_ok j = true) :=
  ⟨pf_fit_heap e points order coefficients live hfresh,
    pf_fit_alloc_destroy e points order coefficients,
    (pf_fit_ealloc_iff e points order coefficients).1,
    (pf_fit_ealloc_iff e points order coefficients).2⟩

/-- C14 at the points `(0,3), (5,4), (-1,8)` with `order = 2`, the fourth allocation failing and
matrix 7 live at the call. -/
theorem pf_fit_no_leak_witness :
    (∀ k, k < 5 → k ∉ ({7} : Finset Nat)) ∧
    (pf_heap {7} (pf_fit env_third (some points_three) 2 (some coef_zero)).log = some {7} ∧
      (∀ id, (pf_fit env_third (some points_three) 2 (some coef_zero)).log.count
            (pf_event.alloc id) =
          (pf_fit env_third (some points_three) 2 (some coef_zero)).log.count
            (pf_event.destroy id) ∧
        (pf_fit env_third (some points_three) 2 (some coef_zero)).log.count
          (pf_event.alloc id) ≤ 1) ∧
      ((pf_fit env_third (some points_three) 2 (some coef_zero)).err = PF_OK ∨
        (pf_fit env_third (some points_three) 2 (some coef_zero)).err = PF_EPARAM ∨
        (pf_fit env_third (some points_three) 2 (some coef_zero)).err = PF_EALLOC ∨
        (pf_fit env_third (some points_three) 2 (some coef_zero)).err = PF_ESOLVE) ∧
      ((pf_fit env_third (some points_three) 2 (some coef_zero)).err = PF_EALLOC ↔
        ∃ p coef, some points_three = some p ∧ some coef_zero = some coef ∧ ¬ p.count < 2 ∧
          ∃ k, k < 5 ∧ env_third.malloc_ok k = false ∧
            ∀ j, j < k → env_third.malloc_ok j = true)) :=
  ⟨by decide, pf_fit_no_leak env_third (some points_three) 2 (some coef_zero) {7} (by decide)⟩

/-- The zero pivot found at the second column: three points sharing `x = 2` give a non-zero
first pivot and `PF_ESOLVE`. -/
theorem pf_fit_late_pivot :
    gram points_column 2 0 0 ≠ 0 ∧
    (pf_fit env_ok (some points_column) 2 (some coef_zero)).err = PF_ESOLVE :=
  ⟨by decide!, by decide!⟩

end ClaimsAtomic

section GuardedLemmas
variable {K : Type}

/-- A cell inside the rows and columns of a matrix is in bounds: its flat index, wrapped or
not, is an index of the data. -/
theorem matrix_in_bounds_of_lt (m : matrix_t K) {row col : Nat} (hr : row < m.rows)
    (hc : col < m.cols) : matrix_in_bounds m row col = true := by
  unfold matrix_in_bounds
  rw [decide_eq_true_eq]
  refine ⟨hr, hc, ?_⟩
  unfold matrix_idx
  exact lt_of_le_of_lt (Nat.mod_le _ _) (flat_lt hr hc)

theorem matrix_get_chk_eq (m : matrix_t K) {row col : Nat} (hr : row < m.rows)
    (hc : col < m.cols) : matrix_get_chk m row col = some (matrix_get_val m row col) := by
  unfold matrix_get_chk
  rw [matrix_in_bounds_of_lt m hr hc, if_pos rfl]

theorem matrix_set_chk_eq (m : matrix_t K) {row col : Nat} (hr : row < m.rows)
    (hc : col < m.cols) (v : K) :
    matrix_set_chk m row col v = some (matrix_set_val m row col v) := by
  unfold matrix_set_chk
  rw [matrix_in_bounds_of_lt m hr hc, if_pos rfl]

theorem for_loop_chk_succ {σ : Type} (n : Nat) (body : Nat → σ → Option σ) (s : σ) :
    for_loop_chk (n + 1) body s = (for_loop_chk n body s).bind (body n) := rfl

/-- A guarded loop whose body never stops under an invariant runs as the plain loop does. -/
theorem for_loop_chk_eq {σ : Type} (P : σ → Prop) (n : Nat) (bc : Nat → σ → Option σ)
    (b : Nat → σ → σ) (s : σ) (h0 : P s)
    (hs : ∀ i, i < n → ∀ t, P t → bc i t = some (b i t) ∧ P (b i t)) :
    for_loop_chk n bc s = some (for_loop n b s) ∧ P (for_loop n b s) := by
  induction n with
  | zero => exact ⟨rfl, h0⟩
  | succ n ih =>
    obtain ⟨i1, i2⟩ := ih fun i hi t ht => hs i (Nat.lt_succ_of_lt hi) t ht
    obtain ⟨j1, j2⟩ := hs n (Nat.lt_succ_self n) _ i2
    rw [for_loop_chk_succ, i1, Option.some_bind, j1, for_loop_succ]
    exact ⟨rfl, j2⟩

/-- The guarded `matrix_transpose` never stops. -/
theorem matrix_transpose_chk_eq (e : pf_env K) (k : Nat) (src : matrix_t K) :
    matrix_transpose_chk e k src = some (matrix_transpose e k src) := by
  unfold matrix_transpose_chk matrix_transpose MATRIX_ALLOC
  cases hk : e.malloc_ok k
  · simp
  · simp only [if_true, Option.map_some']
    have key := for_loop_chk_eq
      (fun t : matrix_t K => t.rows = src.cols ∧ t.cols = src.rows) src.cols
      (fun r matrix => for_loop_chk src.rows (fun c matrix =>
        (matrix_get_chk src c r).bind fun val => matrix_set_chk matrix r c val) matrix)
      (fun r matrix => for_loop src.rows (fun c matrix =>
        matrix_set_val matrix r c (matrix_get_val src c r)) matrix)
      (⟨src.cols, src.rows, e.junk k⟩ : matrix_t K) ⟨rfl, rfl⟩
      (fun r hr t ht => for_loop_chk_eq
        (fun t : matrix_t K => t.rows = src.cols ∧ t.cols = src.rows) src.rows _ _ t ht
        (fun c hc u hu => by
          rw [matrix_get_chk_eq src hc hr, Option.some_bind,
            matrix_set_chk_eq u (by rw [hu.1]; exact hr) (by rw [hu.2]; exact hc)]
          exact ⟨rfl, hu⟩))
    rw [key.1]
    rfl

/-- The guarded `matrix_product` never stops when the inner dimensions agree. -/
theorem matrix_product_chk_eq [Zero K] [Add K] [Mul K] (e : pf_env K) (k : Nat)
    (m1 m2 : matrix_t K) (hd : m1.cols = m2.rows) :
    matrix_product_chk e k m1 m2 = some (matrix_product e k m1 m2) := by
  unfold matrix_product_chk matrix_product MATRIX_ALLOC
  simp only [hd, ne_eq, not_true_eq_false, if_false, bne_self_eq_false, Bool.and_false,
    Bool.false_eq_true]
  cases hk : e.malloc_ok k
  · simp
  · simp only [if_true, Option.map_some']
    have key := for_loop_chk_eq
      (fun t : matrix_t K => t.rows = m1.rows ∧ t.cols = m2.cols) m1.rows
      (fun i matrix => for_loop_chk m2.cols (fun j matrix =>
        for_loop_chk m2.rows (fun k matrix =>
          (matrix_get_chk matrix i j).bind fun acc =>
            (matrix_get_chk m1 i k).bind fun a =>
              (matrix_get_chk m2 k j).bind fun b =>
                matrix_set_chk matrix i j (acc + a * b)) matrix) matrix)
      (fun i matrix => for_loop m2.cols (fun j matrix =>
        for_loop m2.rows (fun k matrix =>
          matrix_set_val matrix i j
            (matrix_get_val matrix i j + matrix_get_val m1 i k * matrix_get_val m2 k j))
          matrix) matrix)
      (matrix_memset0 (⟨m1.rows, m2.cols, e.junk k⟩ : matrix_t K)) ⟨rfl, rfl⟩
      (fun i hi t ht => for_loop_chk_eq
        (fun t : matrix_t K => t.rows = m1.rows ∧ t.cols = m2.cols) m2.cols _ _ t ht
        (fun j hj u hu => for_loop_chk_eq
          (fun t : matrix_t K => t.rows = m1.rows ∧ t.cols = m2.cols) m2.rows _ _ u hu
          (fun l hl v hv => by
            rw [matrix_get_chk_eq v (by rw [hv.1]; exact hi) (by rw [hv.2]; exact hj),
              Option.some_bind, matrix_get_chk_eq m1 hi (by rw [hd]; exact hl), Option.some_bind,
              matrix_get_chk_eq m2 hl hj, Option.some_bind,
              matrix_set_chk_eq v (by rw [hv.1]; exact hi) (by rw [hv.2]; exact hj)]
            exact ⟨rfl, hv⟩)))
    rw [key.1]
    rfl

end GuardedLemmas

section GuardedFitBasic
variable {K : Type}

/-- The guarded lines 94-97 never stop on a matrix of `count` rows and one column. -/
theorem pf_fit_fill_b_chk_eq (points : pf_points_t K) (m : matrix_t K)
    (l : List pf_event) (hr : m.rows = points.count) (hc : m.cols = 1) :
    pf_fit_fill_b_chk points (m, l) = some (pf_fit_fill_b points (m, l)) := by
  unfold pf_fit_fill_b_chk pf_fit_fill_b
  exact (for_loop_chk_eq
    (fun t : matrix_t K × List pf_event => t.1.rows = points.count ∧ t.1.cols = 1)
    points.count _ _ (m, l) ⟨hr, hc⟩
    (fun r hr2 t ht => by
      dsimp only
      rw [if_pos hr2, matrix_set_chk_eq t.1 (by rw [ht.1]; exact hr2) (by rw [ht.2]; exact Nat.one_pos),
        Option.map_some']
      exact ⟨rfl, ht⟩)).1

/-- The guarded lines 146-148 never stop when `mat_atb` has `order` rows and one column. -/
theorem pf_fit_copy_chk_eq (order : Nat) (m : matrix_t K) (coef : Nat → K)
    (l : List pf_event) (hr : m.rows = order) (hc : m.cols = 1) :
    pf_fit_copy_chk order m (coef, l) = some (pf_fit_copy order m (coef, l)) := by
  unfold pf_fit_copy_chk pf_fit_copy
  exact (for_loop_chk_eq (fun _ : (Nat → K) × List pf_event => True) order _ _ (coef, l)
    trivial
    (fun i hi t _ => by
      dsimp only
      rw [matrix_get_chk_eq m (by rw [hr]; exact hi) (by rw [hc]; exact Nat.one_pos),
        Option.some_bind, if_pos hi]
      exact ⟨rfl, trivial⟩)).1

end GuardedFitBasic

section GuardedFitLemmas
variable {K : Type} [LinearOrderedField K]

/-- The guarded lines 81-86 never stop on a matrix of `count` rows and `order` columns. -/
theorem pf_fit_fill_a_chk_eq (points : pf_points_t K) (order degree : Nat) (m : matrix_t K)
    (l : List pf_event) (hr : m.rows = points.count) (hc : m.cols = order) :
    pf_fit_fill_a_chk points order degree (m, l) =
      some (pf_fit_fill_a points order degree (m, l)) := by
  unfold pf_fit_fill_a_chk pf_fit_fill_a
  exact (for_loop_chk_eq
    (fun t : matrix_t K × List pf_event => t.1.rows = points.count ∧ t.1.cols = order)
    points.count _ _ (m, l) ⟨hr, hc⟩
    (fun r hr2 t ht => for_loop_chk_eq
      (fun t : matrix_t K × List pf_event => t.1.rows = points.count ∧ t.1.cols = order)
      order _ _ t ht
      (fun c hc2 u hu => by
        dsimp only
        rw [if_pos hr2, matrix_set_chk_eq u.1 (by rw [hu.1]; exact hr2) (by rw [hu.2]; exact hc2),
          Option.map_some']
        exact ⟨rfl, hu⟩))).1

/-- The guarded lines 129-137 never stop on working matrices of order `n`: `mat_ata` of `n`
rows and columns, `mat_atb` of `n` rows and one column; and the matrices keep their
dimensions. -/
theorem pf_fit_eliminate_chk_eq (n c pr : Nat) (prv : K) (s : matrix_t K × matrix_t K)
    (hc : c < n) (hpr : pr < n)
    (hs : s.1.rows = n ∧ s.1.cols = n ∧ s.2.rows = n ∧ s.2.cols = 1) :
    pf_fit_eliminate_chk c pr prv s = some (pf_fit_eliminate c pr prv s) ∧
    (pf_fit_eliminate c pr prv s).1.rows = n ∧ (pf_fit_eliminate c pr prv s).1.cols = n ∧
    (pf_fit_eliminate c pr prv s).2.rows = n ∧ (pf_fit_eliminate c pr prv s).2.cols = 1 := by
  unfold pf_fit_eliminate_chk pf_fit_eliminate
  rw [hs.1]
  refine for_loop_chk_eq
    (fun t : matrix_t K × matrix_t K =>
      t.1.rows = n ∧ t.1.cols = n ∧ t.2.rows = n ∧ t.2.cols = 1) n _ _ s hs
    (fun r hr t ht => ?_)
  dsimp only
  by_cases hrp : r = pr
  · rw [if_pos hrp, if_pos hrp]
    exact ⟨rfl, ht⟩
  · rw [if_neg hrp, if_neg hrp]
    obtain ⟨t1, t2, t3, t4⟩ := ht
    have inner := for_loop_chk_eq (fun u : matrix_t K => u.rows = n ∧ u.cols = n) t.1.cols
      (fun c2 mat_ata => (matrix_get_chk mat_ata r c2).bind fun x =>
        (matrix_get_chk mat_ata pr c2).bind fun y =>
          matrix_set_chk mat_ata r c2 (x - y * (matrix_get_val t.1 r c / prv)))
      (fun c2 mat_ata => matrix_set_val mat_ata r c2
        (matrix_get_val mat_ata r c2 - matrix_get_val mat_ata pr c2 *
          (matrix_get_val t.1 r c / prv))) t.1 ⟨t1, t2⟩
      (fun c2 hc2 u hu => by
        rw [t2] at hc2
        dsimp only
        rw [matrix_get_chk_eq u (by rw [hu.1]; exact hr) (by rw [hu.2]; exact hc2),
          Option.some_bind,
          matrix_get_chk_eq u (by rw [hu.1]; exact hpr) (by rw [hu.2]; exact hc2),
          Option.some_bind,
          matrix_set_chk_eq u (by rw [hu.1]; exact hr) (by rw [hu.2]; exact hc2)]
        exact ⟨rfl, hu⟩)
    rw [matrix_get_chk_eq t.1 (by rw [t1]; exact hr) (by rw [t2]; exact hc), Option.some_bind,
      inner.1, Option.some_bind,
      matrix_get_chk_eq t.2 (by rw [t3]; exact hr) (by rw [t4]; exact Nat.one_pos),
      Option.some_bind,
      matrix_get_chk_eq t.2 (by rw [t3]; exact hpr) (by rw [t4]; exact Nat.one_pos),
      Option.some_bind,
      matrix_set_chk_eq t.2 (by rw [t3]; exact hr) (by rw [t4]; exact Nat.one_pos),
      Option.map_some']
    exact ⟨rfl, inner.2.1, inner.2.2, t3, t4⟩

/-- The guarded elimination never stops on working matrices of order `n`, and the matrices
keep their dimensions. -/
theorem pf_fit_solve_chk_eq (n : Nat) (s : matrix_t K × matrix_t K)
    (hs : s.1.rows = n ∧ s.1.cols = n ∧ s.2.rows = n ∧ s.2.cols = 1) :
    pf_fit_solve_chk s = some (pf_fit_solve s) ∧
    ∀ t, pf_fit_solve s = some t →
      t.1.rows = n ∧ t.1.cols = n ∧ t.2.rows = n ∧ t.2.cols = 1 := by
  unfold pf_fit_solve_chk pf_fit_solve
  rw [hs.2.1]
  refine for_loop_chk_eq
    (fun u : Option (matrix_t K × matrix_t K) => ∀ t, u = some t →
      t.1.rows = n ∧ t.1.cols = n ∧ t.2.rows = n ∧ t.2.cols = 1) n _ _ (some s)
    (fun t ht => by cases ht; exact hs) (fun c hc u hu => ?_)
  cases u with
  | none => exact ⟨rfl, fun t ht => Option.noConfusion ht⟩
  | some t =>
    have ht := hu t rfl
    dsimp only
    rw [matrix_get_chk_eq t.1 (by rw [ht.1]; exact hc) (by rw [ht.2.1]; exact hc),
      Option.some_bind, Option.some_bind]
    by_cases hz : matrix_get_val t.1 c c = 0
    · rw [if_pos hz, if_pos hz]
      exact ⟨rfl, fun t ht => Option.noConfusion ht⟩
    · rw [if_neg hz, if_neg hz]
      obtain ⟨e1, e2⟩ := pf_fit_eliminate_chk_eq n c c (matrix_get_val t.1 c c) t hc hc ht
      rw [e1, Option.map_some']
      refine ⟨rfl, fun t2 ht2 => ?_⟩
      cases ht2
      exact e2

/-- The guarded normalisation never stops on working matrices of order `n`, and the matrices
keep their dimensions. -/
theorem pf_fit_normalise_chk_eq (n : Nat) (s : matrix_t K × matrix_t K)
    (hs : s.1.rows = n ∧ s.1.cols = n ∧ s.2.rows = n ∧ s.2.cols = 1) :
    pf_fit_normalise_chk s = some (pf_fit_normalise s) ∧
    (pf_fit_normalise s).1.rows = n ∧ (pf_fit_normalise s).1.cols = n ∧
    (pf_fit_normalise s).2.rows = n ∧ (pf_fit_normalise s).2.cols = 1 := by
  unfold pf_fit_normalise_chk pf_fit_normalise
  rw [hs.2.1]
  refine for_loop_chk_eq
    (fun t : matrix_t K × matrix_t K =>
      t.1.rows = n ∧ t.1.cols = n ∧ t.2.rows = n ∧ t.2.cols = 1) n _ _ s hs
    (fun c hc t ht => ?_)
  obtain ⟨t1, t2, t3, t4⟩ := ht
  dsimp only
  rw [matrix_get_chk_eq t.1 (by rw [t1]; exact hc) (by rw [t2]; exact hc), Option.some_bind,
    Option.some_bind, matrix_set_chk_eq t.1 (by rw [t1]; exact hc) (by rw [t2]; exact hc),
    Option.some_bind,
    matrix_get_chk_eq t.2 (by rw [t3]; exact hc) (by rw [t4]; exact Nat.one_pos),
    Option.some_bind,
    matrix_set_chk_eq t.2 (by rw [t3]; exact hc) (by rw [t4]; exact Nat.one_pos),
    Option.map_some']
  exact ⟨rfl, t1, t2, t3, t4⟩

end GuardedFitLemmas

section GuardedRun
variable {K : Type} [LinearOrderedField K]

/-- The guarded `pf_fit` never stops: it runs as `pf_fit` does, on every input. -/
theorem pf_fit_chk_eq (e : pf_env K) (points : Option (pf_points_t K)) (order : Nat)
    (coefficients : Option (Nat → K)) :
    pf_fit_chk e points order coefficients = some (pf_fit e points order coefficients) := by
  rcases points with _ | p
  · simp [pf_fit_chk, pf_fit]
  rcases coefficients with _ | coef
  · simp [pf_fit_chk, pf_fit]
  by_cases hlt : p.count < order
  · simp [pf_fit_chk, pf_fit, hlt]
  obtain ⟨_, a2, a3⟩ := pf_fit_fill_a_log p order ((order + UINT_MOD - 1) % UINT_MOD)
    ⟨p.count, order, e.junk 0⟩ [pf_event.alloc 0]
  have hA := pf_fit_fill_a_chk_eq p order ((order + UINT_MOD - 1) % UINT_MOD)
    ⟨p.count, order, e.junk 0⟩ [pf_event.alloc 0] rfl rfl
  obtain ⟨_, b2, b3⟩ := pf_fit_fill_b_log p (matrix_memset0 ⟨p.count, 1, e.junk 1⟩)
    ((pf_fit_fill_a p order ((order + UINT_MOD - 1) % UINT_MOD)
      (⟨p.count, order, e.junk 0⟩, [pf_event.alloc 0])).2 ++ [pf_event.alloc 1])
  have hB := pf_fit_fill_b_chk_eq p (matrix_memset0 ⟨p.count, 1, e.junk 1⟩)
    ((pf_fit_fill_a p order ((order + UINT_MOD - 1) % UINT_MOD)
      (⟨p.count, order, e.junk 0⟩, [pf_event.alloc 0])).2 ++ [pf_event.alloc 1]) rfl rfl
  cases h0 : e.malloc_ok 0
  · simp only [pf_fit_chk, pf_fit, hlt, if_false, matrix_raw, MATRIX_ALLOC, h0,
      Bool.false_eq_true]
  cases h1 : e.malloc_ok 1
  · simp only [pf_fit_chk, pf_fit, hlt, if_false, matrix_raw, matrix_create, MATRIX_ALLOC, h0,
      h1, if_true, Bool.false_eq_true, Option.map_none', hA, Option.some_bind]
  have hT := matrix_transpose_chk_eq e 2 (pf_fit_fill_a p order
    ((order + UINT_MOD - 1) % UINT_MOD) (⟨p.count, order, e.junk 0⟩, [pf_event.alloc 0])).1
  cases h2 : e.malloc_ok 2
  · simp only [pf_fit_chk, pf_fit, hlt, if_false, matrix_raw, matrix_create, MATRIX_ALLOC, h0,
      h1, if_true, Option.map_some', hA, hB, hT, Option.some_bind,
      matrix_transpose_none e 2 _ h2]
  obtain ⟨mat_at, hAt, c1, c2⟩ := matrix_transpose_some e 2
    (pf_fit_fill_a p order ((order + UINT_MOD - 1) % UINT_MOD)
      (⟨p.count, order, e.junk 0⟩, [pf_event.alloc 0])).1 h2
  have hP3 := matrix_product_chk_eq e 3 mat_at (pf_fit_fill_a p order
    ((order + UINT_MOD - 1) % UINT_MOD) (⟨p.count, order, e.junk 0⟩, [pf_event.alloc 0])).1
    (by rw [c2])
  have hP4 := matrix_product_chk_eq e 4 mat_at (pf_fit_fill_b p
    (matrix_memset0 ⟨p.count, 1, e.junk 1⟩,
      (pf_fit_fill_a p order ((order + UINT_MOD - 1) % UINT_MOD)
        (⟨p.count, order, e.junk 0⟩, [pf_event.alloc 0])).2 ++ [pf_event.alloc 1])).1
    (by rw [c2, a2, b2]; rfl)
  cases h3 : e.malloc_ok 3
  · simp only [pf_fit_chk, pf_fit, hlt, if_false, matrix_raw, matrix_create, MATRIX_ALLOC, h0,
      h1, if_true, Option.map_some', hA, hB, hT, Option.some_bind, hAt, hP3,
      matrix_product_none e 3 _ _ h3]
  obtain ⟨mat_ata, hAtA, d1, d2⟩ := matrix_product_some e 3 mat_at
    (pf_fit_fill_a p order ((order + UINT_MOD - 1) % UINT_MOD)
      (⟨p.count, order, e.junk 0⟩, [pf_event.alloc 0])).1 (by rw [c2]) h3
  cases h4 : e.malloc_ok 4
  · simp only [pf_fit_chk, pf_fit, hlt, if_false, matrix_raw, matrix_create, MATRIX_ALLOC, h0,
      h1, if_true, Option.map_some', hA, hB, hT, Option.some_bind, hAt, hP3, hAtA, hP4,
      matrix_product_none e 4 _ _ h4]
  obtain ⟨mat_atb, hAtB, f1, f2⟩ := matrix_product_some e 4 mat_at
    (pf_fit_fill_b p (matrix_memset0 ⟨p.count, 1, e.junk 1⟩,
      (pf_fit_fill_a p order ((order + UINT_MOD - 1) % UINT_MOD)
        (⟨p.count, order, e.junk 0⟩, [pf_event.alloc 0])).2 ++ [pf_event.alloc 1])).1
    (by rw [c2, a2, b2]; rfl) h4
  have hdims : (mat_ata, mat_atb).1.rows = order ∧ (mat_ata, mat_atb).1.cols = order ∧
      (mat_ata, mat_atb).2.rows = order ∧ (mat_ata, mat_atb).2.cols = 1 := by
    refine ⟨?_, ?_, ?_, ?_⟩
    · show mat_ata.rows = order
      rw [d1, c1, a3]
    · show mat_ata.cols = order
      rw [d2, a3]
    · show mat_atb.rows = order
      rw [f1, c1, a3]
    · show mat_atb.cols = 1
      rw [f2, b3]
      rfl
  obtain ⟨hS, hSd⟩ := pf_fit_solve_chk_eq order (mat_ata, mat_atb) hdims
  cases hs : pf_fit_solve (mat_ata, mat_atb) with
  | none =>
    rw [hs] at hS
    simp only [pf_fit_chk, pf_fit, hlt, if_false, matrix_raw, matrix_create, MATRIX_ALLOC, h0,
      h1, if_true, Option.map_some', hA, hB, hT, Option.some_bind, hAt, hP3, hAtA, hP4, hAtB,
      hS, hs]
  | some s =>
    rw [hs] at hS
    obtain ⟨hN, n1, n2, n3, n4⟩ := pf_fit_normalise_chk_eq order s (hSd s hs)
    have hC := fun l => pf_fit_copy_chk_eq order (pf_fit_normalise s).2 coef l n3 n4
    simp only [pf_fit_chk, pf_fit, hlt, if_false, matrix_raw, matrix_create, MATRIX_ALLOC, h0,
      h1, if_true, Option.map_some', hA, hB, hT, Option.some_bind, hAt, hP3, hAtA, hP4, hAtB,
      hS, hs, hN, hC]

end GuardedRun

section ClaimsBounds
variable {K : Type} [LinearOrderedField K]

/-- The accessors are called only after validation and only with indices below `count`. -/
theorem pf_fit_accessor_idx (e : pf_env K) (points : Option (pf_points_t K)) (order : Nat)
    (coefficients : Option (Nat → K)) (idx : Nat)
    (h : pf_event.get_x idx ∈ (pf_fit e points order coefficients).log ∨
      pf_event.get_y idx ∈ (pf_fit e points order coefficients).log) :
    ∃ p, points = some p ∧ idx < p.count := by
  rcases points with _ | p
  · simp [pf_fit] at h
  rcases coefficients with _ | coef
  · simp [pf_fit] at h
  by_cases hlt : p.count < order
  · simp [pf_fit, hlt] at h
  refine ⟨p, rfl, ?_⟩
  have hx : ∀ c o, pf_event.get_x idx ∈ pf_fit_x_events c o → idx < c := by
    intro c o hm
    obtain ⟨r, hr, he⟩ := mem_x_events hm
    cases he
    exact hr
  have hy : ∀ c, pf_event.get_y idx ∈ pf_fit_y_events c → idx < c := by
    intro c hm
    obtain ⟨r, hr, he⟩ := mem_y_events hm
    cases he
    exact hr
  have nx : ∀ c, pf_event.get_x idx ∉ pf_fit_y_events c := by
    intro c hm
    obtain ⟨r, _, he⟩ := mem_y_events hm
    exact pf_event.noConfusion he
  have ny : ∀ c o, pf_event.get_y idx ∉ pf_fit_x_events c o := by
    intro c o hm
    obtain ⟨r, _, he⟩ := mem_x_events hm
    exact pf_event.noConfusion he
  have sx : ∀ o, pf_event.get_x idx ∉ pf_fit_store_events o := by
    intro o hm
    obtain ⟨r, _, he⟩ := mem_store_events.1 hm
    exact pf_event.noConfusion he
  have sy : ∀ o, pf_event.get_y idx ∉ pf_fit_store_events o := by
    intro o hm
    obtain ⟨r, _, he⟩ := mem_store_events.1 hm
    exact pf_event.noConfusion he
  rcases h with h | h
  · rcases pf_fit_cases e p order coef hlt with ⟨h0, h2⟩ | ⟨h0, h1, h2⟩ | ⟨h0, h1, _, h2⟩ |
      ⟨h0, h1, _, h3, h2⟩ | ⟨h0, h1, _, h3, h4, h2⟩ | ⟨hm, h2⟩ | ⟨hm, out, _, h2⟩
    all_goals
      rw [h2] at h
      simp only [List.mem_append, List.mem_cons, List.mem_singleton, List.not_mem_nil,
        reduceCtorEq, or_false, false_or, nx, sx] at h
      try exact hx _ _ h
  · rcases pf_fit_cases e p order coef hlt with ⟨h0, h2⟩ | ⟨h0, h1, h2⟩ | ⟨h0, h1, _, h2⟩ |
      ⟨h0, h1, _, h3, h2⟩ | ⟨h0, h1, _, h3, h4, h2⟩ | ⟨hm, h2⟩ | ⟨hm, out, _, h2⟩
    all_goals
      rw [h2] at h
      simp only [List.mem_append, List.mem_cons, List.mem_singleton, List.not_mem_nil,
        reduceCtorEq, or_false, false_or, ny, sy] at h
      try exact hy _ h

/-- C18: all indexing inside `pf_fit` is in bounds. On every input (in particular with
non-null arguments, `count >= order` and `count * order` within the range of the index type)
the run of `pf_fit` with every access guarded never stops and is the run of `pf_fit`: every
read or store of a matrix cell by `pf_fit`, `matrix_transpose` and `matrix_product` has
`row < rows`, `col < cols` and a flat index below `rows * cols`, the inner dimensions passed to
`matrix_product` agree, the accessors `x` and `y` are called with `idx < count` only, and
`coefficients` is stored to at indices below `order` only. -/
theorem pf_fit_in_bounds (e : pf_env K) (points : Option (pf_points_t K)) (order : Nat)
    (coefficients : Option (Nat → K)) :
    pf_fit_chk e points order coefficients = some (pf_fit e points order coefficients) ∧
    (∀ idx, (pf_event.get_x idx ∈ (pf_fit e points order coefficients).log ∨
        pf_event.get_y idx ∈ (pf_fit e points order coefficients).log) →
      ∃ p, points = some p ∧ idx < p.count) ∧
    (∀ i, pf_event.store i ∈ (pf_fit e points order coefficients).log → i < order) ∧
    (∀ (m : matrix_t K) (row col : Nat), matrix_in_bounds m row col = true ↔
      (row < m.rows ∧ col < m.cols ∧ matrix_idx m row col < m.rows * m.cols)) ∧
    (∀ (m : matrix_t K) (row col : Nat), row < m.rows → col < m.cols →
      row * m.cols + col < m.rows * m.cols ∧
      (m.rows * m.cols < UINT_MOD → matrix_idx m row col = row * m.cols + col)) := by
  refine ⟨pf_fit_chk_eq e points order coefficients,
    fun idx h => pf_fit_accessor_idx e points order coefficients idx h, fun i hi => ?_,
    fun m row col => ?_, fun m row col hr hc => ⟨flat_lt hr hc, fun hRC => ?_⟩⟩
  · by_contra hge
    by_cases hok : (pf_fit e points order coefficients).err = PF_OK
    · have h0 := (pf_fit_stores e points order coefficients i).2 hok
      rw [if_neg hge] at h0
      exact List.count_eq_zero.1 h0 hi
    · exact List.count_eq_zero.1 ((pf_fit_stores e points order coefficients i).1 hok).2 hi
  · unfold matrix_in_bounds
    rw [decide_eq_true_eq]
  · exact matrix_idx_eq m rfl hRC hr hc

end ClaimsBounds

section WrapMatrix
variable {K : Type}

/-- The result of `matrix_transpose` when its allocation succeeds. -/
theorem matrix_transpose_eq (e : pf_env K) (k : Nat) (src : matrix_t K)
    (hk : e.malloc_ok k = true) :
    matrix_transpose e k src = some (for_loop src.cols (fun r matrix =>
      for_loop src.rows (fun c matrix =>
        matrix_set_val matrix r c (matrix_get_val src c r)) matrix)
      ⟨src.cols, src.rows, e.junk k⟩) := by
  simp only [matrix_transpose, MATRIX_ALLOC, hk, if_true, Option.map_some']

/-- The result of `matrix_product` of a one-column matrix and a one-row matrix when its
allocation succeeds. -/
theorem matrix_product_eq_one [Zero K] [Add K] [Mul K] (e : pf_env K) (k : Nat)
    (m1 m2 : matrix_t K) (h1 : m1.cols = 1) (h2 : m2.rows = 1) (hk : e.malloc_ok k = true) :
    matrix_product e k m1 m2 = some (for_loop m1.rows (fun i matrix =>
      for_loop m2.cols (fun j matrix =>
        matrix_set_val matrix i j
          (matrix_get_val matrix i j + matrix_get_val m1 i 0 * matrix_get_val m2 0 j)) matrix)
      (matrix_memset0 ⟨m1.rows, m2.cols, e.junk k⟩)) := by
  simp only [matrix_product, MATRIX_ALLOC, hk, h1, h2, bne_self_eq_false, Bool.and_false,
    if_true, Option.map_some', Bool.false_eq_true, if_false]
  rfl

/-- Accumulations at successive flat positions leave the dimensions alone and, in each cell
below `UINT_MOD`, the sum of what the positions that reached it added. -/
theorem wrap_acc_data [AddCommMonoid K] (C : Nat) (val : Nat → K) (m0 : matrix_t K)
    (hc : m0.cols = C) (n : Nat) (hn : n ≤ 2 * UINT_MOD) :
    (for_loop n (fun t m => matrix_set_val m (t / C) (t % C)
      (matrix_get_val m (t / C) (t % C) + val t)) m0).rows = m0.rows ∧
    (for_loop n (fun t m => matrix_set_val m (t / C) (t % C)
      (matrix_get_val m (t / C) (t % C) + val t)) m0).cols = C ∧
    ∀ f, f < UINT_MOD →
      (for_loop n (fun t m => matrix_set_val m (t / C) (t % C)
        (matrix_get_val m (t / C) (t % C) + val t)) m0).data f =
        m0.data f + ((if f < n then val f else 0) +
          (if f + UINT_MOD < n then val (f + UINT_MOD) else 0)) := by
  induction n with
  | zero =>
    refine ⟨rfl, hc, fun f _ => ?_⟩
    simp [for_loop]
  | succ n ih =>
    obtain ⟨h1, h2, h3⟩ := ih (by omega)
    rw [for_loop_succ]
    generalize for_loop n (fun t m => matrix_set_val m (t / C) (t % C)
      (matrix_get_val m (t / C) (t % C) + val t)) m0 = S at h1 h2 h3
    refine ⟨h1, h2, fun f hf => ?_⟩
    have hidx : matrix_idx S (n / C) (n % C) = n % UINT_MOD := by
      unfold matrix_idx
      rw [h2, Nat.mul_comm, Nat.div_add_mod]
    have hlt : n % UINT_MOD < UINT_MOD := Nat.mod_lt _ (by rw [UINT_MOD_eq]; decide)
    show Function.update S.data (matrix_idx S (n / C) (n % C))
      (S.data (matrix_idx S (n / C) (n % C)) + val n) f = _
    rw [hidx]
    by_cases hfn : f = n % UINT_MOD
    · rw [hfn, Function.update_same, h3 _ hlt]
      by_cases hsmall : n < UINT_MOD
      · rw [Nat.mod_eq_of_lt hsmall]
        have a1 : ¬ n < n := lt_irrefl n
        have a2 : ¬ n + UINT_MOD < n := by omega
        have a3 : n < n + 1 := by omega
        have a4 : ¬ n + UINT_MOD < n + 1 := by omega
        rw [if_neg a1, if_neg a2, if_pos a3, if_neg a4]
        simp
      · have e : n % UINT_MOD = n - UINT_MOD := by
          rw [Nat.mod_eq_sub_mod (by omega), Nat.mod_eq_of_lt (by omega)]
        rw [e]
        have a0 : n - UINT_MOD + UINT_MOD = n := by omega
        have a1 : n - UINT_MOD < n := by
          have : 0 < UINT_MOD := by rw [UINT_MOD_eq]; decide
          omega
        have a3 : n - UINT_MOD < n + 1 := by omega
        rw [a0, if_pos a1, if_neg (lt_irrefl n), if_pos a3, if_pos (Nat.lt_succ_self n)]
        simp [add_assoc]
    · rw [Function.update_noteq hfn, h3 f hf]
      have b1 : (f + UINT_MOD < n + 1) ↔ (f + UINT_MOD < n) := by
        constructor
        · intro h
          have : f + UINT_MOD ≠ n := by
            intro he
            apply hfn
            rw [← he, Nat.add_mod_right, Nat.mod_eq_of_lt hf]
          omega
        · intro h
          omega
      have b2 : (f < n + 1) ↔ (f < n) := by
        constructor
        · intro h
          by_cases hsmall : n < UINT_MOD
          · have : f ≠ n := by
              intro he
              apply hfn
              rw [he, Nat.mod_eq_of_lt hsmall]
            omega
          · omega
        · intro h
          omega
      simp only [b1, b2]

end WrapMatrix

section ClaimsMatrix
variable {K : Type}
open Finset

/-- A cell of a matrix of fewer than `2 ^ 32` cells is the cell of the data at its row-major
position. -/
theorem matrix_get_val_flat (m : matrix_t K) (hRC : m.rows * m.cols < UINT_MOD) {i j : Nat}
    (hi : i < m.rows) (hj : j < m.cols) : matrix_get_val m i j = m.data (i * m.cols + j) := by
  unfold matrix_get_val
  rw [matrix_idx_eq m rfl hRC hi hj]

/-- C12 (amended): for every matrix `src` of fewer than `2 ^ 32` cells, `matrix_transpose`
returns NULL when its allocation fails and otherwise a new matrix with `rows = src.cols` and
`cols = src.rows` whose entry `(c, r)` is the entry `(r, c)` of `src` for all `r < src.rows`
and `c < src.cols`, as `matrix_get` reads them and as the row-major data holds them; `src`
is only read. -/
theorem matrix_transpose_spec (e : pf_env K) (k : Nat) (src : matrix_t K)
    (hRC : src.rows * src.cols < UINT_MOD) :
    (e.malloc_ok k = false → matrix_transpose e k src = none) ∧
    (e.malloc_ok k = true → ∃ m, matrix_transpose e k src = some m ∧
      m.rows = src.cols ∧ m.cols = src.rows ∧
      ∀ r, r < src.rows → ∀ c, c < src.cols →
        matrix_get_val m c r = matrix_get_val src r c ∧
        m.data (c * m.cols + r) = src.data (r * src.cols + c)) := by
  refine ⟨matrix_transpose_none e k src, fun hk => ?_⟩
  obtain ⟨m, h1, h2, h3, h4⟩ :=
    matrix_transpose_Holds e k (matrix_t.Holds.self src) (by rwa [Nat.mul_comm]) hk
  refine ⟨m, h1, h2, h3, fun r hr c hc => ?_⟩
  have hm : m.rows * m.cols < UINT_MOD := by rwa [h2, h3, Nat.mul_comm]
  have e1 := h4 c hc r hr
  refine ⟨e1, ?_⟩
  rw [← matrix_get_val_flat m hm (by rw [h2]; exact hc) (by rw [h3]; exact hr),
    ← matrix_get_val_flat src hRC hr hc]
  exact e1

/-- C12 (amended) at a matrix of 2 rows and 3 columns. -/
theorem matrix_transpose_spec_witness :
    matrix_small.rows * matrix_small.cols < UINT_MOD ∧
    ((env_ok.malloc_ok 0 = false → matrix_transpose env_ok 0 matrix_small = none) ∧
      (env_ok.malloc_ok 0 = true → ∃ m, matrix_transpose env_ok 0 matrix_small = some m ∧
        m.rows = matrix_small.cols ∧ m.cols = matrix_small.rows ∧
        ∀ r, r < matrix_small.rows → ∀ c, c < matrix_small.cols →
          matrix_get_val m c r = matrix_get_val matrix_small r c ∧
          m.data (c * m.cols + r) = matrix_small.data (r * matrix_small.cols + c))) :=
  ⟨by decide, matrix_transpose_spec env_ok 0 matrix_small (by decide)⟩

/-- C12 fails past `2 ^ 32` cells: the transpose of the matrix of `wrap_count` rows and 3
columns that holds 1 in cell `(0, 0)` and 0 elsewhere holds 0 in its cell `(0, 0)`, which the
store of cell `(2, wrap_count - 2)`, at flat position `2 ^ 32`, has overwritten. -/
theorem matrix_transpose_spec_counterexample :
    ∃ m, matrix_transpose env_ok 0 matrix_wrap_src = some m ∧
      0 < matrix_wrap_src.rows ∧ 0 < matrix_wrap_src.cols ∧
      matrix_get_val matrix_wrap_src 0 0 = 1 ∧ matrix_get_val m 0 0 = 0 ∧
      matrix_wrap_src.data (0 * matrix_wrap_src.cols + 0) = 1 ∧
      m.data (0 * m.cols + 0) = 0 := by
  have hU : UINT_MOD = 4294967296 := UINT_MOD_eq
  obtain ⟨_, h2, h3⟩ := wrap_fill_get matrix_wrap_src.cols matrix_wrap_src.rows (by decide)
    (by rw [hU]; rfl) (fun r c => matrix_get_val matrix_wrap_src c r)
    (⟨matrix_wrap_src.cols, matrix_wrap_src.rows, env_ok.junk 0⟩ : matrix_t ℚ) rfl
  have h00 := h3 0 (by decide) 0 (by decide)
  have a1 : (0 * matrix_wrap_src.rows + 0 + UINT_MOD) / matrix_wrap_src.rows = 2 := by
    rw [hU]
    rfl
  have a2 : (0 * matrix_wrap_src.rows + 0 + UINT_MOD) % matrix_wrap_src.rows =
      1431655764 := by
    rw [hU]
    rfl
  rw [if_pos (by decide), a1, a2] at h00
  have hsrc : matrix_get_val matrix_wrap_src 1431655764 2 = 0 := by
    show (if (1431655764 * 3 + 2) % UINT_MOD = 0 then (1 : ℚ) else 0) = 0
    rw [hU]
    rfl
  have hget : matrix_get_val (for_loop matrix_wrap_src.cols (fun r matrix =>
      for_loop matrix_wrap_src.rows (fun c matrix =>
        matrix_set_val matrix r c (matrix_get_val matrix_wrap_src c r)) matrix)
      ⟨matrix_wrap_src.cols, matrix_wrap_src.rows, env_ok.junk 0⟩) 0 0 = 0 := by
    rw [h00]
    exact hsrc
  refine ⟨_, matrix_transpose_eq env_ok 0 matrix_wrap_src rfl, by decide, by decide, rfl, hget,
    rfl, ?_⟩
  have hidx : ∀ m : matrix_t ℚ, m.data (0 * m.cols + 0) = matrix_get_val m 0 0 := by
    intro m
    show _ = m.data ((0 * m.cols + 0) % UINT_MOD)
    rw [Nat.zero_mul, Nat.zero_add, Nat.zero_mod]
  rw [hidx]
  exact hget

end ClaimsMatrix

section ClaimsProduct
variable {K : Type} [Semiring K]
open Finset

/-- C13 (amended): for all matrices `a` and `b` with `a.cols = b.rows` whose product has fewer
than `2 ^ 32` cells, `matrix_product` returns NULL when its allocation fails and otherwise a new
matrix with `rows = a.rows` and `cols = b.cols` whose entry `(i, j)` is the sum over `k` in
`[0, a.cols)` of `a[i][k] * b[k][j]`, the entries being those `matrix_get` reads; when
`a.cols = 0` every entry is 0; `a` and `b` are only read. -/
theorem matrix_product_spec (e : pf_env K) (k : Nat) (a b : matrix_t K)
    (hd : a.cols = b.rows) (hRC : a.rows * b.cols < UINT_MOD) :
    (e.malloc_ok k = false → matrix_product e k a b = none) ∧
    (e.malloc_ok k = true → ∃ m, matrix_product e k a b = some m ∧
      m.rows = a.rows ∧ m.cols = b.cols ∧
      (∀ i, i < a.rows → ∀ j, j < b.cols →
        matrix_get_val m i j =
          ∑ l in range a.cols, matrix_get_val a i l * matrix_get_val b l j) ∧
      (a.cols = 0 → ∀ i, i < a.rows → ∀ j, j < b.cols → matrix_get_val m i j = 0)) := by
  refine ⟨matrix_product_none e k a b, fun hk => ?_⟩
  have hb : b.Holds a.cols b.cols (matrix_get_val b) := by
    rw [hd]
    exact matrix_t.Holds.self b
  obtain ⟨m, h1, h2, h3, h4⟩ :=
    matrix_product_Holds e k (matrix_t.Holds.self a) hb hRC hk
  refine ⟨m, h1, h2, h3, h4, fun h0 i hi j hj => ?_⟩
  rw [h4 i hi j hj, h0]
  simp

/-- C13 (amended) at a matrix of 2 rows and 3 columns and one of 3 rows and 2 columns. -/
theorem matrix_product_spec_witness :
    (matrix_small.cols = matrix_tall.rows ∧ matrix_small.rows * matrix_tall.cols < UINT_MOD) ∧
    ((env_ok.malloc_ok 0 = false → matrix_product env_ok 0 matrix_small matrix_tall = none) ∧
      (env_ok.malloc_ok 0 = true →
        ∃ m, matrix_product env_ok 0 matrix_small matrix_tall = some m ∧
          m.rows = matrix_small.rows ∧ m.cols = matrix_tall.cols ∧
          (∀ i, i < matrix_small.rows → ∀ j, j < matrix_tall.cols →
            matrix_get_val m i j = ∑ l in range matrix_small.cols,
              matrix_get_val matrix_small i l * matrix_get_val matrix_tall l j) ∧
          (matrix_small.cols = 0 → ∀ i, i < matrix_small.rows → ∀ j, j < matrix_tall.cols →
            matrix_get_val m i j = 0))) :=
  ⟨⟨by decide, by decide⟩,
    matrix_product_spec env_ok 0 matrix_small matrix_tall (by decide) (by decide)⟩

/-- The cell `(0, 0)` of the product of a one-column and a one-row matrix whose product has
`2 ^ 32 + 2` cells: the accumulation at flat position `2 ^ 32` lands in it too. -/
theorem matrix_product_wrap_cell (e : pf_env K) (k : Nat) (m1 m2 : matrix_t K)
    (h1 : m1.cols = 1) (h2 : m2.rows = 1) (hC : 0 < m2.cols)
    (hn : m1.rows * m2.cols = UINT_MOD + 2) (hk : e.malloc_ok k = true) :
    ∃ m, matrix_product e k m1 m2 = some m ∧
      matrix_get_val m 0 0 = matrix_get_val m1 0 0 * matrix_get_val m2 0 0 +
        matrix_get_val m1 (UINT_MOD / m2.cols) 0 * matrix_get_val m2 0 (UINT_MOD % m2.cols) := by
  have hU : UINT_MOD = 4294967296 := UINT_MOD_eq
  have hflat := for_loop_flatten m1.rows m2.cols hC
    (fun i j (matrix : matrix_t K) => matrix_set_val matrix i j
      (matrix_get_val matrix i j + matrix_get_val m1 i 0 * matrix_get_val m2 0 j))
    (matrix_memset0 ⟨m1.rows, m2.cols, e.junk k⟩)
  obtain ⟨_, _, h3⟩ := wrap_acc_data m2.cols
    (fun t => matrix_get_val m1 (t / m2.cols) 0 * matrix_get_val m2 0 (t % m2.cols))
    (matrix_memset0 ⟨m1.rows, m2.cols, e.junk k⟩) rfl (m1.rows * m2.cols) (by rw [hn]; omega)
  have hpos : 0 < UINT_MOD := by rw [UINT_MOD_eq]; decide
  have h0 := h3 0 hpos
  have hzero : (matrix_memset0 (⟨m1.rows, m2.cols, e.junk k⟩ : matrix_t K)).data 0 = 0 := by
    show (if 0 < m1.rows * m2.cols then (0 : K) else e.junk k 0) = 0
    rw [if_pos (by rw [hn]; omega)]
  rw [hzero, if_pos (by rw [hn]; omega), if_pos (by rw [hn]; omega)] at h0
  have hcell : ∀ m : matrix_t K, matrix_get_val m 0 0 = m.data 0 := by
    intro m
    show m.data ((0 * m.cols + 0) % UINT_MOD) = _
    rw [Nat.zero_mul, Nat.zero_add, Nat.zero_mod]
  refine ⟨_, matrix_product_eq_one e k m1 m2 h1 h2 hk, ?_⟩
  rw [hflat, hcell, h0, zero_add, Nat.zero_add]
  have e1 : 0 / m2.cols = 0 := Nat.zero_div _
  have e2 : 0 % m2.cols = 0 := Nat.zero_mod _
  simp only [e1, e2]

/-- C13 fails past `2 ^ 32` cells: in the product of a column of `wrap_count` ones and a row
of three ones the cell `(0, 0)` holds 2, not 1, because the accumulation of cell
`(wrap_count - 1, 1)`, at flat position `2 ^ 32`, lands in it too. -/
theorem matrix_product_spec_counterexample :
    ∃ m, matrix_product env_ok 0 matrix_wrap_col matrix_wrap_row = some m ∧
      matrix_wrap_col.cols = matrix_wrap_row.rows ∧
      0 < matrix_wrap_col.rows ∧ 0 < matrix_wrap_row.cols ∧
      matrix_get_val m 0 0 = 2 ∧
      ∑ l in range matrix_wrap_col.cols,
        matrix_get_val matrix_wrap_col 0 l * matrix_get_val matrix_wrap_row l 0 = 1 := by
  obtain ⟨m, hm, hcell⟩ := matrix_product_wrap_cell env_ok 0 matrix_wrap_col matrix_wrap_row
    rfl rfl (by decide) (by rw [UINT_MOD_eq]; rfl) rfl
  refine ⟨m, hm, rfl, by decide, by decide, ?_, ?_⟩
  · rw [hcell]
    show (1 : ℚ) * 1 + 1 * 1 = 2
    norm_num
  · show ∑ l in range 1, _ = (1 : ℚ)
    rw [Finset.sum_range_one]
    show (1 : ℚ) * 1 = 1
    norm_num

end ClaimsProduct

section ClaimsNormal
variable {K : Type} [LinearOrderedField K]
open Finset

/-- The Gram matrix and the moment vector of the design matrix, entry by entry as sums of
powers of the x-values. -/
theorem gram_eq_power_sum (points : pf_points_t K) (order : Nat) {i j : Nat} (hi : i < order)
    (hj : j < order) :
    gram points order i j = ∑ r in range points.count, points.x r ^ (2 * (order - 1) - i - j) ∧
    moment points order i = ∑ r in range points.count, points.y r * points.x r ^ (order - 1 - i) := by
  unfold gram moment design
  refine ⟨Finset.sum_congr rfl fun r _ => ?_, Finset.sum_congr rfl fun r _ => mul_comm _ _⟩
  rw [← pow_add]
  congr 1
  omega

/-- C16 (amended): the vector `pf_fit` returns solves the normal equations of the data. For
every point sequence and order `>= 1` with `count * order < 2 ^ 32`, if `pf_fit` returns
`PF_OK` then for every `i < order` the sum over `j < order` of `G[i][j] * coefficients[j]` is
`h[i]`, where `G[i][j]` is the sum over `r` of `x_r ^ (2 * (order - 1) - i - j)` and `h[i]` the
sum over `r` of `y_r * x_r ^ (order - 1 - i)`: the Gram matrix `AtA` and the vector `AtB` of the
design matrix `A[r][c] = x_r ^ (order - 1 - c)`, with `x ^ 0 = 1` also for `x = 0`. -/
theorem pf_fit_normal_equations (e : pf_env K) (points : Option (pf_points_t K)) (order : Nat)
    (coefficients : Option (Nat → K)) (ho : 1 ≤ order)
    (hr : ∀ p, points = some p → p.count * order < UINT_MOD)
    (hok : (pf_fit e points order coefficients).err = PF_OK) :
    ∃ p c, points = some p ∧ (pf_fit e points order coefficients).coefficients = some c ∧
      (∀ i, i < order →
        ∑ j in range order, (∑ r in range p.count, p.x r ^ (2 * (order - 1) - i - j)) * c j =
          ∑ r in range p.count, p.y r * p.x r ^ (order - 1 - i)) ∧
      (∀ i, i < order → ∀ j, j < order →
        ∑ r in range p.count, p.x r ^ (2 * (order - 1) - i - j) =
          ∑ r in range p.count, design p order r i * design p order r j) ∧
      (∀ r c, design p order r c = p.x r ^ (order - 1 - c)) ∧ (0 : K) ^ 0 = 1 := by
  obtain ⟨p, coef, rfl, rfl, hle, hm⟩ := pf_fit_ok_inv e points order coefficients hok
  have hr2 := hr p rfl
  have hcount : p.count < UINT_MOD := lt_of_le_of_lt (Nat.le_mul_of_pos_right _ ho) hr2
  rcases pf_fit_status e p order coef hle hcount hr2 hm with ⟨_, h2, _⟩ | ⟨_, _, out, h3, h4, _, _⟩
  · rw [hok] at h2
    exact absurd h2 (by decide)
  · refine ⟨p, out, rfl, h3, fun i hi => ?_, fun i hi j hj => ?_, fun r c => rfl, pow_zero 0⟩
    · rw [← (gram_eq_power_sum p order hi hi).2, ← h4 i hi]
      exact Finset.sum_congr rfl fun j hj => by
        rw [(gram_eq_power_sum p order hi (Finset.mem_range.1 hj)).1]
    · exact ((gram_eq_power_sum p order hi hj).1).symm

/-- C16 (amended) at the points `(0,3), (5,4), (-1,8)` fitted by a line (`order = 2`). -/
theorem pf_fit_normal_equations_witness :
    (1 ≤ 2 ∧ (∀ p, some points_three = some p → p.count * 2 < UINT_MOD) ∧
      (pf_fit env_ok (some points_three) 2 (some coef_zero)).err = PF_OK) ∧
    ∃ p c, some points_three = some p ∧
      (pf_fit env_ok (some points_three) 2 (some coef_zero)).coefficients = some c ∧
      (∀ i, i < 2 →
        ∑ j in range 2, (∑ r in range p.count, p.x r ^ (2 * (2 - 1) - i - j)) * c j =
          ∑ r in range p.count, p.y r * p.x r ^ (2 - 1 - i)) ∧
      (∀ i, i < 2 → ∀ j, j < 2 →
        ∑ r in range p.count, p.x r ^ (2 * (2 - 1) - i - j) =
          ∑ r in range p.count, design p 2 r i * design p 2 r j) ∧
      (∀ r c, design p 2 r c = p.x r ^ (2 - 1 - c)) ∧ (0 : ℚ) ^ 0 = 1 :=
  ⟨⟨by decide, fun p hp => by cases hp; decide, by decide!⟩,
    pf_fit_normal_equations env_ok (some points_three) 2 (some coef_zero) (by decide)
      (fun p hp => by cases hp; decide) (by decide!)⟩

/-- C16 fails past `2 ^ 32` cells: on the `wrap_count` points `(0,1), (2,0), (0,0), ...` with
`order = 3` `pf_fit` returns `PF_OK` and writes `[-1/2, 1, 0]`, for which the last normal
equation has `4 * (-1/2) + 2 * 1 + wrap_count * 0 = 0` on the left and `1` on the right. -/
theorem pf_fit_normal_equations_counterexample :
    1 ≤ 3 ∧ (pf_fit env_ok (some points_wrap_two) 3 (some coef_zero)).err = PF_OK ∧
    ∃ c : Nat → ℚ,
      (pf_fit env_ok (some points_wrap_two) 3 (some coef_zero)).coefficients = some c ∧
      ∑ j in range 3, (∑ r in range points_wrap_two.count,
          points_wrap_two.x r ^ (2 * (3 - 1) - 2 - j)) * c j = 0 ∧
      ∑ r in range points_wrap_two.count,
        points_wrap_two.y r * points_wrap_two.x r ^ (3 - 1 - 2) = 1 := by
  obtain ⟨hok, out, hout, h0, h1, h2⟩ := pf_fit_wrap_two
  refine ⟨by decide, hok, out, hout, ?_, ?_⟩
  · have s2 : ∑ r in range points_wrap_two.count, points_wrap_two.x r ^ 2 = 4 := by
      rw [sum_range_thin points_wrap_two.count (by decide) _ (0 : ℚ) (fun l h3 _ => ?_)]
      · norm_num [points_wrap_two]
      · have hl : l ≠ 1 := by omega
        simp [points_wrap_two, hl]
    have s1 : ∑ r in range points_wrap_two.count, points_wrap_two.x r ^ 1 = 2 := by
      rw [sum_range_thin points_wrap_two.count (by decide) _ (0 : ℚ) (fun l h3 _ => ?_)]
      · norm_num [points_wrap_two]
      · have hl : l ≠ 1 := by omega
        simp [points_wrap_two, hl]
    have e0 : 2 * (3 - 1) - 2 - 0 = 2 := rfl
    have e1 : 2 * (3 - 1) - 2 - 1 = 1 := rfl
    rw [Finset.sum_range_succ, Finset.sum_range_succ, Finset.sum_range_one, h0, h1, h2,
      mul_zero, add_zero, e0, e1, s2, s1]
    norm_num
  · rw [sum_range_thin points_wrap_two.count (by decide) _ (0 : ℚ) (fun l h3 _ => ?_)]
    · norm_num [points_wrap_two]
    · have hl : l ≠ 0 := by omega
      simp [points_wrap_two, hl]

end ClaimsNormal

section ClaimsText
variable {K : Type} [LinearOrderedField K]

/-- The piece iteration `i` of the loop of `pf_strpoly` renders is term `i` of the
specification when the exponent is one `%d` prints in decimal. -/
theorem pf_strpoly_piece_eq_spec (fmt : K → List Char) (order : Nat) (c : Nat → K) (i : Nat)
    (he : order - 1 - i < INT_MOD) :
    pf_strpoly_piece fmt order c i = spec_term fmt order c i := by
  have hd : printf_d (order - 1 - i) = Nat.toDigits 10 (order - 1 - i) := by
    unfold printf_d
    rw [if_pos he]
  have hterm : ∀ co : K, pf_strpoly_term fmt co (order - 1 - i) =
      fmt co ++ spec_suffix (order - 1 - i) := by
    intro co
    unfold pf_strpoly_term spec_suffix
    by_cases h0 : order - 1 - i = 0
    · rw [if_pos h0, if_neg (by omega), if_neg (by omega), List.append_nil]
    · by_cases h1 : order - 1 - i = 1
      · rw [if_neg h0, if_pos h1, if_neg (by omega), if_pos h1]
      · rw [if_neg h0, if_neg h1, if_pos (by omega), hd, List.append_assoc]
  unfold pf_strpoly_piece spec_term
  rw [hterm]
  by_cases hi : i = 0
  · subst hi
    simp
  · by_cases hneg : c i < 0
    · simp [hi, hneg, pf_strpoly_op]
    · simp [hi, hneg, pf_strpoly_op]

/-- The text `pf_strpoly` renders is the text of the specification when the highest exponent
is one `%d` prints in decimal. -/
theorem pf_strpoly_text_eq_spec (fmt : K → List Char) (order : Nat) (c : Nat → K)
    (ho : order ≤ INT_MOD) : pf_strpoly_text fmt order c = spec_text fmt order c := by
  unfold pf_strpoly_text spec_text
  have key : ∀ k, k ≤ order →
      for_loop k (fun i t => t ++ pf_strpoly_piece fmt order c i) [] =
        (List.range k).flatMap (spec_term fmt order c) := by
    intro k hk
    induction k with
    | zero => rfl
    | succ k ih =>
      rw [pf_strpoly_text_succ, ih (by omega), List.range_succ, List.flatMap_append,
        pf_strpoly_piece_eq_spec fmt order c k (by omega)]
      simp
  exact key order le_rfl

/-- The text of the first iterations starts the text of all of them. -/
theorem pf_strpoly_text_extends (fmt : K → List Char) (order : Nat) (c : Nat → K) (k n : Nat)
    (hkn : k ≤ n) :
    ∃ rest, for_loop k (fun i t => t ++ pf_strpoly_piece fmt order c i) [] ++ rest =
      for_loop n (fun i t => t ++ pf_strpoly_piece fmt order c i) [] := by
  induction n with
  | zero =>
    have : k = 0 := by omega
    subst this
    exact ⟨[], List.append_nil _⟩
  | succ n ih =>
    by_cases hk : k = n + 1
    · subst hk
      exact ⟨[], List.append_nil _⟩
    · obtain ⟨rest, hrest⟩ := ih (by omega)
      refine ⟨rest ++ pf_strpoly_piece fmt order c n, ?_⟩
      rw [pf_strpoly_text_succ, ← hrest, List.append_assoc]

end ClaimsText

section ClaimsText2
variable {K : Type} [LinearOrderedField K]

/-- The text of `pf_strpoly` starts with the piece of iteration 0. -/
theorem pf_strpoly_text_head (fmt : K → List Char) (n : Nat) (c : Nat → K) (i : Nat)
    (hi : i < (pf_strpoly_piece fmt (n + 1) c 0).length) :
    (pf_strpoly_text fmt (n + 1) c)[i]? = (pf_strpoly_piece fmt (n + 1) c 0)[i]? := by
  obtain ⟨rest, hrest⟩ := pf_strpoly_text_extends fmt (n + 1) c 1 (n + 1) (by omega)
  unfold pf_strpoly_text
  rw [← hrest, pf_strpoly_text_succ]
  show (([] ++ pf_strpoly_piece fmt (n + 1) c 0) ++ rest)[i]? = _
  rw [List.nil_append, List.getElem?_append_left hi]

/-- The text of the specification starts with its term 0. -/
theorem spec_text_head (fmt : K → List Char) (n : Nat) (c : Nat → K) (i : Nat)
    (hi : i < (spec_term fmt (n + 1) c 0).length) :
    (spec_text fmt (n + 1) c)[i]? = (spec_term fmt (n + 1) c 0)[i]? := by
  unfold spec_text
  rw [List.range_succ_eq_map, List.flatMap_cons, List.getElem?_append_left hi]

/-- In a buffer of exactly the length of the text plus one, `pf_strpoly` succeeds and leaves
the text in the buffer. -/
theorem pf_strpoly_exact_fit (fmt : K → List Char) (order : Nat) (c : Nat → K)
    (b0 : Nat → Char) (h1 : 1 ≤ order) (hU : order < UINT_MOD) :
    (pf_strpoly fmt order c (some b0) ((pf_strpoly_text fmt order c).length + 1)).1 =
      (pf_strpoly_text fmt order c).length ∧
    ∃ b, (pf_strpoly fmt order c (some b0) ((pf_strpoly_text fmt order c).length + 1)).2 =
        some b ∧
      ∀ j, j < (pf_strpoly_text fmt order c).length →
        (pf_strpoly_text fmt order c)[j]? = some (b j) := by
  have hne : order ≠ 0 := by omega
  obtain ⟨b, hb1, hb2, _, _⟩ := pf_strpoly_loop_buf fmt order c b0
    ((pf_strpoly_text fmt order c).length + 1) hU (Nat.lt_succ_self _) order le_rfl
  refine ⟨?_, b, ?_, hb2⟩
  · rw [pf_strpoly_ret fmt order c _ _ h1 hU, if_pos (Nat.lt_succ_self _)]
  · unfold pf_strpoly
    simp only [hne, if_false]
    exact hb1

/-- C19 (amended): the text produced by `pf_strpoly`. For every order with
`1 <= order <= 2 ^ 31` (every exponent is one `%d` prints in decimal) and a buffer large
enough, `fmt` being the rendering `%f` of a double: the call returns the length of, and leaves
in the buffer followed by NUL, the concatenation for `i = 0 .. order - 1`, with exponent
`e = order - 1 - i`, of `term_i`, where `term_0` is `fmt(c[0])` and the power suffix, and for
`i >= 1` `term_i` is ` - `, `fmt(-c[i])` and the suffix when `c[i] < 0` and ` + `, `fmt(c[i])`
and the suffix otherwise; the suffix is `x^e` with `e` in decimal when `e >= 2`, `x` when
`e = 1` and empty when `e = 0`. There are exactly `order` terms, whatever the coefficients. -/
theorem pf_strpoly_text_spec (fmt : K → List Char) (order : Nat) (c : Nat → K)
    (b0 : Nat → Char) (len : Nat) (h1 : 1 ≤ order) (ho : order ≤ INT_MOD)
    (hlen : (spec_text fmt order c).length < len) :
    (pf_strpoly fmt order c (some b0) len).1 = (spec_text fmt order c).length ∧
    (∃ b, (pf_strpoly fmt order c (some b0) len).2 = some b ∧
      (∀ i, i < (spec_text fmt order c).length → (spec_text fmt order c)[i]? = some (b i)) ∧
      b (spec_text fmt order c).length = NUL) ∧
    spec_text fmt order c = ((List.range order).map (spec_term fmt order c)).flatten ∧
    ((List.range order).map (spec_term fmt order c)).length = order := by
  have hU : order < UINT_MOD := by
    have : INT_MOD < UINT_MOD := by decide
    omega
  have htext := pf_strpoly_text_eq_spec fmt order c ho
  have hne : order ≠ 0 := by omega
  refine ⟨?_, ?_, ?_, by simp⟩
  · rw [pf_strpoly_ret fmt order c (some b0) len h1 hU, htext, if_pos hlen]
  · obtain ⟨b, hb1, hb2, hb3, _⟩ := pf_strpoly_loop_buf fmt order c b0 len hU
      (by rw [htext]; exact hlen) order le_rfl
    have htext2 : for_loop order (fun i t => t ++ pf_strpoly_piece fmt order c i) [] =
        spec_text fmt order c := htext
    rw [htext2] at hb2 hb3
    refine ⟨b, ?_, hb2, hb3 (by simpa using hne)⟩
    unfold pf_strpoly
    simp only [hne, if_false]
    exact hb1
  · unfold spec_text
    rw [List.flatMap_def]

/-- C19 (amended) at the coefficients `[1, -2, 0, 5]` and a buffer of 64 chars, where the text
is `1/1x^3 - 2/1x^2 + 0/1x + 5/1` for the stand-in rendering of the coefficients. -/
theorem pf_strpoly_text_spec_witness :
    (1 ≤ 4 ∧ 4 ≤ INT_MOD ∧
      (spec_text fmt_frac 4 (fun i => [1, -2, 0, 5].getD i 0)).length < 64) ∧
    ((pf_strpoly fmt_frac 4 (fun i => [1, -2, 0, 5].getD i 0) (some buf_z) 64).1 =
        (spec_text fmt_frac 4 (fun i => [1, -2, 0, 5].getD i 0)).length ∧
      (∃ b, (pf_strpoly fmt_frac 4 (fun i => [1, -2, 0, 5].getD i 0) (some buf_z) 64).2 =
          some b ∧
        (∀ i, i < (spec_text fmt_frac 4 (fun i => [1, -2, 0, 5].getD i 0)).length →
          (spec_text fmt_frac 4 (fun i => [1, -2, 0, 5].getD i 0))[i]? = some (b i)) ∧
        b (spec_text fmt_frac 4 (fun i => [1, -2, 0, 5].getD i 0)).length = NUL) ∧
      spec_text fmt_frac 4 (fun i => [1, -2, 0, 5].getD i 0) =
        ((List.range 4).map (spec_term fmt_frac 4 (fun i => [1, -2, 0, 5].getD i 0))).flatten ∧
      ((List.range 4).map (spec_term fmt_frac 4 (fun i => [1, -2, 0, 5].getD i 0))).length =
        4) ∧
    spec_text fmt_frac 4 (fun i => [1, -2, 0, 5].getD i 0) =
      "1/1x^3 - 2/1x^2 + 0/1x + 5/1".toList :=
  ⟨⟨by decide, by decide, by decide!⟩,
    pf_strpoly_text_spec fmt_frac 4 (fun i => [1, -2, 0, 5].getD i 0) buf_z 64 (by decide)
      (by decide) (by decide!),
    by decide!⟩

/-- C19 fails past `2 ^ 31` terms: with `order = 2 ^ 31 + 1` the first exponent is `2 ^ 31`,
which `%d` reads as an `int`; in a buffer large enough for the text the call succeeds and
leaves `-` at index 5, after `0/1x^`, where the text of the specification has the digit `2`. -/
theorem pf_strpoly_text_spec_counterexample :
    1 ≤ INT_MOD + 1 ∧ INT_MOD + 1 < UINT_MOD ∧
    (pf_strpoly fmt_frac (INT_MOD + 1) coef_zero (some buf_z)
      ((pf_strpoly_text fmt_frac (INT_MOD + 1) coef_zero).length + 1)).1 =
        (pf_strpoly_text fmt_frac (INT_MOD + 1) coef_zero).length ∧
    ∃ b, (pf_strpoly fmt_frac (INT_MOD + 1) coef_zero (some buf_z)
        ((pf_strpoly_text fmt_frac (INT_MOD + 1) coef_zero).length + 1)).2 = some b ∧
      b 5 = Char.ofNat 45 ∧
      (spec_text fmt_frac (INT_MOD + 1) coef_zero)[5]? = some (Char.ofNat 50) := by
  have h1 : 1 ≤ INT_MOD + 1 := by omega
  have hU : INT_MOD + 1 < UINT_MOD := by decide
  have hne : INT_MOD + 1 ≠ 0 := by omega
  have hp : (pf_strpoly_piece fmt_frac (INT_MOD + 1) coef_zero 0)[5]? =
      some (Char.ofNat 45) := by decide!
  have hpl : 5 < (pf_strpoly_piece fmt_frac (INT_MOD + 1) coef_zero 0).length := by decide!
  have hs : (spec_term fmt_frac (INT_MOD + 1) coef_zero 0)[5]? = some (Char.ofNat 50) := by
    decide!
  have hsl : 5 < (spec_term fmt_frac (INT_MOD + 1) coef_zero 0).length := by decide!
  have ht := pf_strpoly_text_head fmt_frac INT_MOD coef_zero 5 hpl
  rw [hp] at ht
  have hlen : 5 < (pf_strpoly_text fmt_frac (INT_MOD + 1) coef_zero).length := by
    by_contra hc
    rw [List.getElem?_eq_none (by omega)] at ht
    exact Option.noConfusion ht
  obtain ⟨hret, b, hb1, hb2⟩ := pf_strpoly_exact_fit fmt_frac (INT_MOD + 1) coef_zero buf_z h1 hU
  refine ⟨h1, hU, hret, b, hb1, ?_, ?_⟩
  · have h5 := hb2 5 hlen
    rw [ht] at h5
    exact (Option.some.inj h5).symm
  · rw [spec_text_head fmt_frac INT_MOD coef_zero 5 hsl]
    exact hs

end ClaimsText2

section Elimination
variable {K : Type} [LinearOrderedField K]
open Finset

/-- The elimination loop is its first `cols` iterations. -/
theorem pf_fit_solve_eq_upto (s : matrix_t K × matrix_t K) :
    pf_fit_solve s = pf_fit_solve_upto s.1.cols s := rfl

theorem pf_fit_solve_upto_succ (k : Nat) (s : matrix_t K × matrix_t K) :
    pf_fit_solve_upto (k + 1) s =
      (pf_fit_solve_upto k s).bind fun t =>
        if matrix_get_val t.1 k k = 0 then none
        else some (pf_fit_eliminate k k (matrix_get_val t.1 k k) t) := rfl

/-- A run of the elimination loop that reaches column `k2` has reached every earlier column. -/
theorem pf_fit_solve_upto_some {k k2 : Nat} {s t2 : matrix_t K × matrix_t K} (hk : k ≤ k2)
    (h : pf_fit_solve_upto k2 s = some t2) : ∃ t, pf_fit_solve_upto k s = some t := by
  induction k2 generalizing t2 with
  | zero =>
    have : k = 0 := by omega
    subst this
    exact ⟨_, h⟩
  | succ m ih =>
    by_cases hkm : k = m + 1
    · subst hkm
      exact ⟨_, h⟩
    · rw [pf_fit_solve_upto_succ] at h
      cases hp : pf_fit_solve_upto m s with
      | none =>
        rw [hp] at h
        exact Option.noConfusion h
      | some t => exact ih (by omega) hp

end Elimination

section System
variable {K : Type} [LinearOrderedField K]
open Finset

/-- The working matrices in terms of the five allocations. -/
theorem pf_fit_system_eq (e : pf_env K) (p : pf_points_t K) (order : Nat)
    (hle : order ≤ p.count) (hm : ∀ k, k < 5 → e.malloc_ok k = true) :
    ∃ mat_at mat_ata mat_atb,
      matrix_transpose e 2 (pf_fit_fill_a p order ((order + UINT_MOD - 1) % UINT_MOD)
        (⟨p.count, order, e.junk 0⟩, [pf_event.alloc 0])).1 = some mat_at ∧
      matrix_product e 3 mat_at (pf_fit_fill_a p order ((order + UINT_MOD - 1) % UINT_MOD)
        (⟨p.count, order, e.junk 0⟩, [pf_event.alloc 0])).1 = some mat_ata ∧
      matrix_product e 4 mat_at (pf_fit_fill_b p
        (matrix_memset0 ⟨p.count, 1, e.junk 1⟩,
          (pf_fit_fill_a p order ((order + UINT_MOD - 1) % UINT_MOD)
            (⟨p.count, order, e.junk 0⟩, [pf_event.alloc 0])).2 ++ [pf_event.alloc 1])).1 =
        some mat_atb ∧
      mat_ata.rows = order ∧ mat_ata.cols = order ∧ mat_atb.rows = order ∧ mat_atb.cols = 1 ∧
      pf_fit_system e p order = some (mat_ata, mat_atb) ∧
      ∀ coef, (pf_fit e (some p) order (some coef)).err =
        match pf_fit_solve (mat_ata, mat_atb) with
        | none => PF_ESOLVE
        | some _ => PF_OK := by
  have hnot : ¬ p.count < order := by omega
  have hA := pf_fit_fill_a_log p order ((order + UINT_MOD - 1) % UINT_MOD)
    ⟨p.count, order, e.junk 0⟩ [pf_event.alloc 0]
  have hB := pf_fit_fill_b_log p (matrix_memset0 ⟨p.count, 1, e.junk 1⟩)
    ((pf_fit_fill_a p order ((order + UINT_MOD - 1) % UINT_MOD)
      (⟨p.count, order, e.junk 0⟩, [pf_event.alloc 0])).2 ++ [pf_event.alloc 1])
  obtain ⟨mat_at, a1, a2, a3⟩ := matrix_transpose_some e 2
    (pf_fit_fill_a p order ((order + UINT_MOD - 1) % UINT_MOD)
      (⟨p.count, order, e.junk 0⟩, [pf_event.alloc 0])).1 (hm 2 (by omega))
  obtain ⟨mat_ata, b1, b2, b3⟩ := matrix_product_some e 3 mat_at
    (pf_fit_fill_a p order ((order + UINT_MOD - 1) % UINT_MOD)
      (⟨p.count, order, e.junk 0⟩, [pf_event.alloc 0])).1 (by rw [a3]) (hm 3 (by omega))
  obtain ⟨mat_atb, c1, c2, c3⟩ := matrix_product_some e 4 mat_at
    (pf_fit_fill_b p (matrix_memset0 ⟨p.count, 1, e.junk 1⟩,
      (pf_fit_fill_a p order ((order + UINT_MOD - 1) % UINT_MOD)
        (⟨p.count, order, e.junk 0⟩, [pf_event.alloc 0])).2 ++ [pf_event.alloc 1])).1
    (by rw [a3, hA.2.1, hB.2.1]; rfl) (hm 4 (by omega))
  refine ⟨mat_at, mat_ata, mat_atb, a1, b1, c1, ?_, ?_, ?_, ?_, ?_, fun coef => ?_⟩
  · rw [b2, a2, hA.2.2]
  · rw [b3, hA.2.2]
  · rw [c2, a2, hA.2.2]
  · rw [c3, hB.2.2]
    rfl
  · simp only [pf_fit_system, hnot, if_false, matrix_raw, matrix_create, MATRIX_ALLOC,
      hm 0 (by omega), hm 1 (by omega), if_true, Option.map_some', a1, b1, c1]
  · simp only [pf_fit, hnot, if_false, matrix_raw, matrix_create, MATRIX_ALLOC,
      hm 0 (by omega), hm 1 (by omega), if_true, Option.map_some', a1, b1, c1]
    cases pf_fit_solve (mat_ata, mat_atb) <;> rfl

end System

section ClaimsElimination
variable {K : Type} [LinearOrderedField K]
open Finset

end ClaimsElimination

section StableBasic
variable {K : Type}

/-- Storing back the value a cell holds changes nothing. -/
theorem matrix_set_val_self (a : matrix_t K) (r c : Nat) (v : K)
    (h : v = matrix_get_val a r c) : matrix_set_val a r c v = a := by
  subst h
  unfold matrix_set_val matrix_get_val
  rw [Function.update_eq_self]

end StableBasic

section Stable
variable {K : Type} [LinearOrderedField K]

/-- The loop over the rows of lines 129-137 in terms of its body. -/
theorem pf_fit_eliminate_eq (c pr : Nat) (prv : K) (s : matrix_t K × matrix_t K) :
    pf_fit_eliminate c pr prv s = for_loop s.1.rows (elim_row c pr prv) s := rfl

theorem elim_row_pivot (c pr : Nat) (prv : K) (s : matrix_t K × matrix_t K) :
    elim_row c pr prv pr s = s := by
  unfold elim_row
  rw [if_pos rfl]

theorem elim_row_other (c pr : Nat) (prv : K) (r : Nat) (s : matrix_t K × matrix_t K)
    (h : r ≠ pr) :
    elim_row c pr prv r s =
      (for_loop s.1.cols (elim_cell r pr (matrix_get_val s.1 r c / prv)) s.1,
        matrix_set_val s.2 r 0
          (matrix_get_val s.2 r 0 - matrix_get_val s.2 pr 0 * (matrix_get_val s.1 r c / prv))) := by
  unfold elim_row
  rw [if_neg h]

/-- With a factor `0` the loop over `c2` changes nothing. -/
theorem elim_cell_zero (r pr : Nat) (a : matrix_t K) (n : Nat) :
    for_loop n (elim_cell r pr 0) a = a := by
  induction n with
  | zero => rfl
  | succ n ih =>
    rw [for_loop_succ, ih]
    exact matrix_set_val_self _ _ _ _ (by rw [mul_zero, sub_zero])

/-- A row whose entry in the pivot column is zero is left as it is. -/
theorem elim_row_zero (c pr r : Nat) (prv : K) (t : matrix_t K × matrix_t K)
    (h : r ≠ pr → matrix_get_val t.1 r c = 0) : elim_row c pr prv r t = t := by
  by_cases hr : r = pr
  · rw [hr, elim_row_pivot]
  · rw [elim_row_other c pr prv r t hr, h hr, zero_div, elim_cell_zero]
    rw [matrix_set_val_self _ _ _ _ (by rw [mul_zero, sub_zero])]

end Stable

section AccumulateBasic
variable {K : Type}

end AccumulateBasic

section Accumulate
variable {K : Type} [LinearOrderedField K]
open Finset

end Accumulate

section PermutationCount
variable {K : Type}

/-- Point sequences with the same multiset of pairs have the same number of points. -/
theorem count_eq_of_perm (p1 p2 : pf_points_t K)
    (hperm : (Multiset.range p1.count).map (fun i => (p1.x i, p1.y i)) =
      (Multiset.range p2.count).map (fun i => (p2.x i, p2.y i))) : p1.count = p2.count := by
  have := congrArg Multiset.card hperm
  simpa using this

end PermutationCount

section Permutation
variable {K : Type} [LinearOrderedField K]
open Finset

/-- A sum over the points is a sum over the multiset of the pairs `(x, y)`. -/
theorem sum_points_eq (p : pf_points_t K) (g : K × K → K) :
    ∑ r in range p.count, g (p.x r, p.y r) =
      (((Multiset.range p.count).map fun i => (p.x i, p.y i)).map g).sum := by
  rw [Multiset.map_map]
  rfl

/-- The Gram matrix depends on the multiset of the points only. -/
theorem gram_perm (p1 p2 : pf_points_t K) (order : Nat)
    (hperm : (Multiset.range p1.count).map (fun i => (p1.x i, p1.y i)) =
      (Multiset.range p2.count).map (fun i => (p2.x i, p2.y i))) :
    gram p1 order = gram p2 order := by
  funext i j
  show ∑ r in range p1.count, (fun q : K × K => q.1 ^ (order - 1 - i) * q.1 ^ (order - 1 - j))
      (p1.x r, p1.y r) =
    ∑ r in range p2.count, (fun q : K × K => q.1 ^ (order - 1 - i) * q.1 ^ (order - 1 - j))
      (p2.x r, p2.y r)
  rw [sum_points_eq p1 (fun q : K × K => q.1 ^ (order - 1 - i) * q.1 ^ (order - 1 - j)),
    sum_points_eq p2 (fun q : K × K => q.1 ^ (order - 1 - i) * q.1 ^ (order - 1 - j)), hperm]

/-- The vector of the normal equations depends on the multiset of the points only. -/
theorem moment_perm (p1 p2 : pf_points_t K) (order : Nat)
    (hperm : (Multiset.range p1.count).map (fun i => (p1.x i, p1.y i)) =
      (Multiset.range p2.count).map (fun i => (p2.x i, p2.y i))) :
    moment p1 order = moment p2 order := by
  funext i
  show ∑ r in range p1.count, (fun q : K × K => q.1 ^ (order - 1 - i) * q.2) (p1.x r, p1.y r) =
    ∑ r in range p2.count, (fun q : K × K => q.1 ^ (order - 1 - i) * q.2) (p2.x r, p2.y r)
  rw [sum_points_eq p1 (fun q : K × K => q.1 ^ (order - 1 - i) * q.2),
    sum_points_eq p2 (fun q : K × K => q.1 ^ (order - 1 - i) * q.2), hperm]

/-- When an allocation fails, validation passed, the call returns `PF_EALLOC` and leaves the
buffer alone. -/
theorem pf_fit_alloc_fail (e : pf_env K) (p : pf_points_t K) (order : Nat) (coef : Nat → K)
    (hnot : ¬ p.count < order) (hm : ¬ ∀ k, k < 5 → e.malloc_ok k = true) :
    (pf_fit e (some p) order (some coef)).err = PF_EALLOC ∧
    (pf_fit e (some p) order (some coef)).coefficients = some coef := by
  rcases pf_fit_cases e p order coef hnot with ⟨h0, h⟩ | ⟨h0, h1, h⟩ | ⟨h0, h1, h2, h⟩ |
    ⟨h0, h1, h2, h3, h⟩ | ⟨h0, h1, h2, h3, h4, h⟩ | ⟨hm2, h⟩ | ⟨hm2, out, _, h⟩
  · rw [h]
    exact ⟨rfl, rfl⟩
  · rw [h]
    exact ⟨rfl, rfl⟩
  · rw [h]
    exact ⟨rfl, rfl⟩
  · rw [h]
    exact ⟨rfl, rfl⟩
  · rw [h]
    exact ⟨rfl, rfl⟩
  · exact absurd hm2 hm
  · exact absurd hm2 hm

/-- With `order = 0` and no failed allocation the call returns `PF_OK` and leaves the buffer
alone. -/
theorem pf_fit_order_zero (e : pf_env K) (p : pf_points_t K) (coef : Nat → K)
    (hm : ∀ k, k < 5 → e.malloc_ok k = true) :
    (pf_fit e (some p) 0 (some coef)).err = PF_OK ∧
    (pf_fit e (some p) 0 (some coef)).coefficients = some coef := by
  obtain ⟨_, ma, mb, _, _, _, _, d2, _, _, _, herr⟩ :=
    pf_fit_system_eq e p 0 (Nat.zero_le _) hm
  have hs : pf_fit_solve (ma, mb) = some (ma, mb) := by
    rw [pf_fit_solve_eq_upto]
    show pf_fit_solve_upto ma.cols (ma, mb) = _
    rw [d2]
    rfl
  have hok : (pf_fit e (some p) 0 (some coef)).err = PF_OK := by
    rw [herr coef, hs]
  obtain ⟨c2, out, hc2, hout, hkeep⟩ := pf_fit_ok_buffer e (some p) 0 (some coef) hok
  have hc3 : coef = c2 := Option.some.inj hc2
  subst hc3
  refine ⟨hok, ?_⟩
  rw [hout]
  congr 1
  funext i
  exact hkeep i (Nat.zero_le i)

/-- The outcome of `pf_fit` is that of the abstract elimination of the normal equations. -/
theorem pf_fit_perm_run (e : pf_env K) (p1 p2 : pf_points_t K) (order : Nat) (coef : Nat → K)
    (hperm : (Multiset.range p1.count).map (fun i => (p1.x i, p1.y i)) =
      (Multiset.range p2.count).map (fun i => (p2.x i, p2.y i)))
    (ho : 1 ≤ order) (hle : order ≤ p1.count) (hr : p1.count * order < UINT_MOD)
    (hm : ∀ k, k < 5 → e.malloc_ok k = true) :
    (pf_fit e (some p1) order (some coef)).err = (pf_fit e (some p2) order (some coef)).err ∧
    (pf_fit e (some p1) order (some coef)).coefficients =
      (pf_fit e (some p2) order (some coef)).coefficients := by
  have hcnt := count_eq_of_perm p1 p2 hperm
  have hcount : p1.count < UINT_MOD := lt_of_le_of_lt (Nat.le_mul_of_pos_right _ ho) hr
  have hg := gram_perm p1 p2 order hperm
  have hmo := moment_perm p1 p2 order hperm
  have r1 := pf_fit_run e p1 order coef hle hcount hr hm
  have r2 := pf_fit_run e p2 order coef (by rw [← hcnt]; exact hle) (by rw [← hcnt]; exact hcount)
    (by rw [← hcnt]; exact hr) hm
  rw [← hg, ← hmo] at r2
  rcases r1 with ⟨a1, a2, a3⟩ | ⟨t, a1, a2, a3⟩
  · rcases r2 with ⟨b1, b2, b3⟩ | ⟨u, b1, _, _⟩
    · exact ⟨a2.trans b2.symm, a3.trans b3.symm⟩
    · rw [a1] at b1
      exact Option.noConfusion b1
  · rcases r2 with ⟨b1, _, _⟩ | ⟨u, b1, b2, b3⟩
    · rw [a1] at b1
      exact Option.noConfusion b1
    · rw [a1] at b1
      have := Option.some.inj b1
      subst this
      exact ⟨a2.trans b2.symm, a3.trans b3.symm⟩

end Permutation

section WrapSwap
open Finset

/-- On `points_wrap_swap` the product of the wrapped `mat_at` and `mat_a` is
`wrap_swap_ata`. -/
theorem wrap_swap_ata_eq (i : Nat) (hi : i < 3) (j : Nat) (hj : j < 3) :
    ∑ l in range points_wrap_swap.count,
      wrap_transpose points_wrap_swap i l * wrap_design points_wrap_swap l j =
      wrap_swap_ata i j := by
  rw [sum_range_thin points_wrap_swap.count (by decide) _ ((0 : ℚ) ^ (2 - i) * 0 ^ (2 - j))
    (fun l h3 _ => ?_)]
  · have e : (((points_wrap_swap.count - 3 : Nat)) : ℚ) = 1431655763 := by
      simp [points_wrap_swap, wrap_count]
    rw [e]
    interval_cases i <;> interval_cases j <;>
      norm_num [wrap_transpose, wrap_design, points_wrap_swap, wrap_count, wrap_swap_ata]
  · have h0 : l ≠ 0 := by omega
    have h1 : l ≠ 1 := by omega
    simp [wrap_transpose, wrap_design, points_wrap_swap, h0, h1]

/-- On `points_wrap_swap` the product of the wrapped `mat_at` and `mat_b` is
`wrap_swap_atb`. -/
theorem wrap_swap_atb_eq (i : Nat) (hi : i < 3) :
    ∑ l in range points_wrap_swap.count,
      wrap_transpose points_wrap_swap i l * points_wrap_swap.y l = wrap_swap_atb i := by
  rw [sum_range_thin points_wrap_swap.count (by decide) _ (0 : ℚ) (fun l h3 _ => ?_)]
  · interval_cases i <;>
      norm_num [wrap_transpose, wrap_design, points_wrap_swap, wrap_count, wrap_swap_atb]
  · have h1 : l ≠ 1 := by omega
    simp [points_wrap_swap, h1]

/-- The outcome of `pf_fit` on `points_wrap_swap` with `order = 3`: the first pivot is the
cell the last row overwrote, which holds 0, and the call returns `PF_ESOLVE`. -/
theorem pf_fit_wrap_swap :
    (pf_fit env_ok (some points_wrap_swap) 3 (some coef_zero)).err = PF_ESOLVE := by
  have hs : (gj_solve 3 (wrap_swap_ata, wrap_swap_atb)).isSome = false := by decide!
  rcases pf_fit_wrap_run env_ok points_wrap_swap coef_zero rfl (fun _ _ => rfl)
    wrap_swap_ata wrap_swap_atb wrap_swap_ata_eq wrap_swap_atb_eq with ⟨_, h2, _⟩ | ⟨t, h1, _, _⟩
  · exact h2
  · rw [h1] at hs
    exact Bool.noConfusion hs

/-- Exchanging the first two points of `points_wrap_two` gives `points_wrap_swap`, a sequence
with the same multiset of points. -/
theorem points_wrap_swap_perm :
    (∀ i, points_wrap_swap.x i = points_wrap_two.x (Equiv.swap 0 1 i) ∧
      points_wrap_swap.y i = points_wrap_two.y (Equiv.swap 0 1 i)) ∧
    points_wrap_two.count = points_wrap_swap.count ∧
    (Multiset.range points_wrap_two.count).map
        (fun i => (points_wrap_two.x i, points_wrap_two.y i)) =
      (Multiset.range points_wrap_swap.count).map
        (fun i => (points_wrap_swap.x i, points_wrap_swap.y i)) := by
  have hpt : ∀ i, points_wrap_swap.x i = points_wrap_two.x (Equiv.swap 0 1 i) ∧
      points_wrap_swap.y i = points_wrap_two.y (Equiv.swap 0 1 i) := by
    intro i
    by_cases h0 : i = 0
    · subst h0
      simp [points_wrap_swap, points_wrap_two]
    by_cases h1 : i = 1
    · subst h1
      simp [points_wrap_swap, points_wrap_two]
    rw [Equiv.swap_apply_of_ne_of_ne h0 h1]
    simp [points_wrap_swap, points_wrap_two, h0, h1]
  refine ⟨hpt, rfl, ?_⟩
  have hfun : (fun i => (points_wrap_swap.x i, points_wrap_swap.y i)) =
      (fun i => (points_wrap_two.x i, points_wrap_two.y i)) ∘ (Equiv.swap 0 1 : Equiv.Perm Nat) := by
    funext i
    show (points_wrap_swap.x i, points_wrap_swap.y i) = _
    rw [(hpt i).1, (hpt i).2]
    rfl
  have hrange : (Multiset.range wrap_count).map (Equiv.swap 0 1 : Equiv.Perm Nat) =
      Multiset.range wrap_count := by
    have hm : (Finset.range wrap_count).map (Equiv.swap 0 1 : Equiv.Perm Nat).toEmbedding =
        Finset.range wrap_count := by
      refine Finset.map_perm (fun a ha => ?_)
      have ha2 : (Equiv.swap 0 1 : Equiv.Perm Nat) a ≠ a := ha
      have : a = 0 ∨ a = 1 := by
        by_contra hc
        rw [not_or] at hc
        exact ha2 (Equiv.swap_apply_of_ne_of_ne hc.1 hc.2)
      have hw : 1 < wrap_count := by rw [wrap_count_eq]; decide
      rcases this with rfl | rfl
      · exact Finset.mem_coe.2 (Finset.mem_range.2 (by omega))
      · exact Finset.mem_coe.2 (Finset.mem_range.2 hw)
    have := congrArg Finset.val hm
    rwa [Finset.map_val] at this
  show (Multiset.range wrap_count).map _ = (Multiset.range wrap_count).map _
  rw [hfun, ← Multiset.map_map, hrange]

end WrapSwap

section ClaimsPermutation
variable {K : Type} [LinearOrderedField K]

/-- C21 (amended): independence of sample order, in exact arithmetic. For every order and every
two point sequences with the same multiset of `(x, y)` pairs and `count * order < 2 ^ 32` (the
flat index of the design matrix does not wrap), run against the same allocator and the same
coefficient buffer, `pf_fit` returns the same status code on both and leaves the same
coefficients: those it wrote when the status is `PF_OK`, the caller's otherwise. -/
theorem pf_fit_permutation (e : pf_env K) (p1 p2 : pf_points_t K) (order : Nat)
    (coefficients : Option (Nat → K))
    (hperm : (Multiset.range p1.count).map (fun i => (p1.x i, p1.y i)) =
      (Multiset.range p2.count).map (fun i => (p2.x i, p2.y i)))
    (hr : p1.count * order < UINT_MOD) :
    (pf_fit e (some p1) order coefficients).err = (pf_fit e (some p2) order coefficients).err ∧
    ((pf_fit e (some p1) order coefficients).err = PF_OK →
      (pf_fit e (some p1) order coefficients).coefficients =
        (pf_fit e (some p2) order coefficients).coefficients) ∧
    (pf_fit e (some p1) order coefficients).coefficients =
      (pf_fit e (some p2) order coefficients).coefficients := by
  have hcnt := count_eq_of_perm p1 p2 hperm
  have key : (pf_fit e (some p1) order coefficients).err =
      (pf_fit e (some p2) order coefficients).err ∧
      (pf_fit e (some p1) order coefficients).coefficients =
        (pf_fit e (some p2) order coefficients).coefficients := by
    rcases coefficients with _ | coef
    · exact ⟨rfl, rfl⟩
    by_cases hlt : p1.count < order
    · have hlt2 : p2.count < order := by rw [← hcnt]; exact hlt
      simp [pf_fit, hlt, hlt2]
    have hlt2 : ¬ p2.count < order := by rw [← hcnt]; exact hlt
    by_cases hm : ∀ k, k < 5 → e.malloc_ok k = true
    · by_cases ho : order = 0
      · subst ho
        obtain ⟨a1, a2⟩ := pf_fit_order_zero e p1 coef hm
        obtain ⟨b1, b2⟩ := pf_fit_order_zero e p2 coef hm
        exact ⟨a1.trans b1.symm, a2.trans b2.symm⟩
      · exact pf_fit_perm_run e p1 p2 order coef hperm (by omega) (by omega) hr hm
    · obtain ⟨a1, a2⟩ := pf_fit_alloc_fail e p1 order coef hlt hm
      obtain ⟨b1, b2⟩ := pf_fit_alloc_fail e p2 order coef hlt2 hm
      exact ⟨a1.trans b1.symm, a2.trans b2.symm⟩
  exact ⟨key.1, fun _ => key.2, key.2⟩

/-- C21 (amended) on the points `(0,3), (5,4), (-1,8)` and the same points in the order
`(5,4), (-1,8), (0,3)`, with `order = 2`. -/
theorem pf_fit_permutation_witness :
    ((Multiset.range points_three.count).map (fun i => (points_three.x i, points_three.y i)) =
      (Multiset.range points_three_perm.count).map
        (fun i => (points_three_perm.x i, points_three_perm.y i)) ∧
      points_three.count * 2 < UINT_MOD) ∧
    ((pf_fit env_ok (some points_three) 2 (some coef_zero)).err =
        (pf_fit env_ok (some points_three_perm) 2 (some coef_zero)).err ∧
      ((pf_fit env_ok (some points_three) 2 (some coef_zero)).err = PF_OK →
        (pf_fit env_ok (some points_three) 2 (some coef_zero)).coefficients =
          (pf_fit env_ok (some points_three_perm) 2 (some coef_zero)).coefficients) ∧
      (pf_fit env_ok (some points_three) 2 (some coef_zero)).coefficients =
        (pf_fit env_ok (some points_three_perm) 2 (some coef_zero)).coefficients) ∧
    (pf_fit env_ok (some points_three) 2 (some coef_zero)).err = PF_OK :=
  ⟨⟨by decide!, by decide⟩,
    pf_fit_permutation env_ok points_three points_three_perm 2 (some coef_zero) (by decide!)
      (by decide),
    by decide!⟩

/-- C21 fails past `2 ^ 32` cells: the `wrap_count` points `(0,1), (2,0), (0,0), ...` and the
same points with the first two exchanged are permutations of each other, yet with `order = 3`
the first cells of the design matrix hold what the last row stored there, and `pf_fit` returns
`PF_OK` on the first sequence and `PF_ESOLVE` on the second. -/
theorem pf_fit_permutation_counterexample :
    (Multiset.range points_wrap_two.count).map
        (fun i => (points_wrap_two.x i, points_wrap_two.y i)) =
      (Multiset.range points_wrap_swap.count).map
        (fun i => (points_wrap_swap.x i, points_wrap_swap.y i)) ∧
    (∀ i, points_wrap_swap.x i = points_wrap_two.x (Equiv.swap 0 1 i) ∧
      points_wrap_swap.y i = points_wrap_two.y (Equiv.swap 0 1 i)) ∧
    (pf_fit env_ok (some points_wrap_two) 3 (some coef_zero)).err = PF_OK ∧
    (pf_fit env_ok (some points_wrap_swap) 3 (some coef_zero)).err = PF_ESOLVE ∧
    (pf_fit env_ok (some points_wrap_two) 3 (some coef_zero)).err ≠
      (pf_fit env_ok (some points_wrap_swap) 3 (some coef_zero)).err := by
  refine ⟨points_wrap_swap_perm.2.2, points_wrap_swap_perm.1, pf_fit_wrap_two.1,
    pf_fit_wrap_swap, ?_⟩
  rw [pf_fit_wrap_two.1, pf_fit_wrap_swap]
  decide

end ClaimsPermutation

section ProductBasic
variable {K : Type} [LinearOrderedField K]

end ProductBasic

section SystemBuffer
variable {K : Type} [LinearOrderedField K]

/-- The status and the buffer `pf_fit` returns once its arguments pass validation and its five
allocations succeed, in terms of the working matrices the elimination loop is entered with. -/
theorem pf_fit_system_buffer (e : pf_env K) (p : pf_points_t K) (order : Nat)
    (hle : order ≤ p.count) (hm : ∀ k, k < 5 → e.malloc_ok k = true) :
    ∃ s, pf_fit_system e p order = some s ∧
      ∀ coef, (pf_fit e (some p) order (some coef)).err =
          (match pf_fit_solve s with
          | none => PF_ESOLVE
          | some _ => PF_OK) ∧
        (pf_fit e (some p) order (some coef)).coefficients =
          match pf_fit_solve s with
          | none => some coef
          | some fin => some fun i =>
              if i < order then matrix_get_val (pf_fit_normalise fin).2 i 0 else coef i := by
  obtain ⟨mat_at, mat_ata, mat_atb, hAt, hAtA, hAtB, _, _, _, _, hsys, herr⟩ :=
    pf_fit_system_eq e p order hle hm
  have hnot : ¬ p.count < order := by omega
  refine ⟨(mat_ata, mat_atb), hsys, fun coef => ⟨herr coef, ?_⟩⟩
  simp only [pf_fit, hnot, if_false, matrix_raw, matrix_create, MATRIX_ALLOC,
    hm 0 (by omega), hm 1 (by omega), if_true, Option.map_some', hAt, hAtA, hAtB]
  cases pf_fit_solve (mat_ata, mat_atb) with
  | none => rfl
  | some s => simp only [pf_fit_copy_fst]

end SystemBuffer

section ClaimsAtomicValues
variable {K : Type} [LinearOrderedField K]

/-- C20: atomicity of `pf_fit` on failure. For every input, if `pf_fit` returns anything other
than `PF_OK` the caller's coefficient buffer is exactly as it was and no coefficient was
stored; if it returns `PF_OK` the buffer was present, each of the cells `0 .. order - 1` was
stored to once, no other cell was stored to, the cells from `order` on are as they were, and
each cell `i < order` holds the entry `(i, 0)` of `mat_atb` as the normalisation loop left
it. -/
theorem pf_fit_atomic (e : pf_env K) (points : Option (pf_points_t K)) (order : Nat)
    (coefficients : Option (Nat → K)) :
    ((pf_fit e points order coefficients).err ≠ PF_OK →
      (pf_fit e points order coefficients).coefficients = coefficients ∧
      ∀ i, pf_event.store i ∉ (pf_fit e points order coefficients).log) ∧
    ((pf_fit e points order coefficients).err = PF_OK →
      (∃ coef out, coefficients = some coef ∧
        (pf_fit e points order coefficients).coefficients = some out ∧
        ∀ i, order ≤ i → out i = coef i) ∧
      (∀ i, i < order →
        (pf_fit e points order coefficients).log.count (pf_event.store i) = 1) ∧
      (∀ i, pf_event.store i ∈ (pf_fit e points order coefficients).log → i < order) ∧
      ∃ p s fin out, points = some p ∧ pf_fit_system e p order = some s ∧
        pf_fit_solve s = some fin ∧
        (pf_fit e points order coefficients).coefficients = some out ∧
        ∀ i, i < order → out i = matrix_get_val (pf_fit_normalise fin).2 i 0) := by
  refine ⟨fun hne => ⟨((pf_fit_stores e points order coefficients 0).1 hne).1, fun i =>
    List.count_eq_zero.1 ((pf_fit_stores e points order coefficients i).1 hne).2⟩,
    fun hok => ⟨pf_fit_ok_buffer e points order coefficients hok, fun i hi => ?_,
      fun i hi => ?_, ?_⟩⟩
  · rw [(pf_fit_stores e points order coefficients i).2 hok, if_pos hi]
  · by_contra hge
    have h0 := (pf_fit_stores e points order coefficients i).2 hok
    rw [if_neg hge] at h0
    exact List.count_eq_zero.1 h0 hi
  · obtain ⟨p, coef, rfl, rfl, hle, hm⟩ := pf_fit_ok_inv e points order coefficients hok
    obtain ⟨s, hsys, hbuf⟩ := pf_fit_system_buffer e p order hle hm
    obtain ⟨herr, hcoef⟩ := hbuf coef
    cases hsol : pf_fit_solve s with
    | none =>
      rw [hsol] at herr
      rw [herr] at hok
      exact absurd (show PF_ESOLVE = PF_OK from hok) (by decide)
    | some fin =>
      rw [hsol] at hcoef
      refine ⟨p, s, fin, _, rfl, hsys, hsol, hcoef, fun i hi => ?_⟩
      simp only [hi, if_true]

end ClaimsAtomicValues

section EvalOpsLemmas
variable {K : Type}

/-- The loop of `pf_eval` reads no coefficient beyond the index it is entered with. -/
theorem pf_eval_loop_ops_congr (mul add : K → K → K) (c c2 : Nat → K) (x : K) (i : Nat)
    (h : ∀ j, j ≤ i → c2 j = c j) (q n : K) :
    pf_eval_loop_ops mul add c2 x i q n = pf_eval_loop_ops mul add c x i q n := by
  induction i generalizing q n with
  | zero => simp only [pf_eval_loop_ops, h 0 le_rfl]
  | succ i ih =>
    simp only [pf_eval_loop_ops, h (i + 1) le_rfl]
    exact ih (fun j hj => h j (by omega)) _ _

/-- In whatever arithmetic, `pf_eval` reads no coefficient outside `[0, order)`. -/
theorem pf_eval_ops_congr (mul add : K → K → K) (zero one : K) (order : Nat) (c c2 : Nat → K)
    (x : K) (h : ∀ i, i < order → c2 i = c i) :
    pf_eval_ops mul add zero one order c2 x = pf_eval_ops mul add zero one order c x := by
  unfold pf_eval_ops
  by_cases h0 : order = 0
  · simp only [h0, if_true]
  · by_cases h1 : order = 1
    · simp only [h1, if_true, h0, if_false]
      exact h 0 (by omega)
    · simp only [h0, h1, if_false]
      rw [h (order - 1) (by omega)]
      exact pf_eval_loop_ops_congr mul add c c2 x (order - 2) (fun j hj => h j (by omega)) _ _

end EvalOpsLemmas

section ClaimsEval
variable {K : Type} [LinearOrderedField K]
open Finset

/-- With the product and the sum of a field the loop of `pf_eval` is `pf_eval_loop`. -/
theorem pf_eval_loop_ops_exact (c : Nat → K) (x : K) (i : Nat) (q n : K) :
    pf_eval_loop_ops (fun a b => a * b) (fun a b => a + b) c x i q n =
      pf_eval_loop c x i q n := by
  induction i generalizing q n with
  | zero => rfl
  | succ i ih =>
    simp only [pf_eval_loop_ops, pf_eval_loop]
    exact ih _ _

/-- With the product and the sum of a field `pf_eval_ops` is `pf_eval`. -/
theorem pf_eval_ops_exact (order : Nat) (c : Nat → K) (x : K) :
    pf_eval_ops (fun a b => a * b) (fun a b => a + b) 0 1 order c x = pf_eval order c x := by
  unfold pf_eval_ops pf_eval
  simp only [pf_eval_loop_ops_exact]

/-- C8 (amended): for every order `>= 0`, coefficient array and `x`, `pf_eval` (a total
function: its loop counts `i` down to 0) returns, in exact arithmetic, the value of the
polynomial with the coefficients listed from the highest degree down,
`sum for i in [0, order) of c[i] * x^(order-1-i)`, which is the Horner nested form; in exact
arithmetic and in any other (whatever the product and the sum of `double` are) it returns 0
for `order = 0` and `c[0]` for `order = 1`, and its value depends on no coefficient outside
`[0, order)`. -/
theorem pf_eval_spec (order : Nat) (c : Nat → K) (x : K) :
    pf_eval order c x = ∑ i in range order, c i * x ^ (order - 1 - i) ∧
    pf_eval order c x = horner order c x ∧
    pf_eval 0 c x = 0 ∧
    pf_eval 1 c x = c 0 ∧
    (∀ c2 : Nat → K, (∀ i, i < order → c2 i = c i) →
      pf_eval order c2 x = pf_eval order c x) ∧
    pf_eval_ops (fun a b => a * b) (fun a b => a + b) 0 1 order c x = pf_eval order c x ∧
    ∀ (mul add : K → K → K) (zero one : K),
      pf_eval_ops mul add zero one 0 c x = zero ∧
      pf_eval_ops mul add zero one 1 c x = c 0 ∧
      ∀ c2 : Nat → K, (∀ i, i < order → c2 i = c i) →
        pf_eval_ops mul add zero one order c2 x = pf_eval_ops mul add zero one order c x := by
  refine ⟨pf_eval_eq_sum order c x, ?_, by simp [pf_eval], by simp [pf_eval], fun c2 h => ?_,
    pf_eval_ops_exact order c x, fun mul add zero one => ⟨by simp [pf_eval_ops],
      by simp [pf_eval_ops], fun c2 h => pf_eval_ops_congr mul add zero one order c c2 x h⟩⟩
  · rw [pf_eval_eq_sum, horner_eq_sum]
  · rw [pf_eval_eq_sum, pf_eval_eq_sum]
    exact Finset.sum_congr rfl fun i hi => by rw [h i (Finset.mem_range.1 hi)]

end ClaimsEval

section ClaimsEvalConcrete
open Finset

/-- C8 (amended) at the coefficients `[1, 0, 1]` and `x = 4`. -/
theorem pf_eval_spec_witness :
    pf_eval 3 (fun i => [(1 : ℚ), 0, 1].getD i 0) 4 = 17 ∧
    pf_eval 3 (fun i => [(1 : ℚ), 0, 1].getD i 0) 4 =
      ∑ i in range 3, (fun i => [(1 : ℚ), 0, 1].getD i 0) i * 4 ^ (3 - 1 - i) ∧
    pf_eval 3 (fun i => [(1 : ℚ), 0, 1].getD i 0) 4 =
      horner 3 (fun i => [(1 : ℚ), 0, 1].getD i 0) 4 :=
  ⟨by decide!, (pf_eval_spec 3 (fun i => [(1 : ℚ), 0, 1].getD i 0) 4).1,
    (pf_eval_spec 3 (fun i => [(1 : ℚ), 0, 1].getD i 0) 4).2.1⟩

/-- C8 fails in the arithmetic of `double`: with the coefficients `[1, 1, 2 ^ 53]` and
`x = 1`, all of them values of type `double`, `pf_eval` adds `1` to `2 ^ 53` twice and each sum
rounds back to `2 ^ 53`, so it returns `2 ^ 53`, while the polynomial and its Horner form have
the value `2 ^ 53 + 2`. -/
theorem pf_eval_spec_counterexample :
    (∀ i, i < 3 → double_round (coef_round i) = coef_round i) ∧
    double_round 1 = 1 ∧
    double_add 9007199254740992 1 = 9007199254740992 ∧
    pf_eval_ops double_mul double_add 0 1 3 coef_round 1 = 9007199254740992 ∧
    ∑ i in range 3, coef_round i * 1 ^ (3 - 1 - i) = 9007199254740994 ∧
    horner 3 coef_round 1 = 9007199254740994 ∧
    pf_eval_ops double_mul double_add 0 1 3 coef_round 1 ≠
      ∑ i in range 3, coef_round i * 1 ^ (3 - 1 - i) := by
  have hsum : ∑ i in range 3, coef_round i * 1 ^ (3 - 1 - i) = 9007199254740994 := by
    simp only [Finset.sum_range_succ, Finset.sum_range_zero, coef_round]
    norm_num
  have hval : pf_eval_ops double_mul double_add 0 1 3 coef_round 1 = 9007199254740992 := by
    decide!
  refine ⟨by decide!, by decide!, by decide!, hval, hsum, ?_, ?_⟩
  · rw [horner_eq_sum, hsum]
  · rw [hval, hsum]
    norm_num

end ClaimsEvalConcrete

section RowOpsBasic
variable {K : Type}

/-- The flat index depends on the matrix through its number of columns only. -/
theorem matrix_idx_congr (a b : matrix_t K) (h : a.cols = b.cols) (r c : Nat) :
    matrix_idx a r c = matrix_idx b r c := by
  unfold matrix_idx
  rw [h]

end RowOpsBasic

section RowOps
variable {K : Type} [LinearOrderedField K]

/-- The loop over `c2` of line 134 keeps the dimensions. -/
theorem elim_cell_loop_dims (r pr : Nat) (f : K) (a : matrix_t K) (k : Nat) :
    (for_loop k (elim_cell r pr f) a).rows = a.rows ∧
      (for_loop k (elim_cell r pr f) a).cols = a.cols :=
  for_loop_dims k _ a (fun _ _ => ⟨rfl, rfl⟩)

/-- The loop over `c2` of line 134 leaves a cell that is none of the cells of row `r`. -/
theorem elim_cell_loop_frame (r pr : Nat) (f : K) (a : matrix_t K) (k g : Nat)
    (h : ∀ c2, c2 < k → matrix_idx a r c2 ≠ g) :
    (for_loop k (elim_cell r pr f) a).data g = a.data g := by
  induction k with
  | zero => rfl
  | succ k ih =>
    rw [for_loop_succ]
    show Function.update _ (matrix_idx (for_loop k (elim_cell r pr f) a) r k) _ g = _
    rw [matrix_idx_congr _ a (elim_cell_loop_dims r pr f a k).2,
      Function.update_noteq (fun e => h k (Nat.lt_succ_self k) e.symm)]
    exact ih (fun c2 hc2 => h c2 (by omega))

/-- The loop over `c2` of line 134 subtracts from the cell `(r, c0)` the pivot-row cell
`(pr, c0)` times the factor, when no other column of row `r` has the flat index of `(r, c0)`
and no earlier one that of `(pr, c0)`. -/
theorem elim_cell_loop_at (r pr : Nat) (f : K) (a : matrix_t K) (k c0 : Nat) (hc0 : c0 < k)
    (huniq : ∀ c2, c2 < k → c2 ≠ c0 → matrix_idx a r c2 ≠ matrix_idx a r c0)
    (hpiv : ∀ c2, c2 < c0 → matrix_idx a r c2 ≠ matrix_idx a pr c0) :
    (for_loop k (elim_cell r pr f) a).data (matrix_idx a r c0) =
      a.data (matrix_idx a r c0) - a.data (matrix_idx a pr c0) * f := by
  induction k with
  | zero => exact absurd hc0 (Nat.not_lt_zero _)
  | succ k ih =>
    rw [for_loop_succ]
    have hcols := (elim_cell_loop_dims r pr f a k).2
    have hfr := fun g (h : ∀ c2, c2 < k → matrix_idx a r c2 ≠ g) =>
      elim_cell_loop_frame r pr f a k g h
    generalize for_loop k (elim_cell r pr f) a = S at hcols hfr ih
    show Function.update S.data (matrix_idx S r k)
      (S.data (matrix_idx S r k) - S.data (matrix_idx S pr k) * f) (matrix_idx a r c0) = _
    rw [matrix_idx_congr S a hcols, matrix_idx_congr S a hcols]
    by_cases hk : c0 = k
    · subst hk
      rw [Function.update_same,
        hfr _ (fun c2 hc2 => huniq c2 (by omega) (by omega)), hfr _ hpiv]
    · rw [Function.update_noteq (fun e => huniq k (Nat.lt_succ_self k) (fun e2 => hk e2.symm)
        e.symm)]
      exact ih (by omega) (fun c2 hc2 hne => huniq c2 (by omega) hne)

/-- The row loop body keeps the dimensions of `mat_ata`. -/
theorem elim_row_dims (c pr : Nat) (prv : K) (r : Nat) (s : matrix_t K × matrix_t K) :
    (elim_row c pr prv r s).1.rows = s.1.rows ∧ (elim_row c pr prv r s).1.cols = s.1.cols := by
  by_cases h : r = pr
  · rw [h, elim_row_pivot]
    exact ⟨rfl, rfl⟩
  · rw [elim_row_other c pr prv r s h]
    exact elim_cell_loop_dims r pr _ s.1 s.1.cols

/-- The row loop body leaves a cell that is none of the cells of row `r`. -/
theorem elim_row_frame (c pr : Nat) (prv : K) (r : Nat) (s : matrix_t K × matrix_t K) (g : Nat)
    (h : ∀ c2, c2 < s.1.cols → matrix_idx s.1 r c2 ≠ g) :
    (elim_row c pr prv r s).1.data g = s.1.data g := by
  by_cases hr : r = pr
  · rw [hr, elim_row_pivot]
  · rw [elim_row_other c pr prv r s hr]
    exact elim_cell_loop_frame r pr _ s.1 s.1.cols g h

end RowOps

section FoldIdx
variable {K : Type}

/-- The flat index in a matrix of `2 ^ 17` columns: rows `2 ^ 15` apart share their cells. -/
theorem fold_idx (a : matrix_t K) (h : a.cols = 131072) (r c : Nat) (hc : c < 131072) :
    matrix_idx a r c = r % 32768 * 131072 + c := by
  unfold matrix_idx UINT_MOD
  rw [h]
  omega

end FoldIdx

section FoldRows
variable {K : Type} [LinearOrderedField K]

/-- A row operation keeps row 0 zero: a row that shares the cells of row 0 has a zero entry in
the pivot column, and the cells of any other row lie further on. -/
theorem fold_zero_row (c pr : Nat) (prv : K) (r : Nat) (t : matrix_t K × matrix_t K)
    (hc : c < 131072) (h : fold_zero t.1) : fold_zero (elim_row c pr prv r t).1 := by
  obtain ⟨h1, h2, h3⟩ := h
  by_cases hr : r % 32768 = 0
  · have hz : matrix_get_val t.1 r c = 0 := by
      unfold matrix_get_val
      rw [fold_idx t.1 h2 r c hc, hr]
      exact h3 _ (by omega)
    rw [elim_row_zero c pr r prv t (fun _ => hz)]
    exact ⟨h1, h2, h3⟩
  · refine ⟨(elim_row_dims c pr prv r t).1.trans h1, (elim_row_dims c pr prv r t).2.trans h2,
      fun f hf => ?_⟩
    rw [elim_row_frame c pr prv r t f (fun c2 hc2 => ?_)]
    · exact h3 f hf
    · rw [h2] at hc2
      rw [fold_idx t.1 h2 r c2 hc2]
      have : 1 ≤ r % 32768 := by omega
      omega

/-- The elimination of a column keeps row 0 zero. -/
theorem fold_zero_eliminate (c pr : Nat) (prv : K) (t : matrix_t K × matrix_t K)
    (hc : c < 131072) (h : fold_zero t.1) : fold_zero (pf_fit_eliminate c pr prv t).1 := by
  rw [pf_fit_eliminate_eq]
  exact for_loop_induction (fun _ (u : matrix_t K × matrix_t K) => fold_zero u.1) t.1.rows
    (elim_row c pr prv) t h (fun r _ u hu => fold_zero_row c pr prv r u hc hu)

/-- The row operation on a row that shares the cells of the pivot row, with the factor 1,
leaves zeros in the cells it has gone through. -/
theorem fold_self_loop (r pr : Nat) (a : matrix_t K) (h : a.cols = 131072)
    (hr : r % 32768 = pr % 32768) (k : Nat) (hk : k ≤ 131072) (f : Nat) (hf : f < k) :
    (for_loop k (elim_cell r pr 1) a).data (pr % 32768 * 131072 + f) = 0 := by
  have e := elim_cell_loop_at r pr 1 a k f hf
    (fun c2 hc2 hne => by
      rw [fold_idx a h r c2 (by omega), fold_idx a h r f (by omega)]
      omega)
    (fun c2 hc2 => by
      rw [fold_idx a h r c2 (by omega), fold_idx a h pr f (by omega), hr]
      omega)
  rw [fold_idx a h r f (by omega), fold_idx a h pr f (by omega), hr, mul_one, sub_self] at e
  exact e

/-- The rows of the elimination of column 0, one prefix after the other: the pivot cell is as
it was up to row `2 ^ 15`, which shares the cells of row 0 and leaves them zero. -/
theorem fold_first_rows (s : matrix_t K × matrix_t K) (h1 : s.1.rows = 131072)
    (h2 : s.1.cols = 131072) (hp : s.1.data 0 ≠ 0) (k : Nat) (hk : k ≤ 131072) :
    (for_loop k (elim_row 0 0 (s.1.data 0)) s).1.rows = 131072 ∧
    (for_loop k (elim_row 0 0 (s.1.data 0)) s).1.cols = 131072 ∧
    (k ≤ 32768 → (for_loop k (elim_row 0 0 (s.1.data 0)) s).1.data 0 = s.1.data 0) ∧
    (32768 < k → fold_zero (for_loop k (elim_row 0 0 (s.1.data 0)) s).1) := by
  induction k with
  | zero => exact ⟨h1, h2, fun _ => rfl, fun h => absurd h (by omega)⟩
  | succ k ih =>
    obtain ⟨d1, d2, a1, a2⟩ := ih (by omega)
    rw [for_loop_succ]
    generalize for_loop k (elim_row 0 0 (s.1.data 0)) s = t at d1 d2 a1 a2
    refine ⟨(elim_row_dims 0 0 _ k t).1.trans d1, (elim_row_dims 0 0 _ k t).2.trans d2,
      fun hle => ?_, fun hlt => ?_⟩
    · by_cases hk0 : k = 0
      · subst hk0
        rw [elim_row_pivot]
        exact a1 (by omega)
      · rw [elim_row_frame 0 0 _ k t 0 (fun c2 hc2 => ?_)]
        · exact a1 (by omega)
        · rw [d2] at hc2
          rw [fold_idx t.1 d2 k c2 hc2]
          have : k % 32768 = k := Nat.mod_eq_of_lt (by omega)
          omega
    · by_cases hkk : k = 32768
      · subst hkk
        have hfac : matrix_get_val t.1 32768 0 / s.1.data 0 = 1 := by
          unfold matrix_get_val
          rw [fold_idx t.1 d2 32768 0 (by omega), a1 le_rfl]
          exact div_self hp
        rw [elim_row_other 0 0 _ 32768 t (by omega), hfac]
        refine ⟨(elim_cell_loop_dims _ _ _ _ _).1.trans d1,
          (elim_cell_loop_dims _ _ _ _ _).2.trans d2, fun f hf => ?_⟩
        have e := fold_self_loop 32768 0 t.1 d2 (by decide) t.1.cols (by omega) f
          (by omega)
        simpa using e
      · exact fold_zero_row 0 0 _ k t (by omega) (a2 (by omega))

end FoldRows

section FoldSolve
variable {K : Type} [LinearOrderedField K]

/-- Once column 0 has been processed, row 0 of a matrix of order `2 ^ 17` is zero. -/
theorem fold_upto (s : matrix_t K × matrix_t K) (h1 : s.1.rows = 131072)
    (h2 : s.1.cols = 131072) (k : Nat) (hk : k < 131072) (t : matrix_t K × matrix_t K)
    (ht : pf_fit_solve_upto (k + 1) s = some t) : fold_zero t.1 := by
  induction k generalizing t with
  | zero =>
    rw [pf_fit_solve_upto_succ] at ht
    have h0 : pf_fit_solve_upto 0 s = some s := rfl
    rw [h0] at ht
    simp only [Option.some_bind] at ht
    by_cases hp : matrix_get_val s.1 0 0 = 0
    · rw [if_pos hp] at ht
      exact Option.noConfusion ht
    · rw [if_neg hp] at ht
      have e := Option.some.inj ht
      subst e
      have hidx : matrix_get_val s.1 0 0 = s.1.data 0 := by
        unfold matrix_get_val
        rw [fold_idx s.1 h2 0 0 (by omega)]
      rw [hidx] at hp ⊢
      rw [pf_fit_eliminate_eq, h1]
      exact (fold_first_rows s h1 h2 hp 131072 le_rfl).2.2.2 (by omega)
  | succ k ih =>
    rw [pf_fit_solve_upto_succ] at ht
    cases hu : pf_fit_solve_upto (k + 1) s with
    | none =>
      rw [hu] at ht
      exact Option.noConfusion ht
    | some u =>
      rw [hu] at ht
      simp only [Option.some_bind] at ht
      by_cases hp : matrix_get_val u.1 (k + 1) (k + 1) = 0
      · rw [if_pos hp] at ht
        exact Option.noConfusion ht
      · rw [if_neg hp] at ht
        have e := Option.some.inj ht
        subst e
        exact fold_zero_eliminate (k + 1) (k + 1) _ u hk (ih (by omega) u hu)

/-- The elimination loop on working matrices of order `2 ^ 17` always meets a zero pivot: at
column `2 ^ 15` at the latest, whose pivot is a cell of row 0. -/
theorem pf_fit_solve_fold (s : matrix_t K × matrix_t K) (h1 : s.1.rows = 131072)
    (h2 : s.1.cols = 131072) : pf_fit_solve s = none := by
  rw [pf_fit_solve_eq_upto, h2]
  cases hfin : pf_fit_solve_upto 131072 s with
  | none => rfl
  | some fin =>
    exfalso
    obtain ⟨t, ht⟩ := pf_fit_solve_upto_some (show 32768 ≤ 131072 by decide) hfin
    obtain ⟨t2, ht2⟩ := pf_fit_solve_upto_some (show 32768 + 1 ≤ 131072 by decide) hfin
    have hz := fold_upto s h1 h2 32767 (by decide) t ht
    rw [pf_fit_solve_upto_succ, ht] at ht2
    simp only [Option.some_bind] at ht2
    have hp : matrix_get_val t.1 32768 32768 = 0 := by
      unfold matrix_get_val
      rw [fold_idx t.1 hz.2.1 32768 32768 (by decide)]
      exact hz.2.2 _ (by decide)
    rw [if_pos hp] at ht2
    exact Option.noConfusion ht2

end FoldSolve

section ClaimsInterpolationWrap

/-- C6 fails when an allocation fails or the buffer is NULL, and past `2 ^ 32` cells: three
points with pairwise distinct x-values and `order = count = 3` give `PF_EALLOC` under a failing
allocator and `PF_EPARAM` with a NULL buffer, not `PF_OK`; and the `2 ^ 17` points `(i, 0)`,
whose x-values are pairwise distinct, with `order = count = 2 ^ 17` and every allocation
granted give `PF_ESOLVE`: the rows `r` and `r + 2 ^ 15` of the working matrix share their
cells, so the elimination of column 0 leaves row 0 zero and the pivot of column `2 ^ 15`, a
cell of row 0, is zero. The byte count of a matrix of this order does not wrap and the order
is within the range of `int`. -/
theorem pf_fit_interpolates_counterexample :
    ((1 ≤ points_three.count ∧
        ∀ i, i < points_three.count → ∀ j, j < points_three.count →
          points_three.x i = points_three.x j → i = j) ∧
      (pf_fit env_fail (some points_three) points_three.count (some coef_zero)).err =
        PF_EALLOC ∧
      (pf_fit env_ok (some points_three) points_three.count none).err = PF_EPARAM) ∧
    ((1 ≤ points_fold.count ∧
        ∀ i, i < points_fold.count → ∀ j, j < points_fold.count →
          points_fold.x i = points_fold.x j → i = j) ∧
      (∀ k, k < 5 → env_ok.malloc_ok k = true) ∧
      data_len points_fold.count points_fold.count =
        8 * points_fold.count * points_fold.count ∧
      points_fold.count < INT_MOD ∧
      (pf_fit env_ok (some points_fold) points_fold.count (some coef_zero)).err = PF_ESOLVE ∧
      (pf_fit env_ok (some points_fold) points_fold.count (some coef_zero)).err ≠ PF_OK) := by
  have hes : (pf_fit env_ok (some points_fold) points_fold.count (some coef_zero)).err =
      PF_ESOLVE := by
    obtain ⟨_, ma, mb, _, _, _, d1, d2, _, _, _, herr⟩ :=
      pf_fit_system_eq env_ok points_fold 131072 (le_refl _) (fun _ _ => rfl)
    have h := herr coef_zero
    rw [pf_fit_solve_fold (ma, mb) d1 d2] at h
    exact h
  refine ⟨⟨⟨by decide, by decide!⟩, by decide!, by decide!⟩,
    ⟨by decide, fun i _ j _ h => Nat.cast_injective h⟩, fun _ _ => rfl, by decide, by decide,
    hes, ?_⟩
  rw [hes]
  decide

end ClaimsInterpolationWrap

section FillConst
variable {K : Type}

end FillConst

section OnesSystem
variable {K : Type} [LinearOrderedField K]
open Finset

end OnesSystem

section WrapRows
variable {K : Type} [LinearOrderedField K]

end WrapRows

section WrapColumnZero
variable {K : Type} [LinearOrderedField K]

end WrapColumnZero

section WrapColumns
variable {K : Type} [LinearOrderedField K]

end WrapColumns

section WrapGet
variable {K : Type}

end WrapGet

section WrapRun
variable {K : Type} [LinearOrderedField K]

end WrapRun

section SystemRel
variable {K : Type} [LinearOrderedField K]
open Finset

end SystemRel

section ClaimsEqualX
variable {K : Type} [LinearOrderedField K]
open Finset

end ClaimsEqualX

section ClaimsEqualXConcrete

end ClaimsEqualXConcrete

section ColumnStep
variable {K : Type} [LinearOrderedField K]
open Finset

end ColumnStep

section ClaimsColumns
variable {K : Type} [LinearOrderedField K]

end ClaimsColumns

section ClaimsColumnsConcrete

end ClaimsColumnsConcrete

end Polyfit
